import Mathlib

/-!
# Verification of the pda-algorithms repository

Shallow embedding of the four algorithmic engines (FM partitioner,
slicing-tree floorplanner, channel router, transistor-pair path finder)
of the repository, together with proofs and refutations of the frozen
specification claims.

Machine integers (`std::size_t`, `int`) are modelled as `Nat`/`Int`;
`double` arithmetic is modelled exactly over `ℚ` (all concrete values
appearing in theorems and witnesses are exactly representable in
IEEE-754 binary64, so the rational model agrees with the C++ program
on them).
-/

namespace Partition

/-! ## FM partitioner (src/partition/src/fm_partitioner.cc)

Cells are identified by their offset in the cell array, nets by their
offset in the net array (`Cell::Offset`, `Net::Offset`).  A partition
state is the assignment of a block tag to every cell.  -/

inductive BlockTag
  | A
  | B
deriving DecidableEq, Repr

def BlockTag.flip : BlockTag → BlockTag
  | .A => .B
  | .B => .A

abbrev CellId := Nat
abbrev NetId := Nat

/-- The cross-linked cell/net arrays: `cellNets` is, for each cell
offset, the list of nets on the cell (`Cell::nets_`); `netCells` is,
for each net offset, the list of cells on the net (`Net::cells_`). -/
structure Inst where
  cellNets : List (List NetId)
  netCells : List (List CellId)

/-- `FmPartitioner::CalculateDistribution_`: for one net, the pair
`(in_a, in_b)` obtained by tallying the block tags of its cells. -/
def distribution (tags : CellId → BlockTag) (cells : List CellId) : Nat × Nat :=
  (cells.countP (fun c => decide (tags c = BlockTag.A)),
   cells.countP (fun c => decide (tags c = BlockTag.B)))

/-- `FmPartitioner::F`: the component of a net's distribution on the
side of the given cell. -/
def F (tags : CellId → BlockTag) (c : CellId) (dist : Nat × Nat) : Nat :=
  if tags c = BlockTag.A then dist.1 else dist.2

/-- `FmPartitioner::T`: the component of a net's distribution on the
opposite side of the given cell. -/
def T (tags : CellId → BlockTag) (c : CellId) (dist : Nat × Nat) : Nat :=
  if tags c = BlockTag.B then dist.1 else dist.2

/-- The per-net increment of `FmPartitioner::CalculateCellGains_`:
`gain += (F(c,n) == 1); gain -= (T(c,n) == 0)`. -/
def gainStep (inst : Inst) (tags : CellId → BlockTag) (c : CellId) (n : NetId) : Int :=
  (if F tags c (distribution tags (inst.netCells.getD n [])) = 1 then 1 else 0)
    - (if T tags c (distribution tags (inst.netCells.getD n [])) = 0 then 1 else 0)

/-- `FmPartitioner::CalculateCellGains_`: the gain of a cell at the
start of a pass. -/
def cellGain (inst : Inst) (tags : CellId → BlockTag) (c : CellId) : Int :=
  (inst.cellNets.getD c []).foldl (fun g n => g + gainStep inst tags c n) 0

/-- `pmax` as computed in the `FmPartitioner` constructor: the maximum
number of pins (`Cell::NumOfPins`, i.e. number of nets) over all cells. -/
def pmax (inst : Inst) : Nat :=
  (inst.cellNets.map List.length).foldl max 0

/-- The length given to each bucket list in the constructor:
`pmax * 2 + 1`. -/
def bucketLen (inst : Inst) : Nat := pmax inst * 2 + 1

/-- `FmPartitioner::Bucket_::ToIndex`: `gain + pmax`. -/
def toIndex (p : Nat) (g : Int) : Int := g + p

/-- `FmPartitioner::IsBalancedAfterMoving_` on the resulting size `s`
of the from-block (`from.Size() - 1` in the code): the bounds are
`static_cast<std::size_t>((0.5 ∓ r/2) * n)`, i.e. truncation of the
products, which for the non-negative values arising from a balance
factor `0 ≤ r ≤ 1` is the floor. -/
def isBalancedAfterMoving (r : ℚ) (n : Nat) (s : Nat) : Bool :=
  let lb : Nat := (⌊(1/2 - r/2) * (n : ℚ)⌋).toNat
  let ub : Nat := (⌊(1/2 + r/2) * (n : ℚ)⌋).toNat
  lb ≤ s && s ≤ ub

/-- The balance predicate exactly as the specification claim words it:
`⌈(0.5 − r/2)·n⌉ ≤ s ≤ ⌊(0.5 + r/2)·n⌋` (for comparison with the
code's predicate). -/
def specBalanced (r : ℚ) (n : Nat) (s : Nat) : Prop :=
  ⌈(1/2 - r/2) * (n : ℚ)⌉ ≤ (s : Int) ∧ (s : Int) ≤ ⌊(1/2 + r/2) * (n : ℚ)⌋

instance (r : ℚ) (n s : Nat) : Decidable (specBalanced r n s) := by
  unfold specBalanced; infer_instance

/-- One record of the move history (`FmPartitioner::Record_`). -/
structure Record where
  gain : Int
  cell : CellId
  isBalanced : Bool

/-- One step of the scan of
`FmPartitioner::FindPartitionOfMaxPositiveBalancedGainFromHistory_`:
state is `(i, curr_gain, max_gain, max_gain_idx)`. -/
def maxGainStep (st : Nat × Int × Int × Int) (r : Record) : Nat × Int × Int × Int :=
  let i := st.1
  let curr := st.2.1
  let maxg := st.2.2.1
  let idx := st.2.2.2
  let curr' := curr + r.gain
  if curr' > maxg ∧ r.isBalanced then (i + 1, curr', curr', (i : Int))
  else (i + 1, curr', maxg, idx)

/-- `FmPartitioner::FindPartitionOfMaxPositiveBalancedGainFromHistory_`:
scans the history accumulating the running gain; remembers the last
index at which the running gain strictly exceeds the best so far
(initially `0`) and the move was balanced.  Returns `-1` if there is
no such index. -/
def findMaxGainIdx (history : List Record) : Int :=
  (history.foldl maxGainStep (0, 0, 0, -1)).2.2.2

/-- The cumulative gain of the history prefix of length `k`. -/
def prefixGain (history : List Record) (k : Nat) : Int :=
  ((history.take k).map Record.gain).sum

/-- The effect of one reverting step of
`FmPartitioner::RevertAllMovesAfter_` on the tag assignment: the
cell's block tag is flipped (A to B or B to A). -/
def flipCell (tags : CellId → BlockTag) (r : Record) : CellId → BlockTag :=
  Function.update tags r.cell (tags r.cell).flip

/-- `FmPartitioner::RevertAllMovesAfter_ idx`: flips the tag of the
cell of every history record from index `idx` on, in order. -/
def revertAllMovesAfter (idx : Nat) (history : List Record)
    (tags : CellId → BlockTag) : CellId → BlockTag :=
  (history.drop idx).foldl flipCell tags

/-- The effect of `FmPartitioner::RunPass_` on the tag assignment: the
pass moves each chosen base cell once, setting
`base_cell->block_tag = to.Tag()`, i.e. flipping its tag; the history
lists the moved cells in order. -/
def applyPassMoves (tags : CellId → BlockTag) (history : List Record) :
    CellId → BlockTag :=
  history.foldl flipCell tags

/-- Block sizes derived from the tag assignment (`Block::Size`; the
blocks hold exactly the cells currently tagged with them, and
`RevertAllMovesAfter_` keeps this consistent with its `Add`/`Remove`
calls). -/
def blockSizes (cells : List CellId) (tags : CellId → BlockTag) : Nat × Nat :=
  (cells.countP (fun c => decide (tags c = BlockTag.A)),
   cells.countP (fun c => decide (tags c = BlockTag.B)))

theorem flip_flip (t : BlockTag) : t.flip.flip = t := by
  cases t <;> rfl

theorem flipCell_apply (tags : CellId → BlockTag) (r : Record) (x : CellId) :
    flipCell tags r x = if r.cell = x then (tags x).flip else tags x := by
  unfold flipCell
  rcases eq_or_ne r.cell x with h | h
  · subst h; simp [Function.update]
  · simp [Function.update, Ne.symm h, h]

/-- Folding `flipCell` over a list flips each cell's tag once per
occurrence of the cell in the list. -/
theorem foldl_flipCell_apply (l : List Record) (tags : CellId → BlockTag) (x : CellId) :
    (l.foldl flipCell tags) x
      = (BlockTag.flip)^[l.countP (fun r => decide (r.cell = x))] (tags x) := by
  induction l generalizing tags with
  | nil => simp
  | cons r l ih =>
    rw [List.foldl_cons, ih, List.countP_cons]
    rcases eq_or_ne r.cell x with h | h
    · have hd : (decide (r.cell = x)) = true := by simp [h]
      rw [hd, flipCell_apply, if_pos h, if_pos rfl, Function.iterate_succ_apply]
    · have hd : (decide (r.cell = x)) = false := by simp [h]
      rw [hd, flipCell_apply, if_neg h]
      simp

theorem flip_iterate_two_mul (k : Nat) (t : BlockTag) :
    (BlockTag.flip)^[2 * k] t = t := by
  induction k with
  | zero => rfl
  | succ k ih =>
    have h2 : 2 * (k + 1) = (2 * k) + 2 := by ring
    rw [h2, Function.iterate_add_apply]
    simpa [flip_flip] using ih

/-- Reverting from index 0 undoes a whole pass on the tags. -/
theorem revert_applyPass (history : List Record) (tags : CellId → BlockTag) :
    revertAllMovesAfter 0 history (applyPassMoves tags history) = tags := by
  funext x
  unfold revertAllMovesAfter applyPassMoves
  rw [List.drop_zero, foldl_flipCell_apply, foldl_flipCell_apply,
    ← Function.iterate_add_apply]
  have h2 : history.countP (fun r => decide (r.cell = x))
      + history.countP (fun r => decide (r.cell = x))
      = 2 * history.countP (fun r => decide (r.cell = x)) := by ring
  rw [h2, flip_iterate_two_mul]

/-- If, from a running gain `curr₀` and best `maxg₀`, no nonempty
prefix of the remaining history pushes the running gain above the best
with a balanced last move, the scan never updates `(maxg, idx)`. -/
theorem foldl_maxGainStep_frozen (l : List Record) :
    ∀ (i₀ : Nat) (curr₀ maxg₀ idx₀ : Int),
      (∀ k, 1 ≤ k → k ≤ l.length →
        ¬(curr₀ + prefixGain l k > maxg₀ ∧
          (l.getD (k - 1) ⟨0, 0, false⟩).isBalanced = true)) →
      (l.foldl maxGainStep (i₀, curr₀, maxg₀, idx₀)).2.2.2 = idx₀ := by
  induction l with
  | nil => intro _ _ _ _ _; rfl
  | cons r l ih =>
    intro i₀ curr₀ maxg₀ idx₀ hno
    rw [List.foldl_cons]
    have h1 : ¬(curr₀ + r.gain > maxg₀ ∧ r.isBalanced) := by
      have := hno 1 (by omega) (by simp)
      simpa [prefixGain] using this
    have hstep : maxGainStep (i₀, curr₀, maxg₀, idx₀) r
        = (i₀ + 1, curr₀ + r.gain, maxg₀, idx₀) := by
      unfold maxGainStep
      simp only [if_neg h1]
    rw [hstep]
    refine ih (i₀ + 1) (curr₀ + r.gain) maxg₀ idx₀ ?_
    intro k hk1 hk
    have hmain := hno (k + 1) (by omega) (by simpa using Nat.succ_le_succ hk)
    intro hcon
    apply hmain
    constructor
    · have hpg : prefixGain (r :: l) (k + 1) = r.gain + prefixGain l k := by
        simp [prefixGain]
      rw [hpg]
      have := hcon.1
      linarith
    · have hget : (r :: l).getD (k + 1 - 1) ⟨0, 0, false⟩
          = l.getD (k - 1) ⟨0, 0, false⟩ := by
        have hk' : k + 1 - 1 = (k - 1) + 1 := by omega
        rw [hk']
        rfl
      rw [hget]
      exact hcon.2

/-- If no nonempty prefix of the history has positive cumulative gain
with a balanced last move, the scan returns `-1`. -/
theorem findMaxGainIdx_eq_neg_one (history : List Record)
    (hno : ∀ k, 1 ≤ k → k ≤ history.length →
      ¬(prefixGain history k > 0 ∧
        (history.getD (k - 1) ⟨0, 0, false⟩).isBalanced = true)) :
    findMaxGainIdx history = -1 := by
  unfold findMaxGainIdx
  refine foldl_maxGainStep_frozen history 0 0 0 (-1) ?_
  intro k hk1 hk
  have := hno k hk1 hk
  simpa using this

/-- The loop exit test of `FmPartitioner::Partition` (lines 100–102):
the pass loop breaks exactly when the scan returned `-1`. -/
def partitionerStops (history : List Record) : Bool :=
  findMaxGainIdx history == -1

/-- Generic foldl-into-sum lemma for the gain accumulation. -/
theorem foldl_add_eq_sum (f : NetId → Int) (l : List NetId) (a : Int) :
    l.foldl (fun g n => g + f n) a = a + (l.map f).sum := by
  induction l generalizing a with
  | nil => simp
  | cons n l ih =>
    rw [List.foldl_cons, ih]
    simp [add_assoc]

theorem sum_indicator_eq_countP (p : NetId → Prop) [DecidablePred p]
    (l : List NetId) :
    (l.map (fun n => if p n then (1 : Int) else 0)).sum
      = (l.countP (fun n => decide (p n)) : Int) := by
  induction l with
  | nil => simp
  | cons n l ih =>
    rw [List.map_cons, List.sum_cons, ih, List.countP_cons]
    by_cases h : p n
    · simp [h]
      omega
    · simp [h]

theorem neg_length_le_sum_of_bounded (l : List NetId) (f : NetId → Int)
    (hb : ∀ n, -1 ≤ f n ∧ f n ≤ 1) :
    -(l.length : Int) ≤ (l.map f).sum ∧ (l.map f).sum ≤ l.length := by
  induction l with
  | nil => simp
  | cons n l ih =>
    rw [List.map_cons, List.sum_cons]
    have h1 := hb n
    constructor
    · have := ih.1
      simp only [List.length_cons]
      push_cast
      linarith
    · have := ih.2
      simp only [List.length_cons]
      push_cast
      linarith

theorem gainStep_bounds (inst : Inst) (tags : CellId → BlockTag) (c : CellId)
    (n : NetId) : -1 ≤ gainStep inst tags c n ∧ gainStep inst tags c n ≤ 1 := by
  unfold gainStep
  split <;> split <;> simp

theorem length_le_foldl_max (l : List Nat) (a x : Nat) (hx : x ∈ l) :
    x ≤ l.foldl max a := by
  induction l generalizing a with
  | nil => cases hx
  | cons y l ih =>
    rw [List.foldl_cons]
    rcases List.mem_cons.mp hx with h | h
    · subst h
      calc x ≤ max a x := le_max_right a x
        _ ≤ (l.foldl max (max a x)) := by
          clear ih hx
          induction l generalizing a x with
          | nil => simp
          | cons z l ihz =>
            rw [List.foldl_cons]
            calc max a x ≤ max (max a x) z := le_max_left _ _
              _ ≤ _ := ihz _ _
    · exact ih _ h

/-- C3: a pass with no positive-gain balanced prefix reverts every
move, restoring all block tags and both block sizes, and the
partitioner's pass loop stops.  The hypothesis is the claim's
premise; the history cells each record one flip of the moved cell's
tag as performed by `RunPass_`. -/
theorem pass_without_positive_balanced_prefix_reverts
    (cells : List CellId) (history : List Record) (tags : CellId → BlockTag)
    (hno : ∀ k, 1 ≤ k → k ≤ history.length →
      ¬(prefixGain history k > 0 ∧
        (history.getD (k - 1) ⟨0, 0, false⟩).isBalanced = true)) :
    findMaxGainIdx history = -1
    ∧ revertAllMovesAfter ((findMaxGainIdx history + 1).toNat) history
        (applyPassMoves tags history) = tags
    ∧ blockSizes cells
        (revertAllMovesAfter ((findMaxGainIdx history + 1).toNat) history
          (applyPassMoves tags history)) = blockSizes cells tags
    ∧ partitionerStops history = true := by
  have hidx : findMaxGainIdx history = -1 := findMaxGainIdx_eq_neg_one history hno
  have hrev : revertAllMovesAfter ((findMaxGainIdx history + 1).toNat) history
      (applyPassMoves tags history) = tags := by
    rw [hidx]
    simpa using revert_applyPass history tags
  refine ⟨hidx, hrev, by rw [hrev], ?_⟩
  simp [partitionerStops, hidx]

/-- C3 witness: a pass moving cells 0 and 1 with cumulative gains
never positive is fully reverted. -/
theorem pass_without_positive_balanced_prefix_reverts_witness :
    findMaxGainIdx [⟨-1, 0, true⟩, ⟨0, 1, true⟩] = -1
    ∧ revertAllMovesAfter ((findMaxGainIdx [⟨-1, 0, true⟩, ⟨0, 1, true⟩] + 1).toNat)
        [⟨-1, 0, true⟩, ⟨0, 1, true⟩]
        (applyPassMoves (fun _ => BlockTag.A) [⟨-1, 0, true⟩, ⟨0, 1, true⟩])
      = (fun _ => BlockTag.A)
    ∧ blockSizes [0, 1, 2]
        (revertAllMovesAfter ((findMaxGainIdx [⟨-1, 0, true⟩, ⟨0, 1, true⟩] + 1).toNat)
          [⟨-1, 0, true⟩, ⟨0, 1, true⟩]
          (applyPassMoves (fun _ => BlockTag.A) [⟨-1, 0, true⟩, ⟨0, 1, true⟩]))
      = blockSizes [0, 1, 2] (fun _ => BlockTag.A)
    ∧ partitionerStops [⟨-1, 0, true⟩, ⟨0, 1, true⟩] = true :=
  pass_without_positive_balanced_prefix_reverts [0, 1, 2]
    [⟨-1, 0, true⟩, ⟨0, 1, true⟩] (fun _ => BlockTag.A)
    (by
      intro k hk1 hk
      have hk2 : k = 1 ∨ k = 2 := by
        simp only [List.length_cons, List.length_nil] at hk
        omega
      rcases hk2 with rfl | rfl
      · decide
      · decide)

/-- C5 counterexample: with 5 cells and balance factor 1/2, the code's
balance predicate accepts a resulting from-block size of 1, while the
claimed formula `⌈(0.5 − r/2)·n⌉ ≤ s` demands `2 ≤ s`. -/
theorem balance_predicate_ceil_counterexample :
    isBalancedAfterMoving (1/2) 5 1 = true ∧ ¬ specBalanced (1/2) 5 1 := by
  constructor
  · norm_num [isBalancedAfterMoving]
  · norm_num [specBalanced, Int.lt_ceil]

/-- C5 (amended): the balance predicate used by the partitioner holds
for the from-block's resulting size `s` iff
`⌊(0.5 − r/2)·n⌋ ≤ s ≤ ⌊(0.5 + r/2)·n⌋` — the lower bound is the
floor (C++ `static_cast<std::size_t>` truncation) rather than the
ceiling. -/
theorem balance_predicate_floor_iff (r : ℚ) (n s : Nat)
    (h0 : 0 ≤ r) :
    isBalancedAfterMoving r n s = true ↔
      ⌊(1/2 - r/2) * (n : ℚ)⌋ ≤ (s : Int)
        ∧ (s : Int) ≤ ⌊(1/2 + r/2) * (n : ℚ)⌋ := by
  unfold isBalancedAfterMoving
  rw [Bool.and_eq_true, decide_eq_true_eq, decide_eq_true_eq]
  have hub : (0 : Int) ≤ ⌊(1/2 + r/2) * (n : ℚ)⌋ := by
    apply Int.floor_nonneg.mpr
    positivity
  constructor
  · rintro ⟨hl, hu⟩
    refine ⟨?_, ?_⟩
    · calc ⌊(1/2 - r/2) * (n : ℚ)⌋
          ≤ ((⌊(1/2 - r/2) * (n : ℚ)⌋).toNat : Int) := Int.self_le_toNat _
        _ ≤ (s : Int) := by exact_mod_cast hl
    · rw [← Int.le_toNat hub]
      exact_mod_cast hu
  · rintro ⟨hl, hu⟩
    refine ⟨?_, ?_⟩
    · have : (⌊(1/2 - r/2) * (n : ℚ)⌋).toNat ≤ (s : Int).toNat :=
        Int.toNat_le_toNat hl
      simpa using this
    · have := (Int.le_toNat hub).mpr hu
      exact_mod_cast this

/-- C5 witness: the amended characterization at `r = 1/2`, `n = 5`,
`s = 1`. -/
theorem balance_predicate_floor_iff_witness :
    isBalancedAfterMoving (1/2) 5 1 = true ↔
      ⌊(1/2 - (1:ℚ)/2/2) * (5 : ℚ)⌋ ≤ (1 : Int)
        ∧ (1 : Int) ≤ ⌊(1/2 + (1:ℚ)/2/2) * (5 : ℚ)⌋ :=
  balance_predicate_floor_iff (1/2) 5 1 (by norm_num)

/-- C8: at the start of a pass every cell's gain equals the number of
its nets with `F(c,n) = 1` minus the number with `T(c,n) = 0`; this
lies in `[−|nets(c)|, |nets(c)|]`, and the bucket list of length
`2·pmax + 1` with index map `gain + pmax` accommodates every gain in
`[−pmax, pmax]` (where `pmax` is the maximum pin count). -/
theorem cellGain_formula_and_bounds (inst : Inst) (tags : CellId → BlockTag)
    (c : CellId) (hc : c < inst.cellNets.length) :
    cellGain inst tags c
      = ((inst.cellNets.get ⟨c, hc⟩).countP
            (fun n => decide (F tags c (distribution tags (inst.netCells.getD n [])) = 1)) : Int)
        - ((inst.cellNets.get ⟨c, hc⟩).countP
            (fun n => decide (T tags c (distribution tags (inst.netCells.getD n [])) = 0)) : Int)
    ∧ -(((inst.cellNets.get ⟨c, hc⟩).length : Int)) ≤ cellGain inst tags c
    ∧ cellGain inst tags c ≤ ((inst.cellNets.get ⟨c, hc⟩).length : Int)
    ∧ (inst.cellNets.get ⟨c, hc⟩).length ≤ pmax inst
    ∧ (∀ g : Int, -(pmax inst : Int) ≤ g → g ≤ (pmax inst : Int) →
        0 ≤ toIndex (pmax inst) g ∧ toIndex (pmax inst) g < (bucketLen inst : Int)) := by
  have hgetD : inst.cellNets.getD c [] = inst.cellNets.get ⟨c, hc⟩ := by
    rw [List.getD_eq_getElem?_getD, List.getElem?_eq_getElem hc]
    rfl
  set l := inst.cellNets.get ⟨c, hc⟩ with hl
  have hsum : cellGain inst tags c = (l.map (gainStep inst tags c)).sum := by
    unfold cellGain
    rw [hgetD, foldl_add_eq_sum]
    simp
  refine ⟨?_, ?_, ?_, ?_, ?_⟩
  · rw [hsum]
    have : (l.map (gainStep inst tags c)).sum
        = (l.map (fun n =>
            if F tags c (distribution tags (inst.netCells.getD n [])) = 1
            then (1 : Int) else 0)).sum
          - (l.map (fun n =>
            if T tags c (distribution tags (inst.netCells.getD n [])) = 0
            then (1 : Int) else 0)).sum := by
      induction l with
      | nil => simp
      | cons n t iht =>
        simp only [List.map_cons, List.sum_cons]
        rw [iht]
        unfold gainStep
        ring
    rw [this, sum_indicator_eq_countP, sum_indicator_eq_countP]
  · rw [hsum]
    exact (neg_length_le_sum_of_bounded l _ (gainStep_bounds inst tags c)).1
  · rw [hsum]
    exact (neg_length_le_sum_of_bounded l _ (gainStep_bounds inst tags c)).2
  · unfold pmax
    apply length_le_foldl_max
    apply List.mem_map_of_mem
    rw [hl]
    exact List.get_mem _ _ _
  · intro g hg1 hg2
    unfold toIndex bucketLen
    constructor
    · linarith
    · push_cast
      linarith

/-- C8 witness: a two-cell, one-net instance. -/
theorem cellGain_formula_and_bounds_witness :
    cellGain ⟨[[0], [0]], [[0, 1]]⟩ (fun _ => BlockTag.A) 0
      = ((([[0], [0]] : List (List NetId)).get ⟨0, by norm_num⟩).countP
            (fun n => decide (F (fun _ => BlockTag.A) 0
              (distribution (fun _ => BlockTag.A)
                (([[0, 1]] : List (List CellId)).getD n [])) = 1)) : Int)
        - ((([[0], [0]] : List (List NetId)).get ⟨0, by norm_num⟩).countP
            (fun n => decide (T (fun _ => BlockTag.A) 0
              (distribution (fun _ => BlockTag.A)
                (([[0, 1]] : List (List CellId)).getD n [])) = 0)) : Int)
    ∧ -(((([[0], [0]] : List (List NetId)).get ⟨0, by norm_num⟩).length : Int))
        ≤ cellGain ⟨[[0], [0]], [[0, 1]]⟩ (fun _ => BlockTag.A) 0
    ∧ cellGain ⟨[[0], [0]], [[0, 1]]⟩ (fun _ => BlockTag.A) 0
        ≤ ((([[0], [0]] : List (List NetId)).get ⟨0, by norm_num⟩).length : Int)
    ∧ (([[0], [0]] : List (List NetId)).get ⟨0, by norm_num⟩).length
        ≤ pmax ⟨[[0], [0]], [[0, 1]]⟩
    ∧ (∀ g : Int, -(pmax ⟨[[0], [0]], [[0, 1]]⟩ : Int) ≤ g →
        g ≤ (pmax ⟨[[0], [0]], [[0, 1]]⟩ : Int) →
        0 ≤ toIndex (pmax ⟨[[0], [0]], [[0, 1]]⟩) g
          ∧ toIndex (pmax ⟨[[0], [0]], [[0, 1]]⟩) g
              < (bucketLen ⟨[[0], [0]], [[0, 1]]⟩ : Int)) :=
  cellGain_formula_and_bounds ⟨[[0], [0]], [[0, 1]]⟩ (fun _ => BlockTag.A) 0
    (by norm_num)

end Partition

namespace Floorplan

/-! ## Slicing-tree floorplanner (src/floorplan/src/tree.cc)

The polish expression is a list of block/cut entries; the slicing tree
is an inductive binary tree.  The C++ code stores the width/height of
every cut node in a composite block refreshed by `CutNode::Update`
(recomputation from the children); in this model the width and height
of a subtree are the corresponding recursive functions of the
structure, which is the value the refreshed stored fields hold.

The C++ expression slots carry shared pointers to their tree nodes.
Tree nodes are addressed here by their root path; where a node pointer
survives a structural edit (the block/cut swap), the path under which
the restore operation reaches the node is recorded in the move record,
mirroring the fact that the C++ pointer keeps designating the same
node after the edit. -/

inductive Cut
  | H
  | V
deriving DecidableEq, Repr

def Cut.invert : Cut → Cut
  | .H => .V
  | .V => .H

structure Block where
  id : Nat
  width : Nat
  height : Nat
deriving DecidableEq, Repr

inductive BlockOrCut
  | blk (b : Block)
  | cut (c : Cut)
deriving DecidableEq, Repr

def BlockOrCut.isBlock : BlockOrCut → Bool
  | .blk _ => true
  | .cut _ => false

def BlockOrCut.isCut : BlockOrCut → Bool
  | .blk _ => false
  | .cut _ => true

/-- `BlockOrCutWithTreeNodePtr::InvertCut` restricted to the entry
(the code asserts the entry is a cut). -/
def BlockOrCut.invertEntry : BlockOrCut → BlockOrCut
  | .cut c => .cut c.invert
  | .blk b => .blk b

abbrev Expr := List BlockOrCut

/-- The default entry used for out-of-range `getD` reads; every read
in the development is proved (or assumed via validity hypotheses) to
be in bounds, matching the bounds-checked `std::vector::at`. -/
def dflt : BlockOrCut := BlockOrCut.cut Cut.H

/-- `SlicingTree::InitFloorplanPolishExpr_`: the expression
`b₀ b₁ C₁ b₂ C₂ … b_{n−1} C_{n−1}` where the `Cᵢ` are the drawn random
cuts. -/
def initExpr (blocks : List Block) (cuts : List Cut) : Expr :=
  match blocks with
  | [] => []
  | b₀ :: rest =>
    BlockOrCut.blk b₀
      :: (rest.zip cuts).flatMap (fun p => [BlockOrCut.blk p.1, BlockOrCut.cut p.2])

/-- The initial cut-and-block adjacency index built in
`InitFloorplanPolishExpr_`: `i * 2` for `i = 1 … n − 2`. -/
def initPairs (n : Nat) : List Nat :=
  (List.range (n - 2)).map (fun i => (i + 1) * 2)

inductive Tree
  | leaf (b : Block)
  | node (c : Cut) (l r : Tree)
deriving DecidableEq, Repr

/-- `CutNode::UpdateWidth_` / `BlockNode::Width`: `H` cut takes the
maximum of the children, `V` cut the sum. -/
def Tree.width : Tree → Nat
  | .leaf b => b.width
  | .node .H l r => max l.width r.width
  | .node .V l r => l.width + r.width

/-- `CutNode::UpdateHeight_` / `BlockNode::Height`: `V` cut takes the
maximum of the children, `H` cut the sum. -/
def Tree.height : Tree → Nat
  | .leaf b => b.height
  | .node .V l r => max l.height r.height
  | .node .H l r => l.height + r.height

inductive Dir
  | left
  | right
deriving DecidableEq, Repr

/-- A tree node is addressed by the sequence of child steps from the
root. -/
abbrev TPath := List Dir

def subtreeAt : Tree → TPath → Option Tree
  | t, [] => some t
  | .leaf _, _ :: _ => none
  | .node _ l _, .left :: p => subtreeAt l p
  | .node _ _ r, .right :: p => subtreeAt r p

def replaceAt : Tree → TPath → Tree → Tree
  | _, [], s => s
  | .leaf b, _ :: _, _ => .leaf b
  | .node c l r, .left :: p, s => .node c (replaceAt l p s) r
  | .node c l r, .right :: p, s => .node c l (replaceAt r p s)

/-- `SlicingTree::SwapBlockNode_`: rewires the parent child-pointers
of the two (block) nodes, i.e. exchanges the subtrees rooted at the
two addresses, then refreshes all ancestors. -/
def swapBlockNode (t : Tree) (p q : TPath) : Tree :=
  match subtreeAt t p, subtreeAt t q with
  | some a, some b => replaceAt (replaceAt t p b) q a
  | _, _ => t

/-- `CutNode::InvertCut` on the node addressed by `p` (flips the cut
direction of that node only; sizes are derived). -/
def invertCutAt : Tree → TPath → Tree
  | .node c l r, [] => .node c.invert l r
  | .leaf b, [] => .leaf b
  | .leaf b, _ :: _ => .leaf b
  | .node c l r, .left :: p => .node c (invertCutAt l p) r
  | .node c l r, .right :: p => .node c l (invertCutAt r p)

/-- Embeds the new cut node (carrying the old right child `r` of the
swapped cut) just above the leftmost leaf: the left-spine descent of
`SwapBlockNodeWithCutNode_`, whose case (1) is the leftmost leaf being
the direct right sibling. -/
def growLeft (c : Cut) (r : Tree) : Tree → Tree
  | .leaf b => .node c r (.leaf b)
  | .node d x y => .node d (growLeft c r x) y

/-- `SlicingTree::SwapBlockNodeWithCutNode_` applied underneath the
parent of the cut node, addressed by `pp`: the cut's left child is
promoted into the parent slot, the cut keeps its right child on the
left and adopts the block (the leftmost leaf of its right sibling) as
new right child. -/
def swapBlockNodeWithCutNode (t : Tree) (pp : TPath) : Tree :=
  match subtreeAt t pp with
  | some (.node c₁ (.node c₂ l r) s) =>
      replaceAt t pp (.node c₁ l (growLeft c₂ r s))
  | _ => t

/-- Number of steps of the all-left spine down to the leftmost leaf. -/
def leftDepth : Tree → Nat
  | .leaf _ => 0
  | .node _ l _ => leftDepth l + 1

def leftmostLeaf : Tree → Tree
  | .leaf b => .leaf b
  | .node _ l _ => leftmostLeaf l

/-- The walk of `ReverseBlockNodeWithCutNode_` from the cut node up to
the first ancestor that is a right child: in path terms, trailing
left-steps are removed. -/
def dropTrailingLefts (p : TPath) : TPath :=
  (p.reverse.dropWhile (fun d => decide (d = Dir.left))).reverse

/-- Reads the node sitting `k` left-steps down. -/
def extractAtLeftSpine : Tree → Nat → Option Tree
  | t, 0 => some t
  | .leaf _, _ + 1 => none
  | .node _ l _, k + 1 => extractAtLeftSpine l k

/-- Replaces the node sitting `k` left-steps down. -/
def setAtLeftSpine : Tree → Nat → Tree → Tree
  | _, 0, s => s
  | .leaf b, _ + 1, _ => .leaf b
  | .node c l r, k + 1, s => .node c (setAtLeftSpine l k s) r

/-- `SlicingTree::ReverseBlockNodeWithCutNode_` given the address of
the cut node in the perturbed tree: walk up to the first right-child
ancestor (drop the trailing left steps), take its parent, pull the
cut node out of the left spine (its right child, a block leaf, takes
its place) and re-hang it as the parent's left child above the
parent's previous left child. -/
def reverseBlockNodeWithCutNode (t : Tree) (pcut : TPath) : Tree :=
  match (dropTrailingLefts pcut).getLast? with
  | some Dir.right =>
    match subtreeAt t (dropTrailingLefts pcut).dropLast with
    | some (.node c₁ lp sp) =>
      match extractAtLeftSpine sp (pcut.length - (dropTrailingLefts pcut).length) with
      | some (.node c₂ r (.leaf b)) =>
          replaceAt t (dropTrailingLefts pcut).dropLast
            (.node c₁ (.node c₂ lp r)
              (setAtLeftSpine sp
                (pcut.length - (dropTrailingLefts pcut).length) (.leaf b)))
      | _ => t
    | _ => t
  | _ => t

/-- `std::swap(polish_expr_.at(i), polish_expr_.at(i+1))`. -/
def swapAdj (e : Expr) (i : Nat) : Expr :=
  match i, e with
  | 0, a :: b :: rest => b :: a :: rest
  | 0, e => e
  | _ + 1, [] => []
  | n + 1, x :: rest => x :: swapAdj rest n

/-- The chain-invert loop `for i = li; i < ui; i++: at(i).InvertCut()`:
entry `i` is inverted iff `li ≤ i < ui` (recursion shifts both bounds
while walking down the list). -/
def invertRange (e : Expr) (li ui : Nat) : Expr :=
  match ui, e, li with
  | 0, e, _ => e
  | _ + 1, [], _ => []
  | ui + 1, x :: rest, 0 => x.invertEntry :: invertRange rest 0 ui
  | ui + 1, x :: rest, li + 1 => x :: invertRange rest li ui

/-- `SlicingTree::UpdatePairsFormedByNeighbors_` (called, after the
expression swap, with the new cut position `c + 1`; `c` is the new
block position, i.e. the pre-swap cut index): the chosen pair is
erased and the pairs newly formed with the two neighbours are pushed
back. -/
def updatePairs (pairs : List Nat) (pairIdx : Nat) (e' : Expr) (c : Nat) :
    List Nat :=
  let ps := pairs.eraseIdx pairIdx
  let ps := if 0 < c ∧ (e'.getD (c - 1) dflt).isCut then ps ++ [c - 1] else ps
  if c + 1 < e'.length - 1 ∧ (e'.getD (c + 2) dflt).isBlock then ps ++ [c + 1]
  else ps

/-- `SlicingTree::RestoredPairsFormedByNeighbors_` (called after the
reverse swap with the original cut index `c`; the block index is
`c + 1`): the pairs that had been formed with the neighbours are
erased (first occurrence, as `std::find` + `erase`), and the pair at
`c` is pushed back.  The two element accesses carry no bounds guard
in the code (see the safety claim). -/
def restorePairs (pairs : List Nat) (e : Expr) (c : Nat) : List Nat :=
  let ps := if (e.getD (c + 2) dflt).isBlock then pairs.erase (c + 1) else pairs
  let ps := if (e.getD (c - 1) dflt).isCut then ps.erase (c - 1) else ps
  ps ++ [c]

/-- The mutable floorplanner state affected by `Perturb`/`Restore`:
the polish expression, the slicing tree and the cut-and-block
adjacency index. -/
structure FState where
  expr : Expr
  tree : Tree
  pairs : List Nat
deriving DecidableEq, Repr

/-- The data recorded by a perturbation for its restoration
(`SlicingTree::MoveRecord_` plus, for the block/cut swap, the address
under which the node pointer kept by the expression slot reaches the
swapped cut node in the perturbed tree). -/
inductive MoveRec
  | blockSwap (i : Nat) (pa pb : TPath)
  | chainInvert (li ui : Nat) (ps : List TPath)
  | blockCutSwap (blockIdx cutIdx : Nat) (pcut : TPath)
deriving DecidableEq, Repr

/-- A resolved random choice of `SlicingTree::Perturb`: the selected
move with the selected indices (the selection loops only ever return
valid indices) together with the tree addresses of the affected
expression slots' nodes. -/
inductive Choice
  | blockSwap (i : Nat) (pa pb : TPath)
  | chainInvert (li ui : Nat) (ps : List TPath)
  | blockCutSwap (pairIdx : Nat) (pp : TPath)
deriving DecidableEq, Repr

/-- `SlicingTree::Perturb` for a resolved random choice: returns the
perturbed state and the move record. -/
def perturb (s : FState) (ch : Choice) : FState × MoveRec :=
  match ch with
  | .blockSwap i pa pb =>
      (⟨swapAdj s.expr i, swapBlockNode s.tree pa pb, s.pairs⟩,
       .blockSwap i pa pb)
  | .chainInvert li ui ps =>
      (⟨invertRange s.expr li ui, ps.foldl invertCutAt s.tree, s.pairs⟩,
       .chainInvert li ui ps)
  | .blockCutSwap pairIdx pp =>
      let c := s.pairs.getD pairIdx 0
      let e' := swapAdj s.expr c
      let k := match subtreeAt s.tree pp with
               | some (.node _ _ sp) => leftDepth sp
               | _ => 0
      (⟨e', swapBlockNodeWithCutNode s.tree pp,
        updatePairs s.pairs pairIdx e' c⟩,
       .blockCutSwap (c + 1) c (pp ++ Dir.right :: List.replicate k Dir.left))

/-- `SlicingTree::Restore`. -/
def restore (s : FState) (r : MoveRec) : FState :=
  match r with
  | .blockSwap i pa pb =>
      ⟨swapAdj s.expr i, swapBlockNode s.tree pa pb, s.pairs⟩
  | .chainInvert li ui ps =>
      ⟨invertRange s.expr li ui, ps.foldl invertCutAt s.tree, s.pairs⟩
  | .blockCutSwap _ cutIdx pcut =>
      let e := swapAdj s.expr cutIdx
      ⟨e, reverseBlockNodeWithCutNode s.tree pcut,
       restorePairs s.pairs e cutIdx⟩

end Floorplan

namespace Floorplan

theorem Cut.invert_invert (c : Cut) : c.invert.invert = c := by
  cases c <;> rfl

theorem BlockOrCut.invertEntry_invertEntry (x : BlockOrCut) :
    x.invertEntry.invertEntry = x := by
  cases x with
  | blk b => rfl
  | cut c => simp [BlockOrCut.invertEntry, Cut.invert_invert]

theorem subtreeAt_append (t : Tree) (p q : TPath) :
    subtreeAt t (p ++ q) = (subtreeAt t p).bind (fun s => subtreeAt s q) := by
  induction p generalizing t with
  | nil => simp [subtreeAt]
  | cons d p ih =>
    cases t with
    | leaf b => cases d <;> simp [subtreeAt]
    | node c l r => cases d <;> simp [subtreeAt, ih]

theorem subtreeAt_replaceAt_self (t : Tree) (p : TPath) (s : Tree)
    (h : (subtreeAt t p).isSome) :
    subtreeAt (replaceAt t p s) p = some s := by
  induction p generalizing t with
  | nil => simp [subtreeAt, replaceAt]
  | cons d p ih =>
    cases t with
    | leaf b => simp [subtreeAt] at h
    | node c l r => cases d <;> simp_all [subtreeAt, replaceAt]

theorem replaceAt_replaceAt (t : Tree) (p : TPath) (s₁ s₂ : Tree) :
    replaceAt (replaceAt t p s₁) p s₂ = replaceAt t p s₂ := by
  induction p generalizing t with
  | nil => simp [replaceAt]
  | cons d p ih =>
    cases t with
    | leaf b => simp [replaceAt]
    | node c l r => cases d <;> simp [replaceAt, ih]

theorem replaceAt_self (t : Tree) (p : TPath) (s : Tree)
    (h : subtreeAt t p = some s) : replaceAt t p s = t := by
  induction p generalizing t with
  | nil => simp [subtreeAt] at h; simp [replaceAt, h]
  | cons d p ih =>
    cases t with
    | leaf b => simp [replaceAt]
    | node c l r =>
      cases d <;> simp [subtreeAt] at h <;> simp [replaceAt, ih _ h]

theorem subtreeAt_replaceAt_disjoint (t : Tree) (p q : TPath) (s : Tree)
    (hpq : ¬ p <+: q) (hqp : ¬ q <+: p) :
    subtreeAt (replaceAt t p s) q = subtreeAt t q := by
  induction t generalizing p q with
  | leaf b =>
    cases p with
    | nil => exact absurd (List.nil_prefix) hpq
    | cons dp p => simp [replaceAt]
  | node c l r ihl ihr =>
    cases p with
    | nil => exact absurd (List.nil_prefix) hpq
    | cons dp p =>
      cases q with
      | nil => exact absurd (List.nil_prefix) hqp
      | cons dq q =>
        cases dp <;> cases dq <;>
          simp only [replaceAt, subtreeAt] <;>
          first
          | rfl
          | (apply ihl <;> intro hc <;>
              [exact hpq (List.cons_prefix_cons.mpr ⟨rfl, hc⟩);
               exact hqp (List.cons_prefix_cons.mpr ⟨rfl, hc⟩)])
          | (apply ihr <;> intro hc <;>
              [exact hpq (List.cons_prefix_cons.mpr ⟨rfl, hc⟩);
               exact hqp (List.cons_prefix_cons.mpr ⟨rfl, hc⟩)])

theorem replaceAt_comm (t : Tree) (p q : TPath) (s₁ s₂ : Tree)
    (hpq : ¬ p <+: q) (hqp : ¬ q <+: p) :
    replaceAt (replaceAt t p s₁) q s₂ = replaceAt (replaceAt t q s₂) p s₁ := by
  induction t generalizing p q with
  | leaf b =>
    cases p with
    | nil => exact absurd (List.nil_prefix) hpq
    | cons dp p =>
      cases q with
      | nil => exact absurd (List.nil_prefix) hqp
      | cons dq q => simp [replaceAt]
  | node c l r ihl ihr =>
    cases p with
    | nil => exact absurd (List.nil_prefix) hpq
    | cons dp p =>
      cases q with
      | nil => exact absurd (List.nil_prefix) hqp
      | cons dq q =>
        cases dp <;> cases dq <;>
          simp only [replaceAt] <;>
          first
          | rfl
          | (rw [ihl] <;> intro hc <;>
              [exact hpq (List.cons_prefix_cons.mpr ⟨rfl, hc⟩);
               exact hqp (List.cons_prefix_cons.mpr ⟨rfl, hc⟩)])
          | (rw [ihr] <;> intro hc <;>
              [exact hpq (List.cons_prefix_cons.mpr ⟨rfl, hc⟩);
               exact hqp (List.cons_prefix_cons.mpr ⟨rfl, hc⟩)])

/-- A defined address extending an address of a leaf equals it. -/
theorem eq_of_leaf_isSomeExtension (t : Tree) (p q : TPath) (a : Block)
    (hp : subtreeAt t p = some (.leaf a)) (hq : (subtreeAt t q).isSome)
    (hpfx : p <+: q) : p = q := by
  obtain ⟨rest, rfl⟩ := hpfx
  rw [subtreeAt_append, hp] at hq
  cases rest with
  | nil => simp
  | cons d rest => simp [subtreeAt] at hq

/-- C1 tree lemma, block/block move: swapping the subtrees at two
distinct leaf addresses twice restores the tree. -/
theorem swapBlockNode_involutive (t : Tree) (p q : TPath) (a b : Block)
    (hp : subtreeAt t p = some (.leaf a)) (hq : subtreeAt t q = some (.leaf b))
    (hne : p ≠ q) :
    swapBlockNode (swapBlockNode t p q) p q = t := by
  have hqsome : (subtreeAt t q).isSome := by rw [hq]; rfl
  have hpsome : (subtreeAt t p).isSome := by rw [hp]; rfl
  have hpq : ¬ p <+: q := fun h =>
    hne (eq_of_leaf_isSomeExtension t p q a hp hqsome h)
  have hqp : ¬ q <+: p := fun h =>
    (hne (eq_of_leaf_isSomeExtension t q p b hq hpsome h).symm)
  have hinner : swapBlockNode t p q
      = replaceAt (replaceAt t p (.leaf b)) q (.leaf a) := by
    unfold swapBlockNode
    rw [hp, hq]
  rw [hinner]
  have h1 : subtreeAt (replaceAt (replaceAt t p (.leaf b)) q (.leaf a)) p
      = some (.leaf b) := by
    rw [subtreeAt_replaceAt_disjoint _ q p _ hqp hpq,
      subtreeAt_replaceAt_self _ _ _ hpsome]
  have h2 : subtreeAt (replaceAt (replaceAt t p (.leaf b)) q (.leaf a)) q
      = some (.leaf a) := by
    apply subtreeAt_replaceAt_self
    rw [subtreeAt_replaceAt_disjoint _ p q _ hpq hqp, hq]
    rfl
  have houter : swapBlockNode (replaceAt (replaceAt t p (.leaf b)) q (.leaf a)) p q
      = replaceAt
          (replaceAt (replaceAt (replaceAt t p (.leaf b)) q (.leaf a)) p (.leaf a))
          q (.leaf b) := by
    unfold swapBlockNode
    rw [h1, h2]
  rw [houter]
  rw [replaceAt_comm _ q p _ _ hqp hpq, replaceAt_replaceAt, replaceAt_replaceAt,
    replaceAt_self t p (.leaf a) hp, replaceAt_self t q (.leaf b) hq]

theorem invertCutAt_invertCutAt (t : Tree) (p : TPath) :
    invertCutAt (invertCutAt t p) p = t := by
  induction p generalizing t with
  | nil =>
    cases t with
    | leaf b => rfl
    | node c l r => simp [invertCutAt, Cut.invert_invert]
  | cons d p ih =>
    cases t with
    | leaf b => rfl
    | node c l r => cases d <;> simp [invertCutAt, ih]

theorem invertCutAt_comm (t : Tree) (p q : TPath) :
    invertCutAt (invertCutAt t p) q = invertCutAt (invertCutAt t q) p := by
  induction t generalizing p q with
  | leaf b =>
    cases p <;> cases q <;> rfl
  | node c l r ihl ihr =>
    cases p with
    | nil =>
      cases q with
      | nil => rfl
      | cons dq q => cases dq <;> simp [invertCutAt]
    | cons dp p =>
      cases q with
      | nil => cases dp <;> simp [invertCutAt]
      | cons dq q => cases dp <;> cases dq <;> simp [invertCutAt, ihl, ihr]

theorem foldl_invertCutAt_single (ps : List TPath) (t : Tree) (p : TPath) :
    ps.foldl invertCutAt (invertCutAt t p)
      = invertCutAt (ps.foldl invertCutAt t) p := by
  induction ps generalizing t with
  | nil => rfl
  | cons q ps ih =>
    rw [List.foldl_cons, List.foldl_cons, invertCutAt_comm, ih]

/-- C1 tree lemma, chain-invert move: inverting the same family of cut
nodes twice restores the tree. -/
theorem foldl_invertCutAt_involutive (ps : List TPath) (t : Tree) :
    ps.foldl invertCutAt (ps.foldl invertCutAt t) = t := by
  induction ps generalizing t with
  | nil => rfl
  | cons p ps ih =>
    rw [List.foldl_cons, List.foldl_cons, ← foldl_invertCutAt_single,
      invertCutAt_invertCutAt, ih]

theorem extractAtLeftSpine_growLeft (c : Cut) (r s : Tree) :
    extractAtLeftSpine (growLeft c r s) (leftDepth s)
      = some (.node c r (leftmostLeaf s)) := by
  induction s with
  | leaf b => rfl
  | node d x y ihx ihy => simp [growLeft, leftDepth, extractAtLeftSpine, ihx, leftmostLeaf]

theorem leftmostLeaf_is_leaf (s : Tree) : ∃ b, leftmostLeaf s = .leaf b := by
  induction s with
  | leaf b => exact ⟨b, rfl⟩
  | node d x y ihx ihy => simpa [leftmostLeaf] using ihx

theorem setAtLeftSpine_growLeft (c : Cut) (r s : Tree) :
    setAtLeftSpine (growLeft c r s) (leftDepth s) (leftmostLeaf s) = s := by
  induction s with
  | leaf b => rfl
  | node d x y ihx ihy => simp [growLeft, leftDepth, setAtLeftSpine, ihx, leftmostLeaf]

theorem dropWhile_replicate_left (k : Nat) (l : List Dir) :
    (List.replicate k Dir.left ++ l).dropWhile (fun d => decide (d = Dir.left))
      = l.dropWhile (fun d => decide (d = Dir.left)) := by
  induction k with
  | zero => simp
  | succ k ih => simp [List.replicate_succ, List.dropWhile, ih]

theorem dropTrailingLefts_spec (p : TPath) (k : Nat) :
    dropTrailingLefts (p ++ Dir.right :: List.replicate k Dir.left)
      = p ++ [Dir.right] := by
  unfold dropTrailingLefts
  rw [List.reverse_append, List.reverse_cons, List.reverse_replicate,
    List.append_assoc, dropWhile_replicate_left]
  have hstep : ([Dir.right] ++ p.reverse).dropWhile (fun d => decide (d = Dir.left))
      = Dir.right :: p.reverse := by
    simp [List.dropWhile]
  rw [hstep, List.reverse_cons, List.reverse_reverse]

/-- C1 tree lemma, block/cut move: the reverse tree surgery of
`Restore`, addressed through the node pointer of the swapped cut
(which after the forward surgery lives `leftDepth s` left-steps below
the parent's right child), undoes the forward surgery of `Perturb`. -/
theorem reverse_swapBlockNodeWithCutNode (t : Tree) (pp : TPath)
    (c₁ c₂ : Cut) (l r s : Tree)
    (h : subtreeAt t pp = some (.node c₁ (.node c₂ l r) s)) :
    reverseBlockNodeWithCutNode (swapBlockNodeWithCutNode t pp)
      (pp ++ Dir.right :: List.replicate (leftDepth s) Dir.left) = t := by
  have hsome : (subtreeAt t pp).isSome := by rw [h]; rfl
  have hfwd : swapBlockNodeWithCutNode t pp
      = replaceAt t pp (.node c₁ l (growLeft c₂ r s)) := by
    unfold swapBlockNodeWithCutNode
    rw [h]
  rw [hfwd]
  unfold reverseBlockNodeWithCutNode
  rw [dropTrailingLefts_spec]
  have hk : (pp ++ Dir.right :: List.replicate (leftDepth s) Dir.left).length
      - (pp ++ [Dir.right]).length = leftDepth s := by
    simp only [List.length_append, List.length_cons, List.length_replicate,
      List.length_nil]
    omega
  rw [hk]
  have hlast : (pp ++ [Dir.right]).getLast? = some Dir.right := by
    simp [List.getLast?_concat]
  rw [hlast]
  have hdroplast : (pp ++ [Dir.right]).dropLast = pp := by
    simp
  rw [hdroplast]
  rw [subtreeAt_replaceAt_self _ _ _ hsome]
  obtain ⟨b, hb⟩ := leftmostLeaf_is_leaf s
  have hext := extractAtLeftSpine_growLeft c₂ r s
  rw [hb] at hext
  have hset := setAtLeftSpine_growLeft c₂ r s
  rw [hb] at hset
  simp only [hext, hset]
  rw [replaceAt_replaceAt, replaceAt_self t pp _ h]

end Floorplan

namespace Floorplan

theorem swapAdj_swapAdj (e : Expr) (i : Nat) : swapAdj (swapAdj e i) i = e := by
  induction e generalizing i with
  | nil => cases i <;> rfl
  | cons x rest ih =>
    cases i with
    | zero =>
      cases rest with
      | nil => rfl
      | cons y rest' => rfl
    | succ n =>
      show swapAdj (x :: swapAdj rest n) (n + 1) = x :: rest
      cases rest with
      | nil => cases n <;> rfl
      | cons y rest' =>
        show x :: swapAdj (swapAdj (y :: rest') n) n = x :: y :: rest'
        rw [ih]

theorem swapAdj_length (e : Expr) (i : Nat) : (swapAdj e i).length = e.length := by
  induction e generalizing i with
  | nil => cases i <;> rfl
  | cons x rest ih =>
    cases i with
    | zero =>
      cases rest with
      | nil => rfl
      | cons y rest' => rfl
    | succ n =>
      show (x :: swapAdj rest n).length = (x :: rest).length
      simp [ih]

/-- The two decompositions of an adjacent swap. -/
theorem swapAdj_decomp (e : Expr) (i : Nat) (h : i + 1 < e.length) :
    e = e.take i ++ e.getD i dflt :: e.getD (i + 1) dflt :: e.drop (i + 2)
    ∧ swapAdj e i
      = e.take i ++ e.getD (i + 1) dflt :: e.getD i dflt :: e.drop (i + 2) := by
  induction e generalizing i with
  | nil => simp at h
  | cons x rest ih =>
    cases i with
    | zero =>
      cases rest with
      | nil => simp at h
      | cons y rest' => exact ⟨rfl, rfl⟩
    | succ n =>
      have h' : n + 1 < rest.length := by
        simpa using h
      obtain ⟨h1, h2⟩ := ih n h'
      constructor
      · show x :: rest
            = x :: (rest.take n ++ rest.getD n dflt :: rest.getD (n + 1) dflt :: rest.drop (n + 2))
        rw [← h1]
      · show x :: swapAdj rest n
            = x :: (rest.take n ++ rest.getD (n + 1) dflt :: rest.getD n dflt :: rest.drop (n + 2))
        rw [h2]

theorem swapAdj_getD_of_ne (e : Expr) (i j : Nat) (h : i + 1 < e.length)
    (hji : j ≠ i) (hji1 : j ≠ i + 1) :
    (swapAdj e i).getD j dflt = e.getD j dflt := by
  induction e generalizing i j with
  | nil => cases i <;> rfl
  | cons x rest ih =>
    cases i with
    | zero =>
      cases rest with
      | nil => simp at h
      | cons y rest' =>
        show ((y :: x :: rest').getD j dflt) = ((x :: y :: rest').getD j dflt)
        match j, hji, hji1 with
        | (m + 2), _, _ => rfl
    | succ n =>
      cases j with
      | zero =>
        show ((x :: swapAdj rest n).getD 0 dflt) = x
        rfl
      | succ m =>
        show ((x :: swapAdj rest n).getD (m + 1) dflt) = ((x :: rest).getD (m + 1) dflt)
        have h' : n + 1 < rest.length := by simpa using h
        simpa using ih n m h' (by omega) (by omega)

theorem invertRange_length (e : Expr) (li ui : Nat) :
    (invertRange e li ui).length = e.length := by
  induction e generalizing li ui with
  | nil => cases ui <;> rfl
  | cons x rest ih =>
    cases ui with
    | zero => rfl
    | succ u =>
      cases li with
      | zero => simpa [invertRange] using ih 0 u
      | succ l => simpa [invertRange] using ih l u

theorem invertRange_invertRange (e : Expr) (li ui : Nat) :
    invertRange (invertRange e li ui) li ui = e := by
  induction e generalizing li ui with
  | nil => cases ui <;> rfl
  | cons x rest ih =>
    cases ui with
    | zero => rfl
    | succ u =>
      cases li with
      | zero =>
        show BlockOrCut.invertEntry x.invertEntry
            :: invertRange (invertRange rest 0 u) 0 u = x :: rest
        rw [BlockOrCut.invertEntry_invertEntry, ih]
      | succ l =>
        show x :: invertRange (invertRange rest l u) l u = x :: rest
        rw [ih]

end Floorplan

namespace Floorplan

theorem invertEntry_isCut (x : BlockOrCut) : x.invertEntry.isCut = x.isCut := by
  cases x <;> rfl

theorem invertRange_map_isCut (e : Expr) (li ui : Nat) :
    (invertRange e li ui).map BlockOrCut.isCut = e.map BlockOrCut.isCut := by
  induction e generalizing li ui with
  | nil => cases ui <;> rfl
  | cons x rest ih =>
    cases ui with
    | zero => rfl
    | succ u =>
      cases li with
      | zero =>
        show (x.invertEntry :: invertRange rest 0 u).map BlockOrCut.isCut
            = (x :: rest).map BlockOrCut.isCut
        simp [invertEntry_isCut, ih]
      | succ l =>
        show (x :: invertRange rest l u).map BlockOrCut.isCut
            = (x :: rest).map BlockOrCut.isCut
        simp [ih]

/-- Count of cut entries (the balloting property's terms). -/
def cutsIn (e : Expr) : Nat := e.countP BlockOrCut.isCut

/-- Count of block entries. -/
def blocksIn (e : Expr) : Nat := e.countP BlockOrCut.isBlock

/-- The balloting property as the specification defines it: in every
nonempty prefix the number of cuts is strictly below the number of
blocks. -/
def balloting (e : Expr) : Prop :=
  ∀ k < e.length + 1, 1 ≤ k → cutsIn (e.take k) < blocksIn (e.take k)

instance (e : Expr) : Decidable (balloting e) := by
  unfold balloting
  infer_instance

/-- No cut is immediately followed by the same cut symbol. -/
def noSameAdjacentCuts : Expr → Bool
  | .cut c :: .cut d :: rest => !(decide (c = d)) && noSameAdjacentCuts (.cut d :: rest)
  | _ :: rest => noSameAdjacentCuts rest
  | [] => true

theorem isBlock_eq_not_isCut (x : BlockOrCut) : x.isBlock = !x.isCut := by
  cases x <;> rfl

theorem cutsIn_eq_countP_map (e : Expr) :
    cutsIn e = (e.map BlockOrCut.isCut).countP id := by
  unfold cutsIn
  rw [List.countP_map]
  rfl

theorem blocksIn_eq_countP_map (e : Expr) :
    blocksIn e = (e.map BlockOrCut.isCut).countP (fun b => !b) := by
  unfold blocksIn
  rw [List.countP_map]
  apply List.countP_congr
  intro x _
  simp [isBlock_eq_not_isCut]

/-- Balloting only depends on the sequence of entry classifications. -/
theorem balloting_of_map_isCut (e₁ e₂ : Expr)
    (h : e₁.map BlockOrCut.isCut = e₂.map BlockOrCut.isCut)
    (hb : balloting e₁) : balloting e₂ := by
  have hlen : e₁.length = e₂.length := by
    have := congrArg List.length h
    simpa using this
  intro k hk hk1
  have hb1 := hb k (by omega) hk1
  have hc : cutsIn (e₂.take k) = cutsIn (e₁.take k) := by
    rw [cutsIn_eq_countP_map, cutsIn_eq_countP_map, List.map_take,
      List.map_take, h]
  have hbl : blocksIn (e₂.take k) = blocksIn (e₁.take k) := by
    rw [blocksIn_eq_countP_map, blocksIn_eq_countP_map, List.map_take,
      List.map_take, h]
  rw [hc, hbl]
  exact hb1

theorem take_swapAdj_of_le (e : Expr) (i k : Nat) (hk : k ≤ i) :
    (swapAdj e i).take k = e.take k := by
  induction e generalizing i k with
  | nil => cases i <;> rfl
  | cons x rest ih =>
    cases i with
    | zero =>
      have hk0 : k = 0 := by omega
      subst hk0
      simp
    | succ n =>
      show (x :: swapAdj rest n).take k = (x :: rest).take k
      cases k with
      | zero => rfl
      | succ m => simp [ih n m (by omega)]

theorem take_swapAdj_perm_of_ge (e : Expr) (i k : Nat) (h : i + 1 < e.length)
    (hk : i + 2 ≤ k) : ((swapAdj e i).take k).Perm (e.take k) := by
  obtain ⟨h1, h2⟩ := swapAdj_decomp e i h
  have htA : (e.take i).length = i := by
    rw [List.length_take]
    omega
  conv_lhs => rw [h2]
  conv_rhs => rw [h1]
  rw [List.take_append_eq_append_take, List.take_append_eq_append_take, htA]
  have hkk : i + 2 ≤ k := hk
  have hc1 : (e.getD (i + 1) dflt :: e.getD i dflt :: e.drop (i + 2)).take (k - i)
      = e.getD (i + 1) dflt :: e.getD i dflt :: (e.drop (i + 2)).take (k - i - 2) := by
    have hki : k - i = (k - i - 2) + 2 := by omega
    rw [hki]
    rfl
  have hc2 : (e.getD i dflt :: e.getD (i + 1) dflt :: e.drop (i + 2)).take (k - i)
      = e.getD i dflt :: e.getD (i + 1) dflt :: (e.drop (i + 2)).take (k - i - 2) := by
    have hki : k - i = (k - i - 2) + 2 := by omega
    rw [hki]
    rfl
  rw [hc1, hc2]
  exact List.Perm.append_left _ (List.Perm.swap _ _ _)

theorem take_swapAdj_succ (e : Expr) (i : Nat) (h : i + 1 < e.length) :
    (swapAdj e i).take (i + 1) = e.take i ++ [e.getD (i + 1) dflt]
    ∧ e.take (i + 1) = e.take i ++ [e.getD i dflt] := by
  obtain ⟨h1, h2⟩ := swapAdj_decomp e i h
  have htA : (e.take i).length = i := by
    rw [List.length_take]
    omega
  constructor
  · conv_lhs => rw [h2]
    rw [List.take_append_eq_append_take, htA]
    have hii : i + 1 - i = 1 := by omega
    rw [hii]
    simp [List.take_take]
  · conv_lhs => rw [h1]
    rw [List.take_append_eq_append_take, htA]
    have hii : i + 1 - i = 1 := by omega
    rw [hii]
    simp [List.take_take]

theorem cutsIn_append (a b : Expr) : cutsIn (a ++ b) = cutsIn a + cutsIn b := by
  simp [cutsIn, List.countP_append]

theorem blocksIn_append (a b : Expr) : blocksIn (a ++ b) = blocksIn a + blocksIn b := by
  simp [blocksIn, List.countP_append]

theorem counts_of_isBlock (x : BlockOrCut) (h : x.isBlock = true) :
    cutsIn [x] = 0 ∧ blocksIn [x] = 1 := by
  cases x with
  | blk b => constructor <;> rfl
  | cut c => simp [BlockOrCut.isBlock] at h

/-- C6 helper: a swap of two adjacent block entries keeps balloting. -/
theorem balloting_swapAdj_blocks (e : Expr) (i : Nat) (h : i + 1 < e.length)
    (h2 : (e.getD (i + 1) dflt).isBlock = true)
    (hb : balloting e) : balloting (swapAdj e i) := by
  intro k hk hk1
  rw [swapAdj_length] at hk
  rcases Nat.lt_or_ge k (i + 1) with hlt | hge
  · rw [take_swapAdj_of_le e i k (by omega)]
    exact hb k hk hk1
  rcases Nat.lt_or_ge k (i + 2) with hlt2 | hge2
  · have hk2 : k = i + 1 := by omega
    subst hk2
    obtain ⟨hs1, hs2⟩ := take_swapAdj_succ e i h
    rw [hs1, cutsIn_append, blocksIn_append]
    obtain ⟨hc, hbl⟩ := counts_of_isBlock _ h2
    rw [hc, hbl]
    rcases Nat.eq_zero_or_pos i with hi | hi
    · subst hi
      simp [cutsIn, blocksIn]
    · have := hb i (by omega) (by omega)
      omega
  · have hperm := take_swapAdj_perm_of_ge e i k h hge2
    have hc : cutsIn ((swapAdj e i).take k) = cutsIn (e.take k) :=
      hperm.countP_eq _
    have hbl : blocksIn ((swapAdj e i).take k) = blocksIn (e.take k) :=
      hperm.countP_eq _
    rw [hc, hbl]
    exact hb k hk hk1

/-- C6 helper: swapping a cut with the block right of it (the cut
moves right) keeps balloting. -/
theorem balloting_swapAdj_cut_block (e : Expr) (c : Nat) (h : c + 1 < e.length)
    (h2 : (e.getD (c + 1) dflt).isBlock = true)
    (hb : balloting e) : balloting (swapAdj e c) :=
  balloting_swapAdj_blocks e c h h2 hb

end Floorplan

namespace Floorplan

theorem take_getD_drop (l : List Nat) (i : Nat) (h : i < l.length) :
    l.take i ++ l.getD i 0 :: l.drop (i + 1) = l := by
  induction l generalizing i with
  | nil => simp at h
  | cons x rest ih =>
    cases i with
    | zero => simp
    | succ n =>
      have h' : n < rest.length := by simpa using h
      show x :: (rest.take n ++ rest.getD n 0 :: rest.drop (n + 1)) = x :: rest
      rw [ih n h']

theorem eraseIdx_append_getD_perm (l : List Nat) (i : Nat) (h : i < l.length) :
    (l.eraseIdx i ++ [l.getD i 0]).Perm l := by
  conv_rhs => rw [← take_getD_drop l i h]
  rw [List.eraseIdx_eq_take_drop_succ, List.append_assoc]
  exact List.Perm.append_left _ (List.perm_append_singleton _ _)

theorem dflt_isBlock : dflt.isBlock = false := rfl

theorem getD_eq_dflt_of_le (e : Expr) (j : Nat) (h : e.length ≤ j) :
    e.getD j dflt = dflt := by
  rw [List.getD_eq_getElem?_getD, List.getElem?_eq_none (by omega)]
  rfl

/-- C1 pairs lemma: after the chosen pair is erased and the pairs
formed by the new neighbours are pushed, restoring erases exactly
those pushed pairs and re-appends the original pair, leaving the same
multiset of pairs (though generally in a different vector order). -/
theorem restorePairs_updatePairs_perm (pairs : List Nat) (pairIdx c : Nat)
    (e e' : Expr) (hpi : pairIdx < pairs.length)
    (hgd : pairs.getD pairIdx 0 = c) (hc1 : 1 ≤ c)
    (hlen : e'.length = e.length)
    (hm1 : e'.getD (c - 1) dflt = e.getD (c - 1) dflt)
    (hp2 : e'.getD (c + 2) dflt = e.getD (c + 2) dflt)
    (hnm : (c - 1) ∉ pairs) (hnp : (c + 1) ∉ pairs) :
    (restorePairs (updatePairs pairs pairIdx e' c) e c).Perm pairs := by
  have hsub := List.eraseIdx_sublist pairs pairIdx
  have hPnm : (c - 1) ∉ pairs.eraseIdx pairIdx := fun hx => hnm (hsub.subset hx)
  have hPnp : (c + 1) ∉ pairs.eraseIdx pairIdx := fun hx => hnp (hsub.subset hx)
  have hBiff : (c + 1 < e'.length - 1 ∧ (e'.getD (c + 2) dflt).isBlock = true)
      ↔ (e.getD (c + 2) dflt).isBlock = true := by
    constructor
    · rintro ⟨_, hx⟩
      rwa [hp2] at hx
    · intro hx
      refine ⟨?_, by rwa [hp2]⟩
      by_contra hcon
      have hge : e.length ≤ c + 2 := by omega
      rw [getD_eq_dflt_of_le e _ hge, dflt_isBlock] at hx
      exact absurd hx (by decide)
  have hCiff : (0 < c ∧ (e'.getD (c - 1) dflt).isCut = true)
      ↔ (e.getD (c - 1) dflt).isCut = true := by
    constructor
    · rintro ⟨_, hx⟩
      rwa [hm1] at hx
    · intro hx
      exact ⟨by omega, by rwa [hm1]⟩
  by_cases hB : (e.getD (c + 2) dflt).isBlock = true <;>
    by_cases hC : (e.getD (c - 1) dflt).isCut = true
  all_goals (
    have hupd : updatePairs pairs pairIdx e' c
        = pairs.eraseIdx pairIdx
          ++ (if (e.getD (c - 1) dflt).isCut = true then [c - 1] else [])
          ++ (if (e.getD (c + 2) dflt).isBlock = true then [c + 1] else []) := by
      unfold updatePairs
      by_cases hB2 : (c + 1 < e'.length - 1 ∧ (e'.getD (c + 2) dflt).isBlock = true) <;>
        by_cases hC2 : (0 < c ∧ (e'.getD (c - 1) dflt).isCut = true) <;>
        simp only [if_pos, if_neg, hB2, hC2, if_true, if_false] <;>
        simp_all [hBiff, hCiff]
    rw [hupd]
    unfold restorePairs)
  · simp only [if_pos hB, if_pos hC]
    have he1 : ((pairs.eraseIdx pairIdx ++ [c - 1]) ++ [c + 1]).erase (c + 1)
        = pairs.eraseIdx pairIdx ++ [c - 1] := by
      rw [List.erase_append_right]
      · simp
      · intro hx
        rcases List.mem_append.mp hx with hx | hx
        · exact hPnp hx
        · simp at hx
          omega
    rw [he1]
    have he2 : (pairs.eraseIdx pairIdx ++ [c - 1]).erase (c - 1)
        = pairs.eraseIdx pairIdx := by
      rw [List.erase_append_right _ hPnm]
      simp
    rw [he2, ← hgd]
    exact eraseIdx_append_getD_perm pairs pairIdx hpi
  · simp only [if_pos hB, if_neg hC, List.append_nil]
    have he1 : (pairs.eraseIdx pairIdx ++ [c + 1]).erase (c + 1)
        = pairs.eraseIdx pairIdx := by
      rw [List.erase_append_right _ hPnp]
      simp
    rw [he1, ← hgd]
    exact eraseIdx_append_getD_perm pairs pairIdx hpi
  · simp only [if_neg hB, if_pos hC, List.append_nil]
    have he2 : (pairs.eraseIdx pairIdx ++ [c - 1]).erase (c - 1)
        = pairs.eraseIdx pairIdx := by
      rw [List.erase_append_right _ hPnm]
      simp
    rw [he2, ← hgd]
    exact eraseIdx_append_getD_perm pairs pairIdx hpi
  · simp only [if_neg hB, if_neg hC, List.append_nil]
    rw [← hgd]
    exact eraseIdx_append_getD_perm pairs pairIdx hpi

end Floorplan

namespace Floorplan

/-- The conditions under which `Perturb` performs the given resolved
choice: the selection loops only return indices of the required entry
kinds, the expression slots carry pointers to tree nodes of the
corresponding shape, and on reachable states the adjacency index has
no duplicates and no pair at the immediate neighbours of a listed
pair (a pair at `c` needs a cut at `c` and a block at `c + 1`, which
excludes pairs at `c - 1` and `c + 1`). -/
def validChoice (s : FState) : Choice → Prop
  | .blockSwap i pa pb =>
      i + 1 < s.expr.length
      ∧ (s.expr.getD i dflt).isBlock = true
      ∧ (s.expr.getD (i + 1) dflt).isBlock = true
      ∧ (∃ a, subtreeAt s.tree pa = some (.leaf a))
      ∧ (∃ b, subtreeAt s.tree pb = some (.leaf b))
      ∧ pa ≠ pb
  | .chainInvert li ui _ => li ≤ ui
  | .blockCutSwap pairIdx pp =>
      pairIdx < s.pairs.length
      ∧ 1 ≤ s.pairs.getD pairIdx 0
      ∧ s.pairs.getD pairIdx 0 + 1 < s.expr.length
      ∧ (s.expr.getD (s.pairs.getD pairIdx 0) dflt).isCut = true
      ∧ (s.expr.getD (s.pairs.getD pairIdx 0 + 1) dflt).isBlock = true
      ∧ (∃ c₁ c₂ l r sb,
          subtreeAt s.tree pp = some (.node c₁ (.node c₂ l r) sb))
      ∧ (s.pairs.getD pairIdx 0 - 1) ∉ s.pairs
      ∧ (s.pairs.getD pairIdx 0 + 1) ∉ s.pairs

/-- The expression is restored exactly by `Restore`. -/
theorem restore_perturb_expr (s : FState) (ch : Choice) :
    (restore (perturb s ch).1 (perturb s ch).2).expr = s.expr := by
  cases ch with
  | blockSwap i pa pb => exact swapAdj_swapAdj s.expr i
  | chainInvert li ui ps => exact invertRange_invertRange s.expr li ui
  | blockCutSwap pairIdx pp => exact swapAdj_swapAdj s.expr (s.pairs.getD pairIdx 0)

/-- The tree is restored exactly by `Restore`. -/
theorem restore_perturb_tree (s : FState) (ch : Choice)
    (h : validChoice s ch) :
    (restore (perturb s ch).1 (perturb s ch).2).tree = s.tree := by
  cases ch with
  | blockSwap i pa pb =>
    obtain ⟨_, _, _, ⟨a, ha⟩, ⟨b, hb⟩, hne⟩ := h
    exact swapBlockNode_involutive s.tree pa pb a b ha hb hne
  | chainInvert li ui ps =>
    exact foldl_invertCutAt_involutive ps s.tree
  | blockCutSwap pairIdx pp =>
    obtain ⟨_, _, _, _, _, ⟨c₁, c₂, l, r, sb, hshape⟩, _, _⟩ := h
    show reverseBlockNodeWithCutNode (swapBlockNodeWithCutNode s.tree pp)
        (pp ++ Dir.right :: List.replicate
          (match subtreeAt s.tree pp with
           | some (.node _ _ sp) => leftDepth sp
           | _ => 0) Dir.left) = s.tree
    rw [hshape]
    exact reverse_swapBlockNodeWithCutNode s.tree pp c₁ c₂ l r sb hshape

/-- The adjacency index is restored as a multiset by `Restore`. -/
theorem restore_perturb_pairs (s : FState) (ch : Choice)
    (h : validChoice s ch) :
    ((restore (perturb s ch).1 (perturb s ch).2).pairs).Perm s.pairs := by
  cases ch with
  | blockSwap i pa pb => exact List.Perm.refl _
  | chainInvert li ui ps => exact List.Perm.refl _
  | blockCutSwap pairIdx pp =>
    obtain ⟨hpi, hc1, hclen, hcut, hblk, _, hnm, hnp⟩ := h
    show (restorePairs
        (updatePairs s.pairs pairIdx (swapAdj s.expr (s.pairs.getD pairIdx 0))
          (s.pairs.getD pairIdx 0))
        (swapAdj (swapAdj s.expr (s.pairs.getD pairIdx 0)) (s.pairs.getD pairIdx 0))
        (s.pairs.getD pairIdx 0)).Perm s.pairs
    rw [swapAdj_swapAdj]
    apply restorePairs_updatePairs_perm s.pairs pairIdx (s.pairs.getD pairIdx 0)
      s.expr (swapAdj s.expr (s.pairs.getD pairIdx 0)) hpi rfl hc1
    · exact swapAdj_length s.expr _
    · exact swapAdj_getD_of_ne s.expr _ _ hclen (by omega) (by omega)
    · exact swapAdj_getD_of_ne s.expr _ _ hclen (by omega) (by omega)
    · exact hnm
    · exact hnp

/-- The concrete four-block floorplan used as counterexample input:
the initial expression `b0 b1 H b2 H b3 H`, its slicing tree and its
adjacency index `[2, 4]`. -/
def cexState : FState :=
  ⟨initExpr [⟨0, 1, 1⟩, ⟨1, 1, 1⟩, ⟨2, 1, 1⟩, ⟨3, 1, 1⟩] [Cut.H, Cut.H, Cut.H],
   Tree.node Cut.H
     (Tree.node Cut.H
       (Tree.node Cut.H (Tree.leaf ⟨0, 1, 1⟩) (Tree.leaf ⟨1, 1, 1⟩))
       (Tree.leaf ⟨2, 1, 1⟩))
     (Tree.leaf ⟨3, 1, 1⟩),
   initPairs 4⟩

/-- The resolved choice: the block/cut swap of the pair at index 0
(cut at position 2 of the expression); its cut node's parent is the
root's left child. -/
def cexChoice : Choice := Choice.blockCutSwap 0 [Dir.left]

theorem cexChoice_valid : validChoice cexState cexChoice := by
  refine ⟨by decide, by decide, by decide, by decide, by decide,
    ⟨Cut.H, Cut.H, Tree.leaf ⟨0, 1, 1⟩, Tree.leaf ⟨1, 1, 1⟩, Tree.leaf ⟨2, 1, 1⟩,
      by decide⟩, by decide, by decide⟩

/-- C1 counterexample: `Perturb` (block/cut swap of the pair at cut
position 2) followed immediately by `Restore` does not return the
state to exactly its previous value: the adjacency index vector comes
back as `[4, 2]` instead of `[2, 4]` (the erased pair is re-appended
at the back). The expression and the tree are restored exactly. -/
theorem restore_perturb_not_id :
    restore (perturb cexState cexChoice).1 (perturb cexState cexChoice).2
      ≠ cexState
    ∧ (restore (perturb cexState cexChoice).1 (perturb cexState cexChoice).2).pairs
        = [4, 2]
    ∧ cexState.pairs = [2, 4] := by
  refine ⟨by decide, by decide, by decide⟩

/-- C1 (amended): for every valid resolved random choice, `Perturb`
followed immediately by `Restore` returns the polish expression and
the slicing tree (hence all derived node widths and heights) exactly,
and returns the cut-and-block adjacency index up to order (the same
multiset of pairs; the vector order can change, as the counterexample
shows, which affects nothing but the sampling order). -/
theorem restore_perturb_state (s : FState) (ch : Choice)
    (h : validChoice s ch) :
    (restore (perturb s ch).1 (perturb s ch).2).expr = s.expr
    ∧ (restore (perturb s ch).1 (perturb s ch).2).tree = s.tree
    ∧ ((restore (perturb s ch).1 (perturb s ch).2).pairs).Perm s.pairs :=
  ⟨restore_perturb_expr s ch, restore_perturb_tree s ch h,
   restore_perturb_pairs s ch h⟩

/-- C1 witness: the amended statement evaluated on the concrete
four-block instance. -/
theorem restore_perturb_state_witness :
    (restore (perturb cexState cexChoice).1 (perturb cexState cexChoice).2).expr
        = cexState.expr
    ∧ (restore (perturb cexState cexChoice).1 (perturb cexState cexChoice).2).tree
        = cexState.tree
    ∧ ((restore (perturb cexState cexChoice).1 (perturb cexState cexChoice).2).pairs).Perm
        cexState.pairs :=
  restore_perturb_state cexState cexChoice cexChoice_valid

end Floorplan

namespace Floorplan

/-- The per-pair chunk of the initial expression tail. -/
def pairChunk (p : Block × Cut) : Expr :=
  [BlockOrCut.blk p.1, BlockOrCut.cut p.2]

theorem initExpr_eq (blocks : List Block) (cuts : List Cut) (b₀ : Block)
    (rest : List Block) (hb : blocks = b₀ :: rest) :
    initExpr blocks cuts = BlockOrCut.blk b₀ :: (rest.zip cuts).flatMap pairChunk := by
  subst hb
  rfl

theorem flatMap_pairChunk_length (l : List (Block × Cut)) :
    (l.flatMap pairChunk).length = 2 * l.length := by
  induction l with
  | nil => rfl
  | cons p l ih =>
    show (pairChunk p ++ l.flatMap pairChunk).length = 2 * (l.length + 1)
    simp [pairChunk, ih]
    ring

/-- C6 init lemma: the initial expression has length `2n − 1`. -/
theorem initExpr_length (blocks : List Block) (cuts : List Cut)
    (hb : 1 ≤ blocks.length) (hcuts : cuts.length = blocks.length - 1) :
    (initExpr blocks cuts).length = 2 * blocks.length - 1 := by
  cases blocks with
  | nil => simp at hb
  | cons b₀ rest =>
    rw [initExpr_eq _ _ b₀ rest rfl]
    have hz : (rest.zip cuts).length = rest.length := by
      rw [List.length_zip]
      simp at hcuts
      omega
    rw [List.length_cons, flatMap_pairChunk_length, hz, List.length_cons]
    omega

theorem initTail_take_counts (l : List (Block × Cut)) (k : Nat) :
    cutsIn ((l.flatMap pairChunk).take k)
      ≤ blocksIn ((l.flatMap pairChunk).take k) := by
  induction l generalizing k with
  | nil => simp [cutsIn, blocksIn]
  | cons p l ih =>
    match k with
    | 0 => simp [cutsIn, blocksIn]
    | 1 =>
      show cutsIn ((pairChunk p ++ l.flatMap pairChunk).take 1)
          ≤ blocksIn ((pairChunk p ++ l.flatMap pairChunk).take 1)
      simp [pairChunk, cutsIn, blocksIn, List.countP_cons, BlockOrCut.isCut,
        BlockOrCut.isBlock]
    | (m + 2) =>
      show cutsIn ((pairChunk p ++ l.flatMap pairChunk).take (m + 2))
          ≤ blocksIn ((pairChunk p ++ l.flatMap pairChunk).take (m + 2))
      have hih := ih m
      simp only [pairChunk, List.cons_append, List.nil_append, List.take_succ_cons]
      simp only [cutsIn, blocksIn, List.countP_cons] at hih ⊢
      simp [BlockOrCut.isCut, BlockOrCut.isBlock]
      omega

/-- C6 init lemma: the initial expression satisfies balloting. -/
theorem initExpr_balloting (blocks : List Block) (cuts : List Cut)
    (hb : 1 ≤ blocks.length) :
    balloting (initExpr blocks cuts) := by
  cases blocks with
  | nil => simp at hb
  | cons b₀ rest =>
    rw [initExpr_eq _ _ b₀ rest rfl]
    intro k hk hk1
    match k, hk1 with
    | (m + 1), _ =>
      simp only [List.take_succ_cons]
      have := initTail_take_counts (rest.zip cuts) m
      simp only [cutsIn, blocksIn, List.countP_cons] at this ⊢
      simp [BlockOrCut.isCut, BlockOrCut.isBlock]
      omega

theorem initTail_noSame (l : List (Block × Cut)) :
    noSameAdjacentCuts (l.flatMap pairChunk) = true
    ∧ ∀ c, noSameAdjacentCuts (BlockOrCut.cut c :: l.flatMap pairChunk) = true := by
  induction l with
  | nil => exact ⟨rfl, fun c => rfl⟩
  | cons p l ih =>
    constructor
    · show noSameAdjacentCuts
          (BlockOrCut.blk p.1 :: BlockOrCut.cut p.2 :: l.flatMap pairChunk) = true
      show noSameAdjacentCuts (BlockOrCut.cut p.2 :: l.flatMap pairChunk) = true
      exact ih.2 p.2
    · intro c
      show noSameAdjacentCuts
          (BlockOrCut.cut c :: BlockOrCut.blk p.1 :: BlockOrCut.cut p.2
            :: l.flatMap pairChunk) = true
      show noSameAdjacentCuts
          (BlockOrCut.blk p.1 :: BlockOrCut.cut p.2 :: l.flatMap pairChunk) = true
      show noSameAdjacentCuts (BlockOrCut.cut p.2 :: l.flatMap pairChunk) = true
      exact ih.2 p.2

/-- C6 init lemma: the initial expression has no two consecutive
identical cut symbols (in fact no two consecutive cuts at all). -/
theorem initExpr_noSame (blocks : List Block) (cuts : List Cut)
    (hb : 1 ≤ blocks.length) :
    noSameAdjacentCuts (initExpr blocks cuts) = true := by
  cases blocks with
  | nil => simp at hb
  | cons b₀ rest =>
    rw [initExpr_eq _ _ b₀ rest rfl]
    show noSameAdjacentCuts ((rest.zip cuts).flatMap pairChunk) = true
    exact (initTail_noSame _).1

/-- C6 helper: every valid perturbation keeps the expression length. -/
theorem perturb_length (s : FState) (ch : Choice) (h : validChoice s ch) :
    ((perturb s ch).1.expr).length = s.expr.length := by
  cases ch with
  | blockSwap i pa pb => exact swapAdj_length s.expr i
  | chainInvert li ui ps => exact invertRange_length s.expr li ui
  | blockCutSwap pairIdx pp => exact swapAdj_length s.expr _

/-- C6 helper: every valid perturbation preserves balloting. -/
theorem perturb_balloting (s : FState) (ch : Choice) (h : validChoice s ch)
    (hb : balloting s.expr) : balloting ((perturb s ch).1.expr) := by
  cases ch with
  | blockSwap i pa pb =>
    obtain ⟨hlen, h1, h2, _⟩ := h
    exact balloting_swapAdj_blocks s.expr i hlen h2 hb
  | chainInvert li ui ps =>
    exact balloting_of_map_isCut s.expr _ (invertRange_map_isCut s.expr li ui).symm hb
  | blockCutSwap pairIdx pp =>
    obtain ⟨_, _, hclen, _, hblk, _⟩ := h
    exact balloting_swapAdj_cut_block s.expr _ hclen hblk hb

/-- The three-block instance on which a block/cut swap creates two
adjacent identical cuts. -/
def cexState3 : FState :=
  ⟨initExpr [⟨0, 1, 1⟩, ⟨1, 1, 1⟩, ⟨2, 1, 1⟩] [Cut.H, Cut.H],
   Tree.node Cut.H
     (Tree.node Cut.H (Tree.leaf ⟨0, 1, 1⟩) (Tree.leaf ⟨1, 1, 1⟩))
     (Tree.leaf ⟨2, 1, 1⟩),
   initPairs 3⟩

def cexChoice3 : Choice := Choice.blockCutSwap 0 []

/-- C6 counterexample: on the three-block initial expression
`b0 b1 H b2 H` (both random cuts drawn `H`), the block/cut swap move
of `Perturb` yields `b0 b1 b2 H H`, which contains a cut immediately
followed by the same cut symbol; `Perturb` performs no check against
this. -/
theorem perturb_breaks_noSame :
    validChoice cexState3 cexChoice3
    ∧ noSameAdjacentCuts cexState3.expr = true
    ∧ noSameAdjacentCuts ((perturb cexState3 cexChoice3).1.expr) = false := by
  refine ⟨⟨by decide, by decide, by decide, by decide, by decide,
    ⟨Cut.H, Cut.H, Tree.leaf ⟨0, 1, 1⟩, Tree.leaf ⟨1, 1, 1⟩, Tree.leaf ⟨2, 1, 1⟩,
      by decide⟩, by decide, by decide⟩, by decide, by decide⟩

/-- C6 (amended): the initial polish expression has length `2n − 1`,
satisfies balloting at every nonempty prefix and has no two
consecutive identical cuts; every valid `Perturb` preserves the
length and the balloting property (but the no-identical-adjacent-cut
condition is not preserved by the block/cut swap, see the
counterexample). -/
theorem initExpr_invariants_and_perturb (blocks : List Block) (cuts : List Cut)
    (hb : 2 ≤ blocks.length) (hcuts : cuts.length = blocks.length - 1)
    (s : FState) (ch : Choice) (hch : validChoice s ch)
    (hball : balloting s.expr) :
    (initExpr blocks cuts).length = 2 * blocks.length - 1
    ∧ balloting (initExpr blocks cuts)
    ∧ noSameAdjacentCuts (initExpr blocks cuts) = true
    ∧ ((perturb s ch).1.expr).length = s.expr.length
    ∧ balloting ((perturb s ch).1.expr) :=
  ⟨initExpr_length blocks cuts (by omega) hcuts,
   initExpr_balloting blocks cuts (by omega),
   initExpr_noSame blocks cuts (by omega),
   perturb_length s ch hch,
   perturb_balloting s ch hch hball⟩

/-- C6 witness: the amended statement at the four-block instance with
the valid block/cut swap choice. -/
theorem initExpr_invariants_and_perturb_witness :
    (initExpr [⟨0, 1, 1⟩, ⟨1, 1, 1⟩, ⟨2, 1, 1⟩, ⟨3, 1, 1⟩]
        [Cut.H, Cut.H, Cut.H]).length
      = 2 * ([⟨0, 1, 1⟩, ⟨1, 1, 1⟩, ⟨2, 1, 1⟩, ⟨3, 1, 1⟩] : List Block).length - 1
    ∧ balloting (initExpr [⟨0, 1, 1⟩, ⟨1, 1, 1⟩, ⟨2, 1, 1⟩, ⟨3, 1, 1⟩]
        [Cut.H, Cut.H, Cut.H])
    ∧ noSameAdjacentCuts (initExpr [⟨0, 1, 1⟩, ⟨1, 1, 1⟩, ⟨2, 1, 1⟩, ⟨3, 1, 1⟩]
        [Cut.H, Cut.H, Cut.H]) = true
    ∧ ((perturb cexState cexChoice).1.expr).length = cexState.expr.length
    ∧ balloting ((perturb cexState cexChoice).1.expr) :=
  initExpr_invariants_and_perturb _ _ (by decide) (by decide)
    cexState cexChoice cexChoice_valid (by decide)

end Floorplan

namespace Floorplan

theorem invertRange_getD_isCut (e : Expr) (li ui j : Nat) (hj : j < e.length) :
    ((invertRange e li ui).getD j dflt).isCut = (e.getD j dflt).isCut := by
  induction e generalizing li ui j with
  | nil => simp at hj
  | cons x rest ih =>
    cases ui with
    | zero => rfl
    | succ u =>
      cases li with
      | zero =>
        cases j with
        | zero => exact invertEntry_isCut x
        | succ m =>
          show ((invertRange rest 0 u).getD m dflt).isCut = (rest.getD m dflt).isCut
          exact ih 0 u m (by simpa using hj)
      | succ l =>
        cases j with
        | zero => rfl
        | succ m =>
          show ((invertRange rest l u).getD m dflt).isCut = (rest.getD m dflt).isCut
          exact ih l u m (by simpa using hj)

/-- Whether the last entry of the expression is a cut. -/
def lastIsCut (e : Expr) : Bool :=
  match e.getLast? with
  | some x => x.isCut
  | none => false

theorem lastIsCut_eq_getD (e : Expr) (h : 0 < e.length) :
    lastIsCut e = (e.getD (e.length - 1) dflt).isCut := by
  induction e with
  | nil => simp at h
  | cons x rest ih =>
    cases rest with
    | nil => rfl
    | cons y rest' =>
      have h' : 0 < (y :: rest').length := by simp
      have hih := ih h'
      unfold lastIsCut
      rw [List.getLast?_cons_cons]
      unfold lastIsCut at hih
      rw [hih]
      have hlen : (x :: y :: rest').length - 1 = ((y :: rest').length - 1) + 1 := by
        simp
      rw [hlen]
      rfl

theorem isCut_eq_false_of_isBlock (x : BlockOrCut) (h : x.isBlock = true) :
    x.isCut = false := by
  cases x with
  | blk b => rfl
  | cut c => simp [BlockOrCut.isBlock] at h

theorem initTail_ne_nil (l : List (Block × Cut)) (h : l ≠ []) :
    l.flatMap pairChunk ≠ [] := by
  intro hc
  have := flatMap_pairChunk_length l
  rw [hc] at this
  cases l with
  | nil => exact h rfl
  | cons p l => simp at this

theorem lastIsCut_cons_of_ne (x : BlockOrCut) (L : Expr) (h : L ≠ []) :
    lastIsCut (x :: L) = lastIsCut L := by
  cases L with
  | nil => exact absurd rfl h
  | cons y M =>
    unfold lastIsCut
    rw [List.getLast?_cons_cons]

theorem initTail_lastIsCut (l : List (Block × Cut)) (h : l ≠ []) :
    lastIsCut (l.flatMap pairChunk) = true := by
  induction l with
  | nil => exact absurd rfl h
  | cons p l ih =>
    cases l with
    | nil => rfl
    | cons q l' =>
      have hne : (q :: l').flatMap pairChunk ≠ [] :=
        initTail_ne_nil _ (by simp)
      show lastIsCut (BlockOrCut.blk p.1 :: BlockOrCut.cut p.2
          :: (q :: l').flatMap pairChunk) = true
      rw [lastIsCut_cons_of_ne _ _ (by simp), lastIsCut_cons_of_ne _ _ hne]
      exact ih (by simp)

/-- C10 init lemma: the last entry of the initial expression is a cut. -/
theorem initExpr_lastIsCut (blocks : List Block) (cuts : List Cut)
    (hb : 2 ≤ blocks.length) (hcuts : cuts.length = blocks.length - 1) :
    lastIsCut (initExpr blocks cuts) = true := by
  cases blocks with
  | nil => simp at hb
  | cons b₀ rest =>
    rw [initExpr_eq _ _ b₀ rest rfl]
    have hzne : rest.zip cuts ≠ [] := by
      have : (rest.zip cuts).length = rest.length := by
        rw [List.length_zip]
        simp at hcuts hb ⊢
        omega
      intro hc
      rw [hc] at this
      simp at hb this
      omega
    rw [lastIsCut_cons_of_ne _ _ (initTail_ne_nil _ hzne)]
    exact initTail_lastIsCut _ hzne

theorem getD_take_one (e : Expr) (h : 0 < e.length) :
    e.take 1 = [e.getD 0 dflt] := by
  cases e with
  | nil => simp at h
  | cons x rest => rfl

/-- C10 bounds lemma: if the expression satisfies balloting, ends in a
cut, and slot `c` is a cut followed by a block at `c + 1`, then the
positions `c + 2` and `c - 1` touched by
`RestoredPairsFormedByNeighbors_` are in range (so the unguarded
`at(block + 1)` and `at(cut - 1)` cannot throw). -/
theorem restored_pairs_accesses_in_range (e : Expr) (c : Nat)
    (hball : balloting e) (hlast : lastIsCut e = true)
    (hc : c + 1 < e.length)
    (hcut : (e.getD c dflt).isCut = true)
    (hblk : (e.getD (c + 1) dflt).isBlock = true) :
    c + 2 < e.length ∧ 1 ≤ c := by
  constructor
  · by_contra hx
    have hc1 : c + 1 = e.length - 1 := by omega
    rw [lastIsCut_eq_getD e (by omega), ← hc1] at hlast
    rw [isCut_eq_false_of_isBlock _ hblk] at hlast
    exact absurd hlast (by decide)
  · by_contra hx
    have hc0 : c = 0 := by omega
    subst hc0
    have hb1 := hball 1 (by omega) (by omega)
    rw [getD_take_one e (by omega)] at hb1
    have hcc : cutsIn [e.getD 0 dflt] = 1 := by
      unfold cutsIn
      rw [List.countP_cons, hcut]
      simp
    have hbb : blocksIn [e.getD 0 dflt] = 0 := by
      unfold blocksIn
      rw [List.countP_cons, isBlock_eq_not_isCut, hcut]
      simp
    omega

/-- C10 helper: every valid perturbation keeps the last entry a cut. -/
theorem perturb_lastIsCut (s : FState) (ch : Choice) (h : validChoice s ch)
    (hlast : lastIsCut s.expr = true) :
    lastIsCut ((perturb s ch).1.expr) = true := by
  have hpos : 0 < s.expr.length := by
    cases hsx : s.expr with
    | nil =>
      rw [hsx] at hlast
      exact absurd hlast (by decide)
    | cons a b => simp
  have hplen : ((perturb s ch).1.expr).length = s.expr.length := perturb_length s ch h
  rw [lastIsCut_eq_getD _ (by omega), hplen]
  rw [lastIsCut_eq_getD _ hpos] at hlast
  cases ch with
  | blockSwap i pa pb =>
    obtain ⟨hlen, h1, h2, _⟩ := h
    have hi1 : i + 1 ≠ s.expr.length - 1 := by
      intro hc
      rw [← hc] at hlast
      rw [isCut_eq_false_of_isBlock _ h2] at hlast
      exact absurd hlast (by decide)
    show ((swapAdj s.expr i).getD (s.expr.length - 1) dflt).isCut = true
    rw [swapAdj_getD_of_ne s.expr i _ hlen (by omega) (by omega)]
    exact hlast
  | chainInvert li ui ps =>
    show ((invertRange s.expr li ui).getD (s.expr.length - 1) dflt).isCut = true
    rw [invertRange_getD_isCut s.expr li ui _ (by omega)]
    exact hlast
  | blockCutSwap pairIdx pp =>
    obtain ⟨hpi, hc1, hclen, hcut, hblk, _⟩ := h
    have hi1 : s.pairs.getD pairIdx 0 + 1 ≠ s.expr.length - 1 := by
      intro hc
      rw [← hc] at hlast
      rw [isCut_eq_false_of_isBlock _ hblk] at hlast
      exact absurd hlast (by decide)
    show ((swapAdj s.expr (s.pairs.getD pairIdx 0)).getD (s.expr.length - 1) dflt).isCut = true
    rw [swapAdj_getD_of_ne s.expr _ _ hclen (by omega) (by omega)]
    exact hlast

end Floorplan

namespace Floorplan

/-- C10: from construction on, the last entry of the polish
expression is always a cut — after `InitFloorplanPolishExpr_`, after
every valid `Perturb`, and after the `Restore` of a perturbation —
and consequently the unguarded accesses of
`RestoredPairsFormedByNeighbors_` at positions `block + 1 = c + 2`
and `cut - 1 = c - 1` are within the expression bounds. -/
theorem lastIsCut_invariant_and_restore_accesses :
    (∀ (blocks : List Block) (cuts : List Cut), 2 ≤ blocks.length →
      cuts.length = blocks.length - 1 →
      lastIsCut (initExpr blocks cuts) = true)
    ∧ (∀ (s : FState) (ch : Choice), validChoice s ch →
        lastIsCut s.expr = true → lastIsCut ((perturb s ch).1.expr) = true)
    ∧ (∀ (s : FState) (ch : Choice), lastIsCut s.expr = true →
        lastIsCut ((restore (perturb s ch).1 (perturb s ch).2).expr) = true)
    ∧ (∀ (e : Expr) (c : Nat), balloting e → lastIsCut e = true →
        c + 1 < e.length → (e.getD c dflt).isCut = true →
        (e.getD (c + 1) dflt).isBlock = true →
        c + 2 < e.length ∧ 1 ≤ c) := by
  refine ⟨initExpr_lastIsCut, perturb_lastIsCut, ?_,
    restored_pairs_accesses_in_range⟩
  intro s ch hlast
  rw [restore_perturb_expr s ch]
  exact hlast

/-- C10 witness: the invariant evaluated on the four-block instance
and its valid block/cut swap. -/
theorem lastIsCut_invariant_and_restore_accesses_witness :
    lastIsCut (initExpr [⟨0, 1, 1⟩, ⟨1, 1, 1⟩, ⟨2, 1, 1⟩, ⟨3, 1, 1⟩]
      [Cut.H, Cut.H, Cut.H]) = true
    ∧ lastIsCut ((perturb cexState cexChoice).1.expr) = true
    ∧ lastIsCut
        ((restore (perturb cexState cexChoice).1 (perturb cexState cexChoice).2).expr)
        = true
    ∧ (2 + 2 < cexState.expr.length ∧ 1 ≤ 2) :=
  ⟨lastIsCut_invariant_and_restore_accesses.1 _ _ (by decide) (by decide),
   lastIsCut_invariant_and_restore_accesses.2.1 cexState cexChoice
     cexChoice_valid (by decide),
   lastIsCut_invariant_and_restore_accesses.2.2.1 cexState cexChoice (by decide),
   lastIsCut_invariant_and_restore_accesses.2.2.2 cexState.expr 2 (by decide)
     (by decide) (by decide) (by decide) (by decide)⟩

end Floorplan

namespace EulerPath

/-! ## Transistor-pair path finder, HPWL part
(src/euler_path/src/path_finder.cc, `PathFinder::CalculateHpwl_`)

The function works on `net_order`, the list of edge net pairs of the
joined Hamiltonian path with gates excluded
(`GetEdgesWithGateExcludedOf`); nets are identified by ids.  The
`double` design-rule arithmetic is modelled exactly over `ℚ`; the
`std::size_t` subtraction `back() - front()` is modelled with
wrap-around (`sub64`) because the augmented index lists of one-sided
single-point cases are not sorted. -/

abbrev NetId := Nat

/-- One slot of `net_order`: the P-track net and the N-track net. -/
abbrev NetPair := NetId × NetId

/-- The index-collection loop of `CalculateHpwl_`: positions `i` with
`net_order.at(i).first == net` (respectively `.second`), ascending. -/
def idxOf (p : NetPair → Bool) : List NetPair → Nat → List Nat
  | [], _ => []
  | x :: rest, i =>
    if p x then i :: idxOf p rest (i + 1) else idxOf p rest (i + 1)

def idxInP (netOrder : List NetPair) (net : NetId) : List Nat :=
  idxOf (fun x => x.1 == net) netOrder 0

def idxInN (netOrder : List NetPair) (net : NetId) : List Nat :=
  idxOf (fun x => x.2 == net) netOrder 0

/-- `std::size_t` subtraction (wrap-around modulo `2^64`). -/
def sub64 (a b : Nat) : Nat := (a + 2 ^ 64 - b) % 2 ^ 64

/-- Design-rule constants of `CalculateHpwl_`. -/
def kVerticalWidthIncrement : ℚ := 27
def kHorizontalExtension : ℚ := 25
def kGateSpacing : ℚ := 34
def kHorizontalGateWidth : ℚ := 20
def kUnitHorizontalWidth : ℚ := kGateSpacing + kHorizontalGateWidth

/-- `vertical_wire_length = kVerticalWidthIncrement + (W_P + W_N)/2`. -/
def verticalWireLength (wp wn : ℚ) : ℚ :=
  kVerticalWidthIncrement + (wp + wn) / 2

/-- `HorizontalWidthOf`: `unit * (back() - front())` on `std::size_t`. -/
def horizontalWidthOf (l : List Nat) : ℚ :=
  kUnitHorizontalWidth * (sub64 (l.getLastD 0) (l.headD 0) : ℚ)

/-- `IsCoveringTheEnd`: `back() == net_order.size() - 1`. -/
def isCoveringTheEnd (len : Nat) (l : List Nat) : Bool :=
  l.getLastD 0 == len - 1

/-- `IsCoveringTheStart`: `front() == 0`. -/
def isCoveringTheStart (l : List Nat) : Bool :=
  l.headD 0 == 0

def boolToQ (b : Bool) : ℚ := if b then 1 else 0

/-- The per-net contribution of the `CalculateHpwl_` loop body (the
final `hpwl +=` amounts for one net), including the boundary
adjustment `(-kGateSpacing + kHorizontalExtension)/2 * adjustment`. -/
def hpwlContrib (netOrder : List NetPair) (vw : ℚ) (net : NetId) : ℚ :=
  let idxP := idxInP netOrder net
  let idxN := idxInN netOrder net
  let len := netOrder.length
  let adjFactor := (-kGateSpacing + kHorizontalExtension) / 2
  if idxP.length = 1 ∧ idxN.length = 1 then
    let augmented := [min (idxP.headD 0) (idxN.headD 0),
                      max (idxP.headD 0) (idxN.headD 0)]
    horizontalWidthOf augmented + vw
      + adjFactor * (boolToQ (isCoveringTheEnd len augmented)
          + boolToQ (isCoveringTheStart augmented))
  else if 1 < idxP.length ∧ idxN.length = 1 then
    let augmented := idxP ++ [idxN.headD 0]
    horizontalWidthOf augmented + vw
      + adjFactor * (boolToQ (isCoveringTheEnd len augmented)
          + boolToQ (isCoveringTheStart augmented))
  else if idxP.length = 1 ∧ 1 < idxN.length then
    let augmented := idxN ++ [idxP.headD 0]
    horizontalWidthOf augmented + vw
      + adjFactor * (boolToQ (isCoveringTheEnd len augmented)
          + boolToQ (isCoveringTheStart augmented))
  else if 1 < idxP.length ∧ 1 < idxN.length then
    horizontalWidthOf idxP + horizontalWidthOf idxN + vw
      + (if idxN.getLastD 0 < idxP.headD 0 then
          kUnitHorizontalWidth * ((idxP.headD 0 - idxN.getLastD 0 : Nat) : ℚ)
        else if idxP.getLastD 0 < idxN.headD 0 then
          kUnitHorizontalWidth * ((idxN.headD 0 - idxP.getLastD 0 : Nat) : ℚ)
        else 0)
      + adjFactor * (boolToQ (isCoveringTheEnd len idxP)
          + boolToQ (isCoveringTheStart idxP)
          + boolToQ (isCoveringTheEnd len idxN)
          + boolToQ (isCoveringTheStart idxN))
  else if 1 < idxP.length ∧ idxN.length = 0 then
    horizontalWidthOf idxP
      + adjFactor * (boolToQ (isCoveringTheEnd len idxP)
          + boolToQ (isCoveringTheStart idxP))
  else if idxP.length = 0 ∧ 1 < idxN.length then
    horizontalWidthOf idxN
      + adjFactor * (boolToQ (isCoveringTheEnd len idxN)
          + boolToQ (isCoveringTheStart idxN))
  else 0

/-- The total HPWL: sum of the per-net contributions over the
circuit's nets. -/
def calculateHpwl (netOrder : List NetPair) (nets : List NetId)
    (wp wn : ℚ) : ℚ :=
  (nets.map (hpwlContrib netOrder (verticalWireLength wp wn))).sum

/-- Modelled from the claim's words (for refutation): for a net on
both tracks, mix the two sorted index lists into one sorted list `M`
and contribute `unit * (max M - min M) + vertical_wire - 4.5` per
covered end of the whole sequence. -/
def specContribBothNonEmpty (netOrder : List NetPair) (vw : ℚ)
    (net : NetId) : ℚ :=
  let idxP := idxInP netOrder net
  let idxN := idxInN netOrder net
  let len := netOrder.length
  let lo := min (idxP.headD 0) (idxN.headD 0)
  let hi := max (idxP.getLastD 0) (idxN.getLastD 0)
  kUnitHorizontalWidth * ((hi - lo : Nat) : ℚ) + vw
    + (-(9 : ℚ) / 2) * ((if hi = len - 1 then 1 else 0)
        + (if lo = 0 then 1 else 0))

end EulerPath

namespace EulerPath

theorem idxOf_ge (p : NetPair → Bool) (l : List NetPair) (i : Nat) :
    ∀ x ∈ idxOf p l i, i ≤ x := by
  induction l generalizing i with
  | nil => intro x hx; simp [idxOf] at hx
  | cons y rest ih =>
    intro x hx
    unfold idxOf at hx
    by_cases hy : p y
    · rw [if_pos hy] at hx
      rcases List.mem_cons.mp hx with rfl | hx
      · exact le_refl x
      · have := ih (i + 1) x hx
        omega
    · rw [if_neg hy] at hx
      have := ih (i + 1) x hx
      omega

theorem idxOf_lt (p : NetPair → Bool) (l : List NetPair) (i : Nat) :
    ∀ x ∈ idxOf p l i, x < i + l.length := by
  induction l generalizing i with
  | nil => intro x hx; simp [idxOf] at hx
  | cons y rest ih =>
    intro x hx
    unfold idxOf at hx
    rw [List.length_cons]
    by_cases hy : p y
    · rw [if_pos hy] at hx
      rcases List.mem_cons.mp hx with rfl | hx
      · omega
      · have := ih (i + 1) x hx
        omega
    · rw [if_neg hy] at hx
      have := ih (i + 1) x hx
      omega

theorem idxOf_chain (p : NetPair → Bool) (l : List NetPair) (i : Nat) :
    (idxOf p l i).Chain' (· < ·) := by
  induction l generalizing i with
  | nil => simp [idxOf]
  | cons y rest ih =>
    unfold idxOf
    by_cases hy : p y
    · rw [if_pos hy]
      apply List.chain'_cons'.mpr
      refine ⟨?_, ih (i + 1)⟩
      intro z hz
      have hmem : z ∈ idxOf p rest (i + 1) := by
        exact List.mem_of_mem_head? hz
      have := idxOf_ge p rest (i + 1) z hmem
      omega
    · rw [if_neg hy]
      exact ih (i + 1)

theorem headD_mem (l : List Nat) (h : l ≠ []) : l.headD 0 ∈ l := by
  cases l with
  | nil => exact absurd rfl h
  | cons x rest => exact List.mem_cons_self x rest

theorem getLastD_mem (l : List Nat) (h : l ≠ []) : l.getLastD 0 ∈ l := by
  induction l with
  | nil => exact absurd rfl h
  | cons x rest ih =>
    cases rest with
    | nil => simp [List.getLastD]
    | cons y rest' =>
      rw [List.getLastD_cons]
      exact List.mem_cons_of_mem x (ih (by simp))

theorem headD_le_of_chain (l : List Nat) (hc : l.Chain' (· < ·)) :
    ∀ x ∈ l, l.headD 0 ≤ x := by
  induction l with
  | nil => intro x hx; simp at hx
  | cons a rest ih =>
    intro x hx
    rcases List.mem_cons.mp hx with rfl | hx
    · exact le_refl x
    · show a ≤ x
      rcases (List.chain'_cons'.mp hc) with ⟨hhead, hrest⟩
      cases rest with
      | nil => simp at hx
      | cons b rest' =>
        have hab : a < b := hhead b rfl
        have := ih hrest x hx
        simp only [List.headD_cons] at this
        omega

theorem getLastD_irrel (l : List Nat) (d : Nat) (h : l ≠ []) :
    l.getLastD d = l.getLastD 0 := by
  induction l generalizing d with
  | nil => exact absurd rfl h
  | cons a m ih =>
    cases m with
    | nil => rfl
    | cons b m' =>
      rw [List.getLastD_cons, ih a (by simp)]
      rw [show ((a :: b :: m').getLastD 0) = ((b :: m').getLastD a) from
        List.getLastD_cons _ _ _, ih a (by simp)]

theorem le_getLastD_of_chain (l : List Nat) (hc : l.Chain' (· < ·)) :
    ∀ x ∈ l, x ≤ l.getLastD 0 := by
  induction l with
  | nil => intro x hx; simp at hx
  | cons a rest ih =>
    intro x hx
    rcases (List.chain'_cons'.mp hc) with ⟨hhead, hrest⟩
    cases rest with
    | nil =>
      rcases List.mem_cons.mp hx with rfl | hx
      · simp [List.getLastD]
      · simp at hx
    | cons b rest' =>
      rw [List.getLastD_cons, getLastD_irrel _ _ (by simp)]
      rcases List.mem_cons.mp hx with rfl | hx
      · have hab : x < b := hhead b rfl
        have hb := ih hrest b (List.mem_cons_self b rest')
        omega
      · exact ih hrest x hx

theorem headD_le_getLastD (l : List Nat) (h : l ≠ [])
    (hc : l.Chain' (· < ·)) : l.headD 0 ≤ l.getLastD 0 :=
  headD_le_of_chain l hc _ (getLastD_mem l h)

theorem sub64_cast (a b : Nat) (hba : b ≤ a) (ha : a < 2 ^ 64) :
    ((sub64 a b : Nat) : ℚ) = (a : ℚ) - b := by
  unfold sub64
  have h1 : a + 2 ^ 64 - b = (a - b) + 2 ^ 64 := by omega
  rw [h1, Nat.add_mod_right, Nat.mod_eq_of_lt (by omega), Nat.cast_sub hba]

theorem getLastD_append_singleton (l : List Nat) (x : Nat) :
    (l ++ [x]).getLastD 0 = x := by
  induction l with
  | nil => rfl
  | cons a rest ih =>
    show ((a :: (rest ++ [x])).getLastD 0) = x
    rw [List.getLastD_cons, getLastD_irrel _ _ (by simp), ih]

theorem headD_append_of_ne_nil (l : List Nat) (x : Nat) (h : l ≠ []) :
    (l ++ [x]).headD 0 = l.headD 0 := by
  cases l with
  | nil => exact absurd rfl h
  | cons a rest => rfl

end EulerPath

namespace EulerPath

theorem boolToQ_beq (a b : Nat) :
    boolToQ (a == b) = if a = b then (1 : ℚ) else 0 := by
  by_cases h : a = b <;> simp [boolToQ, h]

/-- C4 counterexample: on the net order
`[(1,0), (0,1), (1,0), (0,1)]` net 1 appears in the P track at
positions `[0, 2]` and in the N track at `[1, 3]` (both lists
non-empty).  With `vertical_wire = 28` the code contributes
`54·2 + 54·2 + 28 − 9 = 235` (the two per-track spans are added),
while the claimed merged-list formula gives
`54·(3 − 0) + 28 − 9 = 181`. -/
theorem hpwlContrib_ne_merged_span :
    idxInP [(1, 0), (0, 1), (1, 0), (0, 1)] 1 = [0, 2]
    ∧ idxInN [(1, 0), (0, 1), (1, 0), (0, 1)] 1 = [1, 3]
    ∧ hpwlContrib [(1, 0), (0, 1), (1, 0), (0, 1)] (verticalWireLength 1 1) 1
        = 235
    ∧ specContribBothNonEmpty [(1, 0), (0, 1), (1, 0), (0, 1)]
        (verticalWireLength 1 1) 1 = 181
    ∧ hpwlContrib [(1, 0), (0, 1), (1, 0), (0, 1)] (verticalWireLength 1 1) 1
        ≠ specContribBothNonEmpty [(1, 0), (0, 1), (1, 0), (0, 1)]
            (verticalWireLength 1 1) 1 := by
  refine ⟨by decide, by decide, ?_, ?_, ?_⟩ <;>
    norm_num [hpwlContrib, specContribBothNonEmpty, idxInP, idxInN, idxOf,
      horizontalWidthOf, sub64, isCoveringTheEnd, isCoveringTheStart, boolToQ,
      kUnitHorizontalWidth, kGateSpacing, kHorizontalGateWidth,
      kHorizontalExtension, verticalWireLength, kVerticalWidthIncrement]

/-- C4 (amended): the per-net contribution of `CalculateHpwl_` for a
net appearing on both tracks.  Both-singleton nets follow the
merged-span formula of the claim; when both tracks hold the net at
two or more positions the code adds the two per-track spans (plus the
gap between them when disjoint) instead of the merged span, and when
exactly one track is a singleton the augmented index list is unsorted
(the singleton is appended at the back), so the span is the `size_t`
difference `singleton − min(multi)` with wrap-around, and the
boundary adjustment tests the singleton against the end.  The
adjustment factor is `(−34 + 25)/2 = −4.5` per covered end. -/
theorem hpwlContrib_both_tracks (netOrder : List NetPair) (vw : ℚ)
    (net : NetId) (hL : netOrder.length < 2 ^ 64) :
    ((idxInP netOrder net).length = 1 ∧ (idxInN netOrder net).length = 1 →
      hpwlContrib netOrder vw net
        = kUnitHorizontalWidth
            * (((max ((idxInP netOrder net).headD 0) ((idxInN netOrder net).headD 0) : Nat) : ℚ)
               - ((min ((idxInP netOrder net).headD 0) ((idxInN netOrder net).headD 0) : Nat) : ℚ))
          + vw
          + (-(9 : ℚ) / 2)
            * ((if max ((idxInP netOrder net).headD 0) ((idxInN netOrder net).headD 0)
                  = netOrder.length - 1 then (1 : ℚ) else 0)
              + (if min ((idxInP netOrder net).headD 0) ((idxInN netOrder net).headD 0)
                  = 0 then (1 : ℚ) else 0)))
    ∧ (1 < (idxInP netOrder net).length ∧ (idxInN netOrder net).length = 1 →
      hpwlContrib netOrder vw net
        = kUnitHorizontalWidth
            * ((sub64 ((idxInN netOrder net).headD 0) ((idxInP netOrder net).headD 0) : Nat) : ℚ)
          + vw
          + (-(9 : ℚ) / 2)
            * ((if (idxInN netOrder net).headD 0 = netOrder.length - 1 then (1 : ℚ) else 0)
              + (if (idxInP netOrder net).headD 0 = 0 then (1 : ℚ) else 0)))
    ∧ ((idxInP netOrder net).length = 1 ∧ 1 < (idxInN netOrder net).length →
      hpwlContrib netOrder vw net
        = kUnitHorizontalWidth
            * ((sub64 ((idxInP netOrder net).headD 0) ((idxInN netOrder net).headD 0) : Nat) : ℚ)
          + vw
          + (-(9 : ℚ) / 2)
            * ((if (idxInP netOrder net).headD 0 = netOrder.length - 1 then (1 : ℚ) else 0)
              + (if (idxInN netOrder net).headD 0 = 0 then (1 : ℚ) else 0)))
    ∧ (1 < (idxInP netOrder net).length ∧ 1 < (idxInN netOrder net).length →
      hpwlContrib netOrder vw net
        = kUnitHorizontalWidth
            * ((((idxInP netOrder net).getLastD 0 : ℚ) - ((idxInP netOrder net).headD 0 : ℚ))
              + (((idxInN netOrder net).getLastD 0 : ℚ) - ((idxInN netOrder net).headD 0 : ℚ))
              + (if (idxInN netOrder net).getLastD 0 < (idxInP netOrder net).headD 0 then
                  ((idxInP netOrder net).headD 0 : ℚ) - ((idxInN netOrder net).getLastD 0 : ℚ)
                else if (idxInP netOrder net).getLastD 0 < (idxInN netOrder net).headD 0 then
                  ((idxInN netOrder net).headD 0 : ℚ) - ((idxInP netOrder net).getLastD 0 : ℚ)
                else 0))
          + vw
          + (-(9 : ℚ) / 2)
            * ((if (idxInP netOrder net).getLastD 0 = netOrder.length - 1 then (1 : ℚ) else 0)
              + (if (idxInP netOrder net).headD 0 = 0 then (1 : ℚ) else 0)
              + (if (idxInN netOrder net).getLastD 0 = netOrder.length - 1 then (1 : ℚ) else 0)
              + (if (idxInN netOrder net).headD 0 = 0 then (1 : ℚ) else 0))) := by
  have hPchain : (idxInP netOrder net).Chain' (· < ·) :=
    idxOf_chain (fun x => x.1 == net) netOrder 0
  have hNchain : (idxInN netOrder net).Chain' (· < ·) :=
    idxOf_chain (fun x => x.2 == net) netOrder 0
  have hPlt : ∀ x ∈ idxInP netOrder net, x < netOrder.length := by
    intro x hx
    have := idxOf_lt (fun x => x.1 == net) netOrder 0 x hx
    omega
  have hNlt : ∀ x ∈ idxInN netOrder net, x < netOrder.length := by
    intro x hx
    have := idxOf_lt (fun x => x.2 == net) netOrder 0 x hx
    omega
  have hAdj : (-kGateSpacing + kHorizontalExtension) / 2 = -(9 : ℚ) / 2 := by
    norm_num [kGateSpacing, kHorizontalExtension]
  refine ⟨?_, ?_, ?_, ?_⟩
  · rintro ⟨hp, hn⟩
    have hcond : (idxInP netOrder net).length = 1 ∧ (idxInN netOrder net).length = 1 :=
      ⟨hp, hn⟩
    simp only [hpwlContrib, if_pos hcond]
    have hPne : idxInP netOrder net ≠ [] := by
      intro hc; rw [hc] at hp; simp at hp
    have hNne : idxInN netOrder net ≠ [] := by
      intro hc; rw [hc] at hn; simp at hn
    have hhi : max ((idxInP netOrder net).headD 0) ((idxInN netOrder net).headD 0)
        < 2 ^ 64 := by
      have h1 := hPlt _ (headD_mem _ hPne)
      have h2 := hNlt _ (headD_mem _ hNne)
      omega
    have hlast : ([min ((idxInP netOrder net).headD 0) ((idxInN netOrder net).headD 0),
        max ((idxInP netOrder net).headD 0) ((idxInN netOrder net).headD 0)] : List Nat).getLastD 0
        = max ((idxInP netOrder net).headD 0) ((idxInN netOrder net).headD 0) := rfl
    have hhead : ([min ((idxInP netOrder net).headD 0) ((idxInN netOrder net).headD 0),
        max ((idxInP netOrder net).headD 0) ((idxInN netOrder net).headD 0)] : List Nat).headD 0
        = min ((idxInP netOrder net).headD 0) ((idxInN netOrder net).headD 0) := rfl
    rw [horizontalWidthOf, hlast, hhead,
      sub64_cast _ _ (min_le_max) hhi,
      isCoveringTheEnd, isCoveringTheStart, hlast, hhead, boolToQ_beq, boolToQ_beq,
      hAdj]
  · rintro ⟨hp, hn⟩
    have hcond1 : ¬((idxInP netOrder net).length = 1 ∧ (idxInN netOrder net).length = 1) := by
      rintro ⟨h1, _⟩; omega
    have hcond2 : 1 < (idxInP netOrder net).length ∧ (idxInN netOrder net).length = 1 :=
      ⟨hp, hn⟩
    simp only [hpwlContrib, if_neg hcond1, if_pos hcond2]
    have hPne : idxInP netOrder net ≠ [] := by
      intro hc; rw [hc] at hp; simp at hp
    rw [horizontalWidthOf, getLastD_append_singleton, headD_append_of_ne_nil _ _ hPne,
      isCoveringTheEnd, isCoveringTheStart, getLastD_append_singleton,
      headD_append_of_ne_nil _ _ hPne, boolToQ_beq, boolToQ_beq, hAdj]
  · rintro ⟨hp, hn⟩
    have hcond1 : ¬((idxInP netOrder net).length = 1 ∧ (idxInN netOrder net).length = 1) := by
      rintro ⟨_, h2⟩; omega
    have hcond2 : ¬(1 < (idxInP netOrder net).length ∧ (idxInN netOrder net).length = 1) := by
      rintro ⟨h1, _⟩; omega
    have hcond3 : (idxInP netOrder net).length = 1 ∧ 1 < (idxInN netOrder net).length :=
      ⟨hp, hn⟩
    simp only [hpwlContrib, if_neg hcond1, if_neg hcond2, if_pos hcond3]
    have hNne : idxInN netOrder net ≠ [] := by
      intro hc; rw [hc] at hn; simp at hn
    rw [horizontalWidthOf, getLastD_append_singleton, headD_append_of_ne_nil _ _ hNne,
      isCoveringTheEnd, isCoveringTheStart, getLastD_append_singleton,
      headD_append_of_ne_nil _ _ hNne, boolToQ_beq, boolToQ_beq, hAdj]
  · rintro ⟨hp, hn⟩
    have hcond1 : ¬((idxInP netOrder net).length = 1 ∧ (idxInN netOrder net).length = 1) := by
      rintro ⟨h1, _⟩; omega
    have hcond2 : ¬(1 < (idxInP netOrder net).length ∧ (idxInN netOrder net).length = 1) := by
      rintro ⟨_, h2⟩; omega
    have hcond3 : ¬((idxInP netOrder net).length = 1 ∧ 1 < (idxInN netOrder net).length) := by
      rintro ⟨h1, _⟩; omega
    have hcond4 : 1 < (idxInP netOrder net).length ∧ 1 < (idxInN netOrder net).length :=
      ⟨hp, hn⟩
    simp only [hpwlContrib, if_neg hcond1, if_neg hcond2, if_neg hcond3, if_pos hcond4]
    have hPne : idxInP netOrder net ≠ [] := by
      intro hc; rw [hc] at hp; simp at hp
    have hNne : idxInN netOrder net ≠ [] := by
      intro hc; rw [hc] at hn; simp at hn
    have hPle := headD_le_getLastD _ hPne hPchain
    have hNle := headD_le_getLastD _ hNne hNchain
    have hPlast : (idxInP netOrder net).getLastD 0 < 2 ^ 64 := by
      have := hPlt _ (getLastD_mem _ hPne)
      omega
    have hNlast : (idxInN netOrder net).getLastD 0 < 2 ^ 64 := by
      have := hNlt _ (getLastD_mem _ hNne)
      omega
    rw [horizontalWidthOf, horizontalWidthOf, sub64_cast _ _ hPle hPlast,
      sub64_cast _ _ hNle hNlast,
      isCoveringTheEnd, isCoveringTheStart, isCoveringTheEnd, isCoveringTheStart,
      boolToQ_beq, boolToQ_beq, boolToQ_beq, boolToQ_beq, hAdj]
    by_cases hg1 : (idxInN netOrder net).getLastD 0 < (idxInP netOrder net).headD 0
    · rw [if_pos hg1, if_pos hg1, Nat.cast_sub (by omega)]
      ring
    · rw [if_neg hg1, if_neg hg1]
      by_cases hg2 : (idxInP netOrder net).getLastD 0 < (idxInN netOrder net).headD 0
      · rw [if_pos hg2, if_pos hg2, Nat.cast_sub (by omega)]
        ring
      · rw [if_neg hg2, if_neg hg2]
        ring

/-- C4 witness: the amended characterization evaluated on the
counterexample net order (both-multiple case). -/
theorem hpwlContrib_both_tracks_witness :
    1 < (idxInP [(1, 0), (0, 1), (1, 0), (0, 1)] 1).length
    ∧ 1 < (idxInN [(1, 0), (0, 1), (1, 0), (0, 1)] 1).length
    ∧ hpwlContrib [(1, 0), (0, 1), (1, 0), (0, 1)] (verticalWireLength 1 1) 1
        = kUnitHorizontalWidth
            * ((((idxInP [(1, 0), (0, 1), (1, 0), (0, 1)] 1).getLastD 0 : ℚ)
                - ((idxInP [(1, 0), (0, 1), (1, 0), (0, 1)] 1).headD 0 : ℚ))
              + (((idxInN [(1, 0), (0, 1), (1, 0), (0, 1)] 1).getLastD 0 : ℚ)
                - ((idxInN [(1, 0), (0, 1), (1, 0), (0, 1)] 1).headD 0 : ℚ))
              + (if (idxInN [(1, 0), (0, 1), (1, 0), (0, 1)] 1).getLastD 0
                    < (idxInP [(1, 0), (0, 1), (1, 0), (0, 1)] 1).headD 0 then
                  ((idxInP [(1, 0), (0, 1), (1, 0), (0, 1)] 1).headD 0 : ℚ)
                    - ((idxInN [(1, 0), (0, 1), (1, 0), (0, 1)] 1).getLastD 0 : ℚ)
                else if (idxInP [(1, 0), (0, 1), (1, 0), (0, 1)] 1).getLastD 0
                    < (idxInN [(1, 0), (0, 1), (1, 0), (0, 1)] 1).headD 0 then
                  ((idxInN [(1, 0), (0, 1), (1, 0), (0, 1)] 1).headD 0 : ℚ)
                    - ((idxInP [(1, 0), (0, 1), (1, 0), (0, 1)] 1).getLastD 0 : ℚ)
                else 0))
          + verticalWireLength 1 1
          + (-(9 : ℚ) / 2)
            * ((if (idxInP [(1, 0), (0, 1), (1, 0), (0, 1)] 1).getLastD 0
                  = ([(1, 0), (0, 1), (1, 0), (0, 1)] : List NetPair).length - 1
                then (1 : ℚ) else 0)
              + (if (idxInP [(1, 0), (0, 1), (1, 0), (0, 1)] 1).headD 0 = 0
                then (1 : ℚ) else 0)
              + (if (idxInN [(1, 0), (0, 1), (1, 0), (0, 1)] 1).getLastD 0
                  = ([(1, 0), (0, 1), (1, 0), (0, 1)] : List NetPair).length - 1
                then (1 : ℚ) else 0)
              + (if (idxInN [(1, 0), (0, 1), (1, 0), (0, 1)] 1).headD 0 = 0
                then (1 : ℚ) else 0)) :=
  ⟨by decide, by decide,
   (hpwlContrib_both_tracks [(1, 0), (0, 1), (1, 0), (0, 1)]
     (verticalWireLength 1 1) 1 (by norm_num)).2.2.2 ⟨by decide, by decide⟩⟩

end EulerPath

namespace EulerPath

/-! ## Path fragments, deep copy and rotation
(src/euler_path/src/path.cc `Path::operator=`,
src/euler_path/src/path_finder.cc `PathFinder::Rotate_`)

Path fragments live on an explicit heap of numbered cells; `next`
models the owning `shared_ptr`, `prev` the weak back pointer (both
`none` when null/expired).  Vertices are identified by numbers and
the neighbour test is an abstract parameter.  Every C++ dereference
of a possibly-null pointer is modelled in `Option`: a `none` is the
program crashing (undefined behaviour), and the theorems speak about
the executions that return. -/

structure Fragment where
  vertex : Nat
  prev : Option Nat
  next : Option Nat
  edgeToNext : Option NetId × Option NetId
deriving DecidableEq, Repr

structure Heap where
  mem : Nat → Fragment
  fresh : Nat

structure HPath where
  head : Option Nat
  tail : Option Nat
deriving DecidableEq, Repr

def Heap.write (h : Heap) (a : Nat) (f : Fragment) : Heap :=
  ⟨Function.update h.mem a f, h.fresh⟩

def Heap.alloc (h : Heap) (f : Fragment) : Heap × Nat :=
  (⟨Function.update h.mem h.fresh f, h.fresh + 1⟩, h.fresh)

/-- The loop of `Path::operator=`: walks the source chain, allocates
a fresh fragment per source fragment carrying the source's vertex and
`edge_to_next`, links it behind the previously allocated one (or
records it as the head), and finally reports the head and the tail
(the last allocated fragment). -/
def copyLoop : Nat → Heap → Option Nat → Option Nat → Option Nat →
    Option (Heap × Option Nat × Option Nat)
  | _, h, none, thisPrev, headAcc => some (h, headAcc, thisPrev)
  | 0, _, some _, _, _ => none
  | fuel + 1, h, some s, thisPrev, headAcc =>
    let sf := h.mem s
    let pr := h.alloc ⟨sf.vertex, thisPrev, none, sf.edgeToNext⟩
    match thisPrev with
    | some p =>
        copyLoop fuel ((pr.1).write p { (pr.1).mem p with next := some pr.2 })
          sf.next (some pr.2) headAcc
    | none => copyLoop fuel pr.1 sf.next (some pr.2) (some pr.2)

/-- `Path::operator=` / the copy constructor (`auto rotated_path = path`). -/
def copyPath (h : Heap) (p : HPath) (fuel : Nat) : Option (Heap × HPath) :=
  (copyLoop fuel h p.head none none).map (fun r => (r.1, ⟨r.2.1, r.2.2⟩))

/-- `while (rotated_curr->vertex != curr->vertex) rotated_curr = rotated_curr->next`. -/
def walkToVertex : Nat → Heap → Option Nat → Nat → Option Nat
  | 0, _, _, _ => none
  | _ + 1, _, none, _ => none
  | fuel + 1, h, some c, v =>
    if (h.mem c).vertex = v then some c
    else walkToVertex fuel h (h.mem c).next v

/-- The in-place reversal loop of `Rotate_`
(`while (rotated_curr) { next = rc->next; rc->next = prev;
rc->next->prev = rc; prev = rc; rc = next }`); a null `prev` makes
the second assignment dereference null. -/
def reverseLoop : Nat → Heap → Option Nat → Option Nat → Option Heap
  | 0, _, _, _ => none
  | _ + 1, h, none, _ => some h
  | fuel + 1, h, some c, prevPtr =>
    match prevPtr with
    | none => none
    | some p =>
      reverseLoop fuel
        (((h.write c { h.mem c with next := prevPtr })).write p
          { ((h.write c { h.mem c with next := prevPtr })).mem p with prev := some c })
        ((h.mem c).next) (some c)

/-- The body of the head-rotation branch: deep copy, fast forward to
the pivot vertex, cut the link before the pivot, reverse the prefix.
Each `none` arm is the C++ dereferencing a null pointer. -/
def rotateHeadBody (h : Heap) (p : HPath) (v : Nat) (fuel : Nat) :
    Option (Heap × HPath) :=
  Option.bind (copyPath h p fuel) (fun r =>
    Option.bind (walkToVertex fuel r.1 r.2.head v) (fun rc =>
      Option.bind (((r.1).mem rc).prev) (fun nh =>
        Option.bind (reverseLoop fuel
            ((r.1).write nh { (r.1).mem nh with next := none }) r.2.head (some rc))
          (fun h3 => some (h3, r.2)))))

/-- The head-rotation loop: `for (curr = path.head->next->next; curr;
curr = curr->next)`. -/
def rotateHeadLoop : Nat → (Nat → Nat → Bool) → Heap → HPath → Nat →
    Option Nat → List HPath → Option (Heap × List HPath)
  | 0, _, _, _, _, _, _ => none
  | _ + 1, _, h, _, _, none, acc => some (h, acc)
  | fuel + 1, nb, h, p, origHead, some c, acc =>
    if nb (h.mem origHead).vertex (h.mem c).vertex then
      Option.bind (rotateHeadBody h p ((h.mem c).vertex) fuel) (fun r =>
        rotateHeadLoop fuel nb r.1 p origHead ((r.1.mem c).next) (acc ++ [r.2]))
    else rotateHeadLoop fuel nb h p origHead ((h.mem c).next) acc

/-- The body of the tail-rotation branch.  After
`rotated_curr->next->prev.reset()` and the advance, the code
dereferences `rotated_curr->prev.lock()`, which was just reset: this
branch always crashes (returns `none`) when entered. -/
def rotateTailBody (h : Heap) (p : HPath) (v : Nat) (fuel : Nat) :
    Option (Heap × HPath) :=
  Option.bind (copyPath h p fuel) (fun r =>
    Option.bind (walkToVertex fuel r.1 r.2.head v) (fun rc =>
      Option.bind (((r.1).mem rc).next) (fun n1 =>
        let h2 := (r.1).write n1 { (r.1).mem n1 with prev := none }
        Option.bind ((h2.mem n1).prev) (fun p2 =>
          let h3 := h2.write p2 { h2.mem p2 with next := r.2.tail }
          let h4 := h3.write n1 { h3.mem n1 with prev := none }
          Option.bind (reverseLoop fuel h4 (some n1) none)
            (fun h5 => some (h5, HPath.mk r.2.head (some n1)))))))

/-- The tail-rotation loop: `for (curr = path.head;
curr->next->next; curr = curr->next)`. -/
def rotateTailLoop : Nat → (Nat → Nat → Bool) → Heap → HPath →
    Option Nat → List HPath → Option (Heap × List HPath)
  | 0, _, _, _, _, _ => none
  | _ + 1, _, _, _, none, _ => none
  | fuel + 1, nb, h, p, some c, acc =>
    match (h.mem c).next with
    | none => none
    | some n1 =>
      match (h.mem n1).next with
      | none => some (h, acc)
      | some _ =>
        match p.tail with
        | none => none
        | some t =>
          if nb (h.mem t).vertex (h.mem c).vertex then
            Option.bind (rotateTailBody h p ((h.mem c).vertex) fuel) (fun r =>
              rotateTailLoop fuel nb r.1 p ((r.1.mem c).next) (acc ++ [r.2]))
          else rotateTailLoop fuel nb h p (some n1) acc

/-- `PathFinder::Rotate_`. -/
def rotatePaths (nb : Nat → Nat → Bool) (h : Heap) (p : HPath)
    (fuel : Nat) : Option (Heap × List HPath) :=
  if p.head = p.tail then some (h, [])
  else
    match p.head with
    | none => none
    | some hd =>
      if (h.mem hd).next = p.tail then some (h, [])
      else
        match (h.mem hd).next with
        | none => none
        | some n2 =>
          match rotateHeadLoop fuel nb h p hd ((h.mem n2).next) [] with
          | none => none
          | some r => rotateTailLoop fuel nb r.1 p (some hd) r.2

/-- The fragment id chain from a head pointer. -/
def spine : Nat → Heap → Option Nat → Option (List Nat)
  | _, _, none => some []
  | 0, _, some _ => none
  | fuel + 1, h, some c => (spine fuel h (h.mem c).next).map (c :: ·)


/-! ### Heap reasoning infrastructure -/

theorem write_fresh (h : Heap) (a : Nat) (f : Fragment) :
    (h.write a f).fresh = h.fresh := rfl

theorem write_mem (h : Heap) (a : Nat) (f : Fragment) (b : Nat) :
    (h.write a f).mem b = if b = a then f else h.mem b := by
  simp [Heap.write, Function.update_apply]

theorem alloc_fst_fresh (h : Heap) (f : Fragment) :
    ((h.alloc f).1).fresh = h.fresh + 1 := rfl

theorem alloc_snd (h : Heap) (f : Fragment) : (h.alloc f).2 = h.fresh := rfl

theorem alloc_fst_mem (h : Heap) (f : Fragment) (b : Nat) :
    ((h.alloc f).1).mem b = if b = h.fresh then f else h.mem b := by
  simp [Heap.alloc, Function.update_apply]

/-- An optional address is null or allocated in the region `[n, f)`. -/
def InR (n f : Nat) : Option Nat → Prop
  | none => True
  | some a => n ≤ a ∧ a < f

theorem InR_mono {n f f' : Nat} (hf : f ≤ f') {x : Option Nat}
    (hx : InR n f x) : InR n f' x := by
  cases x with
  | none => trivial
  | some a => exact ⟨hx.1, Nat.lt_of_lt_of_le hx.2 hf⟩

/-- Every fragment allocated at or above `n` links (forward and backward)
only to fragments at or above `n`. -/
def validAbove (n : Nat) (h : Heap) : Prop :=
  ∀ a, n ≤ a → a < h.fresh →
    InR n h.fresh ((h.mem a).next) ∧ InR n h.fresh ((h.mem a).prev)

def GoodH (n : Nat) (h : Heap) : Prop := n ≤ h.fresh ∧ validAbove n h

theorem validAbove_write {n : Nat} {h : Heap} {a : Nat} {f : Fragment}
    (hv : validAbove n h)
    (hn : InR n h.fresh f.next) (hp : InR n h.fresh f.prev) :
    validAbove n (h.write a f) := by
  intro b hb1 hb2
  rw [write_fresh] at hb2
  simp only [write_fresh, write_mem]
  by_cases hba : b = a
  · simp only [if_pos hba]
    exact ⟨hn, hp⟩
  · simp only [if_neg hba]
    exact hv b hb1 hb2

theorem validAbove_alloc {n : Nat} {h : Heap} {f : Fragment}
    (hv : validAbove n h)
    (hn : InR n (h.fresh + 1) f.next) (hp : InR n (h.fresh + 1) f.prev) :
    validAbove n (h.alloc f).1 := by
  intro b hb1 hb2
  rw [alloc_fst_fresh] at hb2
  simp only [alloc_fst_fresh, alloc_fst_mem]
  by_cases hbf : b = h.fresh
  · simp only [if_pos hbf]
    exact ⟨hn, hp⟩
  · simp only [if_neg hbf]
    have hb2' : b < h.fresh := by omega
    exact ⟨InR_mono (Nat.le_succ _) (hv b hb1 hb2').1,
      InR_mono (Nat.le_succ _) (hv b hb1 hb2').2⟩

theorem spine_none (fuel : Nat) (h : Heap) : spine fuel h none = some [] := by
  cases fuel <;> rfl

theorem copyLoop_none (fuel : Nat) (h : Heap) (tp ha : Option Nat) :
    copyLoop fuel h none tp ha = some (h, ha, tp) := by
  cases fuel <;> rfl

theorem spine_congr : ∀ (fuel : Nat) (h h' : Heap) (s : Option Nat)
    (ids : List Nat), spine fuel h s = some ids →
    (∀ a ∈ ids, h'.mem a = h.mem a) → spine fuel h' s = some ids := by
  intro fuel
  induction fuel with
  | zero =>
    intro h h' s ids hs hagree
    cases s with
    | none => exact hs
    | some c => exact absurd hs (by simp [spine])
  | succ fuel ih =>
    intro h h' s ids hs hagree
    cases s with
    | none => exact hs
    | some c =>
      simp only [spine] at hs ⊢
      obtain ⟨ids0, hids0, hmap⟩ := Option.map_eq_some'.mp hs
      subst hmap
      have hc : h'.mem c = h.mem c := hagree c (by simp)
      rw [hc, ih h h' (h.mem c).next ids0 hids0
        (fun a ha => hagree a (by simp [ha])), Option.map_some']


theorem copyLoop_succ_some (fuel : Nat) (h : Heap) (s : Nat) (tp ha : Option Nat) :
    copyLoop (fuel + 1) h (some s) tp ha =
      (match tp with
       | some p =>
           copyLoop fuel
             (((h.alloc ⟨(h.mem s).vertex, tp, none, (h.mem s).edgeToNext⟩).1).write p
               { ((h.alloc ⟨(h.mem s).vertex, tp, none, (h.mem s).edgeToNext⟩).1).mem p with
                 next := some h.fresh })
             ((h.mem s).next) (some h.fresh) ha
       | none =>
           copyLoop fuel (h.alloc ⟨(h.mem s).vertex, tp, none, (h.mem s).edgeToNext⟩).1
             ((h.mem s).next) (some h.fresh) (some h.fresh)) := rfl


theorem copyLoop_succ_some_none (fuel : Nat) (h : Heap) (s : Nat)
    (ha : Option Nat) :
    copyLoop (fuel + 1) h (some s) none ha =
      copyLoop fuel
        (h.alloc ⟨(h.mem s).vertex, none, none, (h.mem s).edgeToNext⟩).1
        ((h.mem s).next) (some h.fresh) (some h.fresh) := rfl

theorem copyLoop_succ_some_some (fuel : Nat) (h : Heap) (s p : Nat)
    (ha : Option Nat) :
    copyLoop (fuel + 1) h (some s) (some p) ha =
      copyLoop fuel
        (((h.alloc ⟨(h.mem s).vertex, some p, none, (h.mem s).edgeToNext⟩).1).write p
          { ((h.alloc ⟨(h.mem s).vertex, some p, none,
              (h.mem s).edgeToNext⟩).1).mem p with next := some h.fresh })
        ((h.mem s).next) (some h.fresh) ha := rfl

/-- Full specification of the copy loop of `Path::operator=`: it leaves every
already-allocated cell untouched except for appending a next pointer to the
tail-so-far, and the freshly built chain repeats the vertex and `edge_to_next`
sequences of the source chain. -/
theorem copyLoop_spec : ∀ (fuel : Nat) (h : Heap) (src tp ha : Option Nat)
    (h' : Heap) (hd tl : Option Nat) (ids : List Nat),
    copyLoop fuel h src tp ha = some (h', hd, tl) →
    spine fuel h src = some ids →
    (∀ a ∈ ids, a < h.fresh) →
    (∀ t, tp = some t → t < h.fresh ∧ t ∉ ids) →
    (∀ a, a < h.fresh → tp ≠ some a → h'.mem a = h.mem a)
    ∧ (∀ t, tp = some t →
        ((h'.mem t).vertex = (h.mem t).vertex ∧ (h'.mem t).prev = (h.mem t).prev
          ∧ (h'.mem t).edgeToNext = (h.mem t).edgeToNext)
        ∧ (h'.mem t).next =
            (match src with | none => (h.mem t).next | some _ => some h.fresh))
    ∧ h.fresh ≤ h'.fresh
    ∧ hd = (match src, tp with
            | none, _ => ha | some _, none => some h.fresh | some _, some _ => ha)
    ∧ ∃ ids2 : List Nat,
        spine fuel h' (match src with | none => none | some _ => some h.fresh)
          = some ids2
        ∧ ids2.map (fun a => (h'.mem a).vertex)
            = ids.map (fun a => (h.mem a).vertex)
        ∧ ids2.map (fun a => (h'.mem a).edgeToNext)
            = ids.map (fun a => (h.mem a).edgeToNext) := by
  intro fuel
  induction fuel with
  | zero =>
    intro h src tp ha h' hd tl ids hcl hsp hlt htp
    cases src with
    | some s => exact absurd hcl (by simp [copyLoop])
    | none =>
      rw [copyLoop_none] at hcl
      rw [spine_none] at hsp
      simp only [Option.some.injEq, Prod.mk.injEq] at hcl hsp
      obtain ⟨rfl, rfl, rfl⟩ := hcl
      subst hsp
      exact ⟨fun a _ _ => rfl, fun t ht => ⟨⟨rfl, rfl, rfl⟩, rfl⟩, Nat.le_refl _,
        rfl, [], spine_none _ _, rfl, rfl⟩
  | succ fuel ih =>
    intro h src tp ha h' hd tl ids hcl hsp hlt htp
    cases src with
    | none =>
      rw [copyLoop_none] at hcl
      rw [spine_none] at hsp
      simp only [Option.some.injEq, Prod.mk.injEq] at hcl hsp
      obtain ⟨rfl, rfl, rfl⟩ := hcl
      subst hsp
      exact ⟨fun a _ _ => rfl, fun t ht => ⟨⟨rfl, rfl, rfl⟩, rfl⟩, Nat.le_refl _,
        rfl, [], spine_none _ _, rfl, rfl⟩
    | some s =>
      simp only [spine] at hsp
      obtain ⟨ids0, hids0, hmap⟩ := Option.map_eq_some'.mp hsp
      subst hmap
      have hs_lt : s < h.fresh := hlt s (List.mem_cons_self s ids0)
      have hids0_lt : ∀ a ∈ ids0, a < h.fresh := fun a ha => hlt a (by simp [ha])
      cases tp with
      | none =>
        rw [copyLoop_succ_some_none] at hcl
        set A1 : Heap :=
          (h.alloc ⟨(h.mem s).vertex, none, none, (h.mem s).edgeToNext⟩).1
          with hA1
        have hfr1 : A1.fresh = h.fresh + 1 := rfl
        have hmem1 : ∀ b, A1.mem b =
            if b = h.fresh
            then (⟨(h.mem s).vertex, none, none, (h.mem s).edgeToNext⟩ : Fragment)
            else h.mem b := fun b => by rw [hA1, alloc_fst_mem]
        have hagree1 : ∀ a ∈ ids0, A1.mem a = h.mem a := by
          intro a ha
          rw [hmem1, if_neg (by have := hids0_lt a ha; omega)]
        have hsp1 : spine fuel A1 (h.mem s).next = some ids0 :=
          spine_congr fuel h A1 _ ids0 hids0 hagree1
        have hlt1 : ∀ a ∈ ids0, a < A1.fresh := by
          intro a ha
          rw [hfr1]
          have := hids0_lt a ha
          omega
        have htp1 : ∀ t, (some h.fresh : Option Nat) = some t →
            t < A1.fresh ∧ t ∉ ids0 := by
          intro t ht
          injection ht with ht
          subst ht
          rw [hfr1]
          exact ⟨by omega, fun hm => absurd (hids0_lt _ hm) (by omega)⟩
        obtain ⟨F, T, M, HD, ids2', S2, V2, E2⟩ :=
          ih A1 ((h.mem s).next) (some h.fresh) (some h.fresh) h' hd tl ids0
            hcl hsp1 hlt1 htp1
        have Tc := T h.fresh rfl
        refine ⟨?_, ?_, ?_, ?_, ?_⟩
        · intro a halt _
          have hfa : h'.mem a = A1.mem a :=
            F a (by rw [hfr1]; omega)
              (by intro hc; injection hc with hc; omega)
          rw [hfa, hmem1, if_neg (by omega)]
        · intro t ht
          exact Option.noConfusion ht
        · rw [hfr1] at M
          omega
        · cases hnx : (h.mem s).next with
          | none => rw [hnx] at HD; exact HD
          | some s2 => rw [hnx] at HD; exact HD
        · cases hnx : (h.mem s).next with
          | none =>
            rw [hnx, spine_none] at hids0
            have hids0e : ids0 = [] := by
              simpa using hids0.symm
            subst hids0e
            refine ⟨[h.fresh], ?_, ?_, ?_⟩
            · show (spine fuel h' ((h'.mem h.fresh).next)).map
                (h.fresh :: ·) = some [h.fresh]
              rw [Tc.2, hnx, hmem1, if_pos rfl]
              rw [spine_none, Option.map_some']
            · simp only [List.map_cons, List.map_nil]
              rw [Tc.1.1, hmem1, if_pos rfl]
            · simp only [List.map_cons, List.map_nil]
              rw [Tc.1.2.2, hmem1, if_pos rfl]
          | some s2 =>
            rw [hnx] at S2
            refine ⟨h.fresh :: ids2', ?_, ?_, ?_⟩
            · show (spine fuel h' ((h'.mem h.fresh).next)).map
                (h.fresh :: ·) = some (h.fresh :: ids2')
              rw [Tc.2, hnx, S2, Option.map_some']
            · simp only [List.map_cons]
              rw [Tc.1.1, hmem1, if_pos rfl, V2]
              have : ids0.map (fun a => (A1.mem a).vertex)
                  = ids0.map (fun a => (h.mem a).vertex) :=
                List.map_congr_left (fun a ha => by rw [hagree1 a ha])
              rw [this]
            · simp only [List.map_cons]
              rw [Tc.1.2.2, hmem1, if_pos rfl, E2]
              have : ids0.map (fun a => (A1.mem a).edgeToNext)
                  = ids0.map (fun a => (h.mem a).edgeToNext) :=
                List.map_congr_left (fun a ha => by rw [hagree1 a ha])
              rw [this]
      | some p =>
        obtain ⟨hp_lt, hp_nin⟩ := htp p rfl
        have hp_ne_s : p ≠ s := by
          intro hps
          exact hp_nin (by simp [hps])
        have hp_nin0 : p ∉ ids0 := fun hm => hp_nin (by simp [hm])
        rw [copyLoop_succ_some_some] at hcl
        set A1 : Heap :=
          (h.alloc ⟨(h.mem s).vertex, some p, none, (h.mem s).edgeToNext⟩).1
          with hA1
        set H2 : Heap := A1.write p { A1.mem p with next := some h.fresh }
          with hH2
        have hfr1 : A1.fresh = h.fresh + 1 := rfl
        have hfr2 : H2.fresh = h.fresh + 1 := rfl
        have hmem1 : ∀ b, A1.mem b =
            if b = h.fresh
            then (⟨(h.mem s).vertex, some p, none, (h.mem s).edgeToNext⟩ : Fragment)
            else h.mem b := fun b => by rw [hA1, alloc_fst_mem]
        have hmem2 : ∀ b, b ≠ p → b ≠ h.fresh → H2.mem b = h.mem b := by
          intro b hbp hbf
          rw [hH2, write_mem, if_neg hbp, hmem1, if_neg hbf]
        have hmem2p : H2.mem p = { h.mem p with next := some h.fresh } := by
          rw [hH2, write_mem, if_pos rfl, hmem1, if_neg (by omega)]
        have hmem2f : H2.mem h.fresh =
            (⟨(h.mem s).vertex, some p, none, (h.mem s).edgeToNext⟩ : Fragment) := by
          rw [hH2, write_mem, if_neg (by omega), hmem1, if_pos rfl]
        have hagree1 : ∀ a ∈ ids0, H2.mem a = h.mem a := by
          intro a ha
          have halt := hids0_lt a ha
          exact hmem2 a (fun hpe => hp_nin0 (hpe ▸ ha)) (by omega)
        have hsp1 : spine fuel H2 (h.mem s).next = some ids0 :=
          spine_congr fuel h H2 _ ids0 hids0 hagree1
        have hlt1 : ∀ a ∈ ids0, a < H2.fresh := by
          intro a ha
          rw [hfr2]
          have := hids0_lt a ha
          omega
        have htp1 : ∀ t, (some h.fresh : Option Nat) = some t →
            t < H2.fresh ∧ t ∉ ids0 := by
          intro t ht
          injection ht with ht
          subst ht
          rw [hfr2]
          exact ⟨by omega, fun hm => absurd (hids0_lt _ hm) (by omega)⟩
        obtain ⟨F, T, M, HD, ids2', S2, V2, E2⟩ :=
          ih H2 ((h.mem s).next) (some h.fresh) ha h' hd tl ids0
            hcl hsp1 hlt1 htp1
        have Tc := T h.fresh rfl
        refine ⟨?_, ?_, ?_, ?_, ?_⟩
        · intro a halt hne
          have hap : a ≠ p := fun hap => hne (by rw [hap])
          have hfa : h'.mem a = H2.mem a :=
            F a (by rw [hfr2]; omega)
              (by intro hc; injection hc with hc; omega)
          rw [hfa, hmem2 a hap (by omega)]
        · intro t ht
          injection ht with ht
          subst ht
          have hfp : h'.mem p = H2.mem p :=
            F p (by rw [hfr2]; omega)
              (by intro hc; injection hc with hc; omega)
          rw [hfp, hmem2p]
          exact ⟨⟨rfl, rfl, rfl⟩, rfl⟩
        · rw [hfr2] at M
          omega
        · cases hnx : (h.mem s).next with
          | none => rw [hnx] at HD; exact HD
          | some s2 => rw [hnx] at HD; exact HD
        · cases hnx : (h.mem s).next with
          | none =>
            rw [hnx, spine_none] at hids0
            have hids0e : ids0 = [] := by
              simpa using hids0.symm
            subst hids0e
            refine ⟨[h.fresh], ?_, ?_, ?_⟩
            · show (spine fuel h' ((h'.mem h.fresh).next)).map
                (h.fresh :: ·) = some [h.fresh]
              rw [Tc.2, hnx, hmem2f]
              rw [spine_none, Option.map_some']
            · simp only [List.map_cons, List.map_nil]
              rw [Tc.1.1, hmem2f]
            · simp only [List.map_cons, List.map_nil]
              rw [Tc.1.2.2, hmem2f]
          | some s2 =>
            rw [hnx] at S2
            refine ⟨h.fresh :: ids2', ?_, ?_, ?_⟩
            · show (spine fuel h' ((h'.mem h.fresh).next)).map
                (h.fresh :: ·) = some (h.fresh :: ids2')
              rw [Tc.2, hnx, S2, Option.map_some']
            · simp only [List.map_cons]
              rw [Tc.1.1, hmem2f, V2]
              have : ids0.map (fun a => (H2.mem a).vertex)
                  = ids0.map (fun a => (h.mem a).vertex) :=
                List.map_congr_left (fun a ha => by rw [hagree1 a ha])
              rw [this]
            · simp only [List.map_cons]
              rw [Tc.1.2.2, hmem2f, E2]
              have : ids0.map (fun a => (H2.mem a).edgeToNext)
                  = ids0.map (fun a => (h.mem a).edgeToNext) :=
                List.map_congr_left (fun a ha => by rw [hagree1 a ha])
              rw [this]


theorem InR_some {n f a : Nat} (h1 : n ≤ a) (h2 : a < f) :
    InR n f (some a) := And.intro h1 h2

/-- The copy loop preserves the region invariant and only writes at or
above `n`. -/
theorem copyLoop_good (n : Nat) : ∀ (fuel : Nat) (h : Heap)
    (src tp ha : Option Nat) (h' : Heap) (hd tl : Option Nat),
    copyLoop fuel h src tp ha = some (h', hd, tl) →
    GoodH n h → InR n h.fresh tp → InR n h.fresh ha →
    GoodH n h' ∧ (∀ a, a < n → h'.mem a = h.mem a) ∧ h.fresh ≤ h'.fresh
      ∧ InR n h'.fresh hd ∧ InR n h'.fresh tl := by
  intro fuel
  induction fuel with
  | zero =>
    intro h src tp ha h' hd tl hcl hg htp hha
    cases src with
    | some s => exact absurd hcl (by simp [copyLoop])
    | none =>
      rw [copyLoop_none] at hcl
      simp only [Option.some.injEq, Prod.mk.injEq] at hcl
      obtain ⟨rfl, rfl, rfl⟩ := hcl
      exact ⟨hg, fun a _ => rfl, Nat.le_refl _, hha, htp⟩
  | succ fuel ih =>
    intro h src tp ha h' hd tl hcl hg htp hha
    cases src with
    | none =>
      rw [copyLoop_none] at hcl
      simp only [Option.some.injEq, Prod.mk.injEq] at hcl
      obtain ⟨rfl, rfl, rfl⟩ := hcl
      exact ⟨hg, fun a _ => rfl, Nat.le_refl _, hha, htp⟩
    | some s =>
      cases tp with
      | none =>
        rw [copyLoop_succ_some_none] at hcl
        set A1 : Heap :=
          (h.alloc ⟨(h.mem s).vertex, none, none, (h.mem s).edgeToNext⟩).1
          with hA1
        have hfr1 : A1.fresh = h.fresh + 1 := rfl
        have hg1 : GoodH n A1 := by
          refine ⟨by have h0 := hg.1; rw [hfr1]; omega, ?_⟩
          rw [hA1]
          exact validAbove_alloc hg.2 trivial trivial
        have hInf : InR n A1.fresh (some h.fresh) :=
          InR_some hg.1 (by rw [hfr1]; omega)
        obtain ⟨G, FR, M, IH1, IH2⟩ :=
          ih A1 ((h.mem s).next) (some h.fresh) (some h.fresh) h' hd tl
            hcl hg1 hInf hInf
        refine ⟨G, ?_, ?_, IH1, IH2⟩
        · intro a han
          rw [FR a han, hA1, alloc_fst_mem, if_neg (by have := hg.1; omega)]
        · rw [hfr1] at M
          omega
      | some p =>
        obtain ⟨hpn, hpf⟩ := htp
        rw [copyLoop_succ_some_some] at hcl
        set A1 : Heap :=
          (h.alloc ⟨(h.mem s).vertex, some p, none, (h.mem s).edgeToNext⟩).1
          with hA1
        set H2 : Heap := A1.write p { A1.mem p with next := some h.fresh }
          with hH2
        have hfr1 : A1.fresh = h.fresh + 1 := rfl
        have hfr2 : H2.fresh = h.fresh + 1 := rfl
        have hg1 : GoodH n A1 := by
          refine ⟨by have h0 := hg.1; rw [hfr1]; omega, ?_⟩
          rw [hA1]
          exact validAbove_alloc hg.2 trivial (InR_some hpn (by omega))
        have hmem1p : A1.mem p = h.mem p := by
          rw [hA1, alloc_fst_mem, if_neg (by omega)]
        have hg2 : GoodH n H2 := by
          refine ⟨by have h0 := hg.1; rw [hfr2]; omega, ?_⟩
          rw [hH2]
          refine validAbove_write hg1.2 ?_ ?_
          · exact InR_some hg.1 (by rw [hfr1]; omega)
          · show InR n A1.fresh (A1.mem p).prev
            rw [hmem1p]
            exact InR_mono (by rw [hfr1]; omega)
              (hg.2 p hpn hpf).2
        have hInf : InR n H2.fresh (some h.fresh) :=
          InR_some hg.1 (by rw [hfr2]; omega)
        have hha2 : InR n H2.fresh ha := InR_mono (by rw [hfr2]; omega) hha
        obtain ⟨G, FR, M, IH1, IH2⟩ :=
          ih H2 ((h.mem s).next) (some h.fresh) ha h' hd tl
            hcl hg2 hInf hha2
        refine ⟨G, ?_, ?_, IH1, IH2⟩
        · intro a han
          rw [FR a han, hH2, write_mem, if_neg (by omega), hA1, alloc_fst_mem,
            if_neg (by have := hg.1; omega)]
        · rw [hfr2] at M
          omega

theorem copyPath_good (n : Nat) (h : Heap) (p : HPath) (fuel : Nat)
    (h1 : Heap) (rp : HPath)
    (hres : copyPath h p fuel = some (h1, rp)) (hg : GoodH n h) :
    GoodH n h1 ∧ (∀ a, a < n → h1.mem a = h.mem a) ∧ h.fresh ≤ h1.fresh
      ∧ InR n h1.fresh rp.head ∧ InR n h1.fresh rp.tail := by
  rw [copyPath] at hres
  obtain ⟨r, hr, hpair⟩ := Option.map_eq_some'.mp hres
  obtain ⟨h1', hd, tl⟩ := r
  simp only [Prod.mk.injEq] at hpair
  obtain ⟨rfl, rfl⟩ := hpair
  exact copyLoop_good n fuel h p.head none none h1' hd tl hr hg trivial trivial

/-- The fast-forward walk stays inside the allocated region above `n`. -/
theorem walkToVertex_range (n : Nat) : ∀ (fuel : Nat) (h : Heap)
    (start : Option Nat) (v rc : Nat),
    walkToVertex fuel h start v = some rc → validAbove n h →
    InR n h.fresh start → n ≤ rc ∧ rc < h.fresh := by
  intro fuel
  induction fuel with
  | zero =>
    intro h start v rc hcl _ _
    exact absurd hcl (by simp [walkToVertex])
  | succ fuel ih =>
    intro h start v rc hcl hv hstart
    cases start with
    | none => exact absurd hcl (by simp [walkToVertex])
    | some c =>
      simp only [walkToVertex] at hcl
      split at hcl
      · injection hcl with hcl
        subst hcl
        exact ⟨hstart.1, hstart.2⟩
      · exact ih h ((h.mem c).next) v rc hcl hv
          (hv c hstart.1 hstart.2).1

theorem reverseLoop_none (fuel : Nat) (h : Heap) (pp : Option Nat) :
    reverseLoop (fuel + 1) h none pp = some h := rfl

theorem reverseLoop_some_some (fuel : Nat) (h : Heap) (c p : Nat) :
    reverseLoop (fuel + 1) h (some c) (some p) =
      reverseLoop fuel
        ((h.write c { h.mem c with next := some p }).write p
          { (h.write c { h.mem c with next := some p }).mem p with prev := some c })
        ((h.mem c).next) (some c) := rfl

/-- The reversal loop preserves the region invariant, only writes at or
above `n`, and allocates nothing. -/
theorem reverseLoop_good (n : Nat) : ∀ (fuel : Nat) (h : Heap)
    (rc pp : Option Nat) (h' : Heap),
    reverseLoop fuel h rc pp = some h' → GoodH n h →
    InR n h.fresh rc → InR n h.fresh pp →
    GoodH n h' ∧ (∀ a, a < n → h'.mem a = h.mem a) ∧ h.fresh = h'.fresh := by
  intro fuel
  induction fuel with
  | zero =>
    intro h rc pp h' hcl _ _ _
    exact absurd hcl (by simp [reverseLoop])
  | succ fuel ih =>
    intro h rc pp h' hcl hg hrc hpp
    cases rc with
    | none =>
      rw [reverseLoop_none] at hcl
      injection hcl with hcl
      subst hcl
      exact ⟨hg, fun a _ => rfl, rfl⟩
    | some c =>
      cases pp with
      | none => exact absurd hcl (by simp [reverseLoop])
      | some p =>
        rw [reverseLoop_some_some] at hcl
        set W1 : Heap := h.write c { h.mem c with next := some p } with hW1
        set W2 : Heap := W1.write p { W1.mem p with prev := some c } with hW2
        have hfr1 : W1.fresh = h.fresh := rfl
        have hfr2 : W2.fresh = h.fresh := rfl
        have hg1 : GoodH n W1 := by
          refine ⟨by rw [hfr1]; exact hg.1, ?_⟩
          rw [hW1]
          exact validAbove_write hg.2 hpp (hg.2 c hrc.1 hrc.2).2
        have hg2 : GoodH n W2 := by
          refine ⟨by rw [hfr2]; exact hg.1, ?_⟩
          rw [hW2]
          refine validAbove_write hg1.2 ?_ ?_
          · show InR n W1.fresh (W1.mem p).next
            rw [hW1, write_mem]
            by_cases hpc : p = c
            · simp only [if_pos hpc]
              exact InR_some hpp.1 hpp.2
            · simp only [if_neg hpc]
              exact (hg.2 p hpp.1 hpp.2).1
          · exact InR_some hrc.1 (by rw [hfr1]; exact hrc.2)
        have hnx : InR n W2.fresh ((h.mem c).next) := by
          rw [hfr2]
          exact (hg.2 c hrc.1 hrc.2).1
        have hc2 : InR n W2.fresh (some c) :=
          InR_some hrc.1 (by rw [hfr2]; exact hrc.2)
        obtain ⟨G, FR, M⟩ := ih W2 ((h.mem c).next) (some c) h' hcl hg2 hnx hc2
        refine ⟨G, ?_, ?_⟩
        · intro a han
          rw [FR a han, hW2, write_mem, if_neg (by have := hpp.1; omega),
            hW1, write_mem, if_neg (by have := hrc.1; omega)]
        · rw [← M, hfr2]

/-- The head-rotation body preserves the region invariant and only
writes at or above `n`. -/
theorem rotateHeadBody_good (n : Nat) (h : Heap) (p : HPath) (v : Nat)
    (fuel : Nat) (h' : Heap) (rp : HPath)
    (hres : rotateHeadBody h p v fuel = some (h', rp)) (hg : GoodH n h) :
    GoodH n h' ∧ (∀ a, a < n → h'.mem a = h.mem a) ∧ h.fresh ≤ h'.fresh := by
  simp only [rotateHeadBody, Option.bind_eq_some, Option.some.injEq,
    Prod.mk.injEq] at hres
  obtain ⟨r, hcp, rc, hwk, nh, hnh, h3, hrl, hh3, hrp⟩ := hres
  subst hh3
  obtain ⟨hg1, FR1, M1, Hhd, Htl⟩ := copyPath_good n h p fuel r.1 r.2 hcp hg
  have hrc : n ≤ rc ∧ rc < r.1.fresh :=
    walkToVertex_range n fuel r.1 r.2.head v rc hwk hg1.2 Hhd
  have hnhR : InR n r.1.fresh (some nh) := by
    rw [← hnh]
    exact (hg1.2 rc hrc.1 hrc.2).2
  set W : Heap := (r.1).write nh { (r.1).mem nh with next := none } with hW
  have hfrW : W.fresh = r.1.fresh := rfl
  have hgW : GoodH n W := by
    refine ⟨by rw [hfrW]; exact hg1.1, ?_⟩
    rw [hW]
    exact validAbove_write hg1.2 trivial (hg1.2 nh hnhR.1 hnhR.2).2
  have hhead : InR n W.fresh r.2.head := by
    rw [hfrW]
    exact Hhd
  have hrcW : InR n W.fresh (some rc) :=
    InR_some hrc.1 (by rw [hfrW]; exact hrc.2)
  obtain ⟨G, FR2, M2⟩ :=
    reverseLoop_good n fuel W r.2.head (some rc) h3 hrl hgW hhead hrcW
  refine ⟨G, ?_, ?_⟩
  · intro a han
    rw [FR2 a han, hW, write_mem, if_neg (by have := hnhR.1; omega), FR1 a han]
  · rw [← M2, hfrW]
    exact M1


/-- The tail-rotation body always crashes when entered: the weak
pointer it locks was reset two statements earlier. -/
theorem rotateTailBody_eq_none (h : Heap) (p : HPath) (v : Nat)
    (fuel : Nat) : rotateTailBody h p v fuel = none := by
  rw [rotateTailBody]
  cases hcp : copyPath h p fuel with
  | none => rfl
  | some r =>
    rw [Option.some_bind]
    cases hwk : walkToVertex fuel r.1 r.2.head v with
    | none => rfl
    | some rc =>
      rw [Option.some_bind]
      cases hn1 : ((r.1).mem rc).next with
      | none => rfl
      | some n1 =>
        rw [Option.some_bind]
        simp [write_mem]

theorem rotateHeadLoop_zero (nb : Nat → Nat → Bool) (h : Heap) (p : HPath)
    (oh : Nat) (curr : Option Nat) (acc : List HPath) :
    rotateHeadLoop 0 nb h p oh curr acc = none := rfl

theorem rotateHeadLoop_none (fuel : Nat) (nb : Nat → Nat → Bool) (h : Heap)
    (p : HPath) (oh : Nat) (acc : List HPath) :
    rotateHeadLoop (fuel + 1) nb h p oh none acc = some (h, acc) := rfl

theorem rotateHeadLoop_some (fuel : Nat) (nb : Nat → Nat → Bool) (h : Heap)
    (p : HPath) (oh c : Nat) (acc : List HPath) :
    rotateHeadLoop (fuel + 1) nb h p oh (some c) acc =
      if nb ((h.mem oh).vertex) ((h.mem c).vertex) then
        Option.bind (rotateHeadBody h p ((h.mem c).vertex) fuel) (fun r =>
          rotateHeadLoop fuel nb r.1 p oh ((r.1.mem c).next) (acc ++ [r.2]))
      else rotateHeadLoop fuel nb h p oh ((h.mem c).next) acc := rfl

/-- The head-rotation loop preserves the region invariant and only
writes at or above `n`. -/
theorem rotateHeadLoop_good (n : Nat) : ∀ (fuel : Nat)
    (nb : Nat → Nat → Bool) (h : Heap) (p : HPath) (oh : Nat)
    (curr : Option Nat) (acc : List HPath) (h' : Heap) (res : List HPath),
    rotateHeadLoop fuel nb h p oh curr acc = some (h', res) → GoodH n h →
    GoodH n h' ∧ (∀ a, a < n → h'.mem a = h.mem a) ∧ h.fresh ≤ h'.fresh := by
  intro fuel
  induction fuel with
  | zero =>
    intro nb h p oh curr acc h' res hres _
    exact absurd hres (by simp [rotateHeadLoop_zero])
  | succ fuel ih =>
    intro nb h p oh curr acc h' res hres hg
    cases curr with
    | none =>
      rw [rotateHeadLoop_none] at hres
      simp only [Option.some.injEq, Prod.mk.injEq] at hres
      obtain ⟨rfl, rfl⟩ := hres
      exact ⟨hg, fun a _ => rfl, Nat.le_refl _⟩
    | some c =>
      rw [rotateHeadLoop_some] at hres
      by_cases hnb : nb ((h.mem oh).vertex) ((h.mem c).vertex)
      · rw [if_pos hnb] at hres
        rw [Option.bind_eq_some] at hres
        obtain ⟨r, hb, hres⟩ := hres
        obtain ⟨hgB, FRB, MB⟩ :=
          rotateHeadBody_good n h p ((h.mem c).vertex) fuel r.1 r.2 hb hg
        obtain ⟨G, FR, M⟩ :=
          ih nb r.1 p oh ((r.1.mem c).next) (acc ++ [r.2]) h' res hres hgB
        exact ⟨G, fun a ha => by rw [FR a ha, FRB a ha], Nat.le_trans MB M⟩
      · rw [if_neg hnb] at hres
        exact ih nb h p oh ((h.mem c).next) acc h' res hres hg

theorem rotateTailLoop_zero (nb : Nat → Nat → Bool) (h : Heap) (p : HPath)
    (curr : Option Nat) (acc : List HPath) :
    rotateTailLoop 0 nb h p curr acc = none := rfl

theorem rotateTailLoop_some (fuel : Nat) (nb : Nat → Nat → Bool) (h : Heap)
    (p : HPath) (c : Nat) (acc : List HPath) :
    rotateTailLoop (fuel + 1) nb h p (some c) acc =
      (match (h.mem c).next with
       | none => none
       | some n1 =>
         match (h.mem n1).next with
         | none => some (h, acc)
         | some _ =>
           match p.tail with
           | none => none
           | some t =>
             if nb ((h.mem t).vertex) ((h.mem c).vertex) then
               Option.bind (rotateTailBody h p ((h.mem c).vertex) fuel) (fun r =>
                 rotateTailLoop fuel nb r.1 p ((r.1.mem c).next) (acc ++ [r.2]))
             else rotateTailLoop fuel nb h p (some n1) acc) := rfl

/-- The tail-rotation loop either crashes or returns with the heap and the
accumulator unchanged (every entered body crashes). -/
theorem rotateTailLoop_id : ∀ (fuel : Nat) (nb : Nat → Nat → Bool)
    (h : Heap) (p : HPath) (curr : Option Nat) (acc : List HPath)
    (h' : Heap) (res : List HPath),
    rotateTailLoop fuel nb h p curr acc = some (h', res) →
    h' = h ∧ res = acc := by
  intro fuel
  induction fuel with
  | zero =>
    intro nb h p curr acc h' res hres
    exact absurd hres (by simp [rotateTailLoop_zero])
  | succ fuel ih =>
    intro nb h p curr acc h' res hres
    cases curr with
    | none => exact absurd hres (by simp [rotateTailLoop])
    | some c =>
      rw [rotateTailLoop_some] at hres
      cases hn1 : (h.mem c).next with
      | none =>
        simp only [hn1] at hres
        exact absurd hres (by simp)
      | some n1 =>
        simp only [hn1] at hres
        cases hn2 : (h.mem n1).next with
        | none =>
          simp only [hn2, Option.some.injEq, Prod.mk.injEq] at hres
          exact ⟨hres.1.symm, hres.2.symm⟩
        | some n2 =>
          simp only [hn2] at hres
          cases ht : p.tail with
          | none =>
            simp only [ht] at hres
            exact absurd hres (by simp)
          | some t =>
            simp only [ht] at hres
            by_cases hnb : nb ((h.mem t).vertex) ((h.mem c).vertex)
            · rw [if_pos hnb, rotateTailBody_eq_none, Option.none_bind] at hres
              exact absurd hres (by simp)
            · rw [if_neg hnb] at hres
              exact ih nb h p (some n1) acc h' res hres

/-- `Rotate_` never touches a fragment that was allocated before the
call: the whole input heap below the entry allocation mark is intact
on return. -/
theorem rotatePaths_frame (nb : Nat → Nat → Bool) (h : Heap) (p : HPath)
    (fuel : Nat) (h' : Heap) (rps : List HPath)
    (hres : rotatePaths nb h p fuel = some (h', rps)) :
    ∀ a, a < h.fresh → h'.mem a = h.mem a := by
  rw [rotatePaths] at hres
  by_cases hht : p.head = p.tail
  · rw [if_pos hht] at hres
    simp only [Option.some.injEq, Prod.mk.injEq] at hres
    obtain ⟨rfl, rfl⟩ := hres
    exact fun a _ => rfl
  · rw [if_neg hht] at hres
    cases hhd : p.head with
    | none =>
      simp only [hhd] at hres
      exact absurd hres (by simp)
    | some hd =>
      simp only [hhd] at hres
      by_cases hnt : (h.mem hd).next = p.tail
      · rw [if_pos hnt] at hres
        simp only [Option.some.injEq, Prod.mk.injEq] at hres
        obtain ⟨rfl, rfl⟩ := hres
        exact fun a _ => rfl
      · rw [if_neg hnt] at hres
        cases hn2 : (h.mem hd).next with
        | none =>
          simp only [hn2] at hres
          exact absurd hres (by simp)
        | some n2 =>
          simp only [hn2] at hres
          cases hhl : rotateHeadLoop fuel nb h p hd ((h.mem n2).next) [] with
          | none =>
            simp only [hhl] at hres
            exact absurd hres (by simp)
          | some r =>
            simp only [hhl] at hres
            obtain ⟨he, -⟩ :=
              rotateTailLoop_id fuel nb r.1 p (some hd) r.2 h' rps hres
            subst he
            have hgood : GoodH h.fresh h :=
              ⟨Nat.le_refl _, fun a ha hb => absurd hb (by omega)⟩
            obtain ⟨-, FR, -⟩ :=
              rotateHeadLoop_good h.fresh fuel nb h p hd ((h.mem n2).next) []
                r.1 r.2 hhl hgood
            exact fun a ha => FR a ha


/-- `Path::operator=` is a deep copy: the source heap region is untouched
and the fresh chain repeats the source's vertex and `edge_to_next`
sequences. -/
theorem copyPath_deep (h : Heap) (p : HPath) (fuel : Nat) (h1 : Heap)
    (p1 : HPath) (ids : List Nat)
    (hres : copyPath h p fuel = some (h1, p1))
    (hsp : spine fuel h p.head = some ids)
    (hlt : ∀ a ∈ ids, a < h.fresh) :
    (∀ a, a < h.fresh → h1.mem a = h.mem a) ∧
      ∃ ids2, spine fuel h1 p1.head = some ids2 ∧
        ids2.map (fun a => (h1.mem a).vertex)
          = ids.map (fun a => (h.mem a).vertex) ∧
        ids2.map (fun a => (h1.mem a).edgeToNext)
          = ids.map (fun a => (h.mem a).edgeToNext) := by
  rw [copyPath] at hres
  obtain ⟨r, hr, hpair⟩ := Option.map_eq_some'.mp hres
  obtain ⟨h1', hd, tl⟩ := r
  simp only [Prod.mk.injEq] at hpair
  obtain ⟨rfl, rfl⟩ := hpair
  obtain ⟨F, T, M, HD, ids2, S2, V2, E2⟩ :=
    copyLoop_spec fuel h p.head none none h1' hd tl ids hr hsp hlt
      (fun t ht => Option.noConfusion ht)
  refine ⟨fun a ha => F a ha (fun hc => Option.noConfusion hc), ids2, ?_, V2, E2⟩
  show spine fuel h1' hd = some ids2
  cases hph : p.head with
  | none =>
    have hd_eq : hd = none := by rw [hph] at HD; exact HD
    rw [hd_eq]
    rw [hph] at S2
    exact S2
  | some s =>
    have hd_eq : hd = some h.fresh := by rw [hph] at HD; exact HD
    rw [hd_eq]
    rw [hph] at S2
    exact S2

/-- **C9**: `Rotate_` never mutates its input path.  First part: after any
returning call of `Rotate_`, every heap cell allocated before the call is
unchanged; in particular the input path's fragment chain, with its vertices,
links and `edge_to_next` values, is exactly as before.  Second part: the
deep copy performed by `Path::operator=` (on which every rotated path is
built) duplicates the chain while preserving the sequence of vertices and
`edge_to_next` values, without touching previously allocated cells. -/
theorem rotate_never_mutates_input :
    (∀ (nb : Nat → Nat → Bool) (h : Heap) (p : HPath) (fuel : Nat)
       (h' : Heap) (rps : List HPath),
       rotatePaths nb h p fuel = some (h', rps) →
       (∀ a, a < h.fresh → h'.mem a = h.mem a) ∧
       (∀ f2 ids, spine f2 h p.head = some ids → (∀ a ∈ ids, a < h.fresh) →
          spine f2 h' p.head = some ids ∧ ids.map h'.mem = ids.map h.mem))
    ∧ (∀ (h : Heap) (p : HPath) (fuel : Nat) (h1 : Heap) (p1 : HPath)
        (ids : List Nat),
        copyPath h p fuel = some (h1, p1) →
        spine fuel h p.head = some ids → (∀ a ∈ ids, a < h.fresh) →
        (∀ a, a < h.fresh → h1.mem a = h.mem a) ∧
        ∃ ids2, spine fuel h1 p1.head = some ids2 ∧
          ids2.map (fun a => (h1.mem a).vertex)
            = ids.map (fun a => (h.mem a).vertex) ∧
          ids2.map (fun a => (h1.mem a).edgeToNext)
            = ids.map (fun a => (h.mem a).edgeToNext)) := by
  constructor
  · intro nb h p fuel h' rps hres
    have FR := rotatePaths_frame nb h p fuel h' rps hres
    refine ⟨FR, fun f2 ids hsp hlt => ?_⟩
    exact ⟨spine_congr f2 h h' p.head ids hsp (fun a ha => FR a (hlt a ha)),
      List.map_congr_left (fun a ha => FR a (hlt a ha))⟩
  · intro h p fuel h1 p1 ids hres hsp hlt
    exact copyPath_deep h p fuel h1 p1 ids hres hsp hlt

/-- A concrete four-fragment path `1 → 2 → 3 → 4` together with a
neighbour test that triggers exactly one head rotation. -/
def rotNbW : Nat → Nat → Bool := fun x y => decide (x + 2 = y)

def rotMemW : Nat → Fragment := fun a =>
  match a with
  | 0 => ⟨1, none, some 1, (none, none)⟩
  | 1 => ⟨2, some 0, some 2, (some 7, none)⟩
  | 2 => ⟨3, some 1, some 3, (none, some 9)⟩
  | _ => ⟨4, some 2, none, (none, none)⟩

def rotHW : Heap := ⟨rotMemW, 4⟩

def rotPW : HPath := ⟨some 0, some 3⟩

def rotHW' : Heap := ((rotatePaths rotNbW rotHW rotPW 10).getD (rotHW, [])).1

def rotRpsW : List HPath := ((rotatePaths rotNbW rotHW rotPW 10).getD (rotHW, [])).2

def cpHW : Heap := ((copyPath rotHW rotPW 10).getD (rotHW, rotPW)).1

def cpPW : HPath := ((copyPath rotHW rotPW 10).getD (rotHW, rotPW)).2

theorem rotate_never_mutates_input_witness :
    rotHW'.mem 2 = rotHW.mem 2 ∧
    spine 5 rotHW' rotPW.head = some [0, 1, 2, 3] ∧
    (∃ ids2, spine 10 cpHW cpPW.head = some ids2 ∧
      ids2.map (fun a => (cpHW.mem a).vertex)
        = [0, 1, 2, 3].map (fun a => (rotHW.mem a).vertex) ∧
      ids2.map (fun a => (cpHW.mem a).edgeToNext)
        = [0, 1, 2, 3].map (fun a => (rotHW.mem a).edgeToNext)) := by
  have h1 := rotate_never_mutates_input.1 rotNbW rotHW rotPW 10 rotHW'
    rotRpsW rfl
  have h2 := rotate_never_mutates_input.2 rotHW rotPW 10 cpHW cpPW
    [0, 1, 2, 3] rfl rfl (by decide)
  exact ⟨h1.1 2 (by decide), (h1.2 5 [0, 1, 2, 3] rfl (by decide)).1, h2.2⟩

end EulerPath

namespace Routing

/-! ## Channel router (src/routing/src/router.cc, util.cc, instance.h)

Net ids are `Nat` (`0` = `kEmptySlot`); intervals are pairs of column
indices; `vector<bool> routed_nets_` is a function `Nat → Bool`;
`watermark : int` starting at `-1` is an `Option Nat`; the only loop
without a structural bound — the `while` of `RouteInTracks_` — is
fuelled, `none` meaning it never terminates. -/

abbrev NetId := Nat
abbrev Interval := Nat × Nat

/-- `routing::IsContainedBy` (util.cc): `b` properly inside `a`,
strict on both ends. -/
def IsContainedBy (b a : Interval) : Bool :=
  decide (a.1 < b.1) && decide (b.2 < a.2)

/-- `routing::IsAdjacent` (util.cc). -/
def IsAdjacent (a b : Interval) : Bool :=
  decide (a.1 = b.2) || decide (a.2 = b.1)

/-- `routing::Union` (util.cc). -/
def unionIv (a b : Interval) : Interval := (min a.1 b.1, max a.2 b.2)

structure Instance where
  top_boundaries : List (List Interval)
  bottom_boundaries : List (List Interval)
  top_net_ids : List NetId
  bottom_net_ids : List NetId

/-- `number_of_nets_`: the largest net id on either row (ids are
positive and consecutive, so the largest id is the number of nets). -/
def numberOfNets (inst : Instance) : Nat :=
  max (inst.top_net_ids.foldl max 0) (inst.bottom_net_ids.foldl max 0)

/-- `number_of_pins_`. -/
def numberOfPins (inst : Instance) : Nat := inst.top_net_ids.length

/-- `ConstructHorizontalConstraintGraph_`, accumulation phase:
per-net smallest and largest column index, starting from
`{number_of_pins_ - 1, 0}`. -/
def hcgStep (inst : Instance) (v : Nat → Interval) (i : Nat) :
    Nat → Interval :=
  let t := inst.top_net_ids.getD i 0
  let v1 := Function.update v t (min (v t).1 i, max (v t).2 i)
  let b := inst.bottom_net_ids.getD i 0
  Function.update v1 b (min (v1 b).1 i, max (v1 b).2 i)

def intervalOfNets (inst : Instance) : Nat → Interval :=
  (List.range (numberOfPins inst)).foldl (hcgStep inst)
    (fun _ => (numberOfPins inst - 1, 0))

def insertByStart (e : Interval × NetId) :
    List (Interval × NetId) → List (Interval × NetId)
  | [] => [e]
  | x :: xs => if e.1.1 < x.1.1 then e :: x :: xs else x :: insertByStart e xs

/-- `horizontal_constraint_graph_`: one entry per net id `1..N`,
sorted by interval start (`std::sort` is an unstable sort; it is
modelled by an insertion sort producing one sorted permutation). -/
def horizontalConstraintGraph (inst : Instance) : List (Interval × NetId) :=
  ((List.range (numberOfNets inst)).map
    (fun k => (intervalOfNets inst (k + 1), k + 1))).foldr insertByStart []

/-- The linear-scan duplicate check of
`ConstructVerticalConstraintGraph_`. -/
def addIfAbsent (l : List NetId) (x : NetId) : List NetId :=
  if x ∈ l then l else l ++ [x]

/-- `ConstructVerticalConstraintGraph_`: the first component maps a net
to its parents (`vertical_constraint_graph_`), the second to its
children (`inverted_vertical_constraint_graph_`). -/
def vcgStep (inst : Instance)
    (g : (Nat → List NetId) × (Nat → List NetId)) (i : Nat) :
    (Nat → List NetId) × (Nat → List NetId) :=
  let t := inst.top_net_ids.getD i 0
  let b := inst.bottom_net_ids.getD i 0
  if t = 0 ∨ b = 0 then g
  else if t ≠ b then
    (Function.update g.1 b (addIfAbsent (g.1 b) t),
     Function.update g.2 t (addIfAbsent (g.2 t) b))
  else g

def verticalConstraintGraphs (inst : Instance) :
    (Nat → List NetId) × (Nat → List NetId) :=
  (List.range (numberOfPins inst)).foldl (vcgStep inst)
    (fun _ => [], fun _ => [])

/-- The state of one track sweep: the routed flags, the routed-net
counter, the watermark (`none` is the initial `-1`) and the entries
emitted into the current track. -/
structure SweepSt where
  routed : Nat → Bool
  count : Nat
  wm : Option Nat
  track : List (Interval × NetId)

/-- `watermark == -1 || interval.first > watermark`. -/
def wmOk (wm : Option Nat) (first : Nat) : Bool :=
  match wm with
  | none => true
  | some w => decide (w < first)

/-- Routing one net: set its flag, bump the counter, raise the
watermark to the end of its interval and append it to the track. -/
def place (st : SweepSt) (e : Interval × NetId) : SweepSt :=
  { routed := Function.update st.routed e.2 true, count := st.count + 1,
    wm := some e.1.2, track := st.track ++ [e] }

/-- The watermark / all-parents-routed check shared by
`RouteInBoundaries_` and `RouteInTracks_`. -/
def attempt (vcg : Nat → List NetId) (st : SweepSt)
    (e : Interval × NetId) : SweepSt :=
  if wmOk st.wm e.1.1 then
    if (vcg e.2).all st.routed then place st e else st
  else st

/-- One net of the channel sweep (`RouteInTracks_` inner loop). -/
def channelStep (vcg : Nat → List NetId) (st : SweepSt)
    (e : Interval × NetId) : SweepSt :=
  if st.routed e.2 then st else attempt vcg st e

def sweepChannelTrack (vcg : Nat → List NetId)
    (hcg : List (Interval × NetId)) (routed : Nat → Bool) (count : Nat) :
    SweepSt :=
  hcg.foldl (channelStep vcg) ⟨routed, count, none, []⟩

/-- `RouteInTracks_`: keep opening tracks while not every net is
routed. -/
def routeInTracks (vcg : Nat → List NetId) (hcg : List (Interval × NetId))
    (N : Nat) : Nat → (Nat → Bool) → Nat → List (List (Interval × NetId)) →
    Option (List (List (Interval × NetId)) × (Nat → Bool) × Nat)
  | 0, routed, count, tracks =>
    if count < N then none else some (tracks, routed, count)
  | fuel + 1, routed, count, tracks =>
    if count < N then
      let st := sweepChannelTrack vcg hcg routed count
      routeInTracks vcg hcg N fuel st.routed st.count (tracks ++ [st.track])
    else some (tracks, routed, count)

/-- One net of a boundary sweep (`RouteInBoundaries_` inner loops):
try every rectilinear boundary piece in order. -/
def boundaryNetStep (vcg : Nat → List NetId) (bs : List Interval)
    (st : SweepSt) (e : Interval × NetId) : SweepSt :=
  if st.routed e.2 then st
  else
    bs.foldl
      (fun st2 boundary =>
        if IsContainedBy e.1 boundary then attempt vcg st2 e else st2)
      st

def sweepBoundaryTrack (vcg : Nat → List NetId) (bs : List Interval)
    (hcg : List (Interval × NetId)) (routed : Nat → Bool) (count : Nat) :
    SweepSt :=
  hcg.foldl (boundaryNetStep vcg bs) ⟨routed, count, none, []⟩

/-- The `while (true)` insertion-merge of one interval into
`rectilinear_boundaries`; `k` is the position of the list iterator and
the fuel is an upper bound on the remaining steps to the end. -/
def insertBoundaryGo : Nat → Interval → List Interval → Nat →
    List Interval × Nat
  | 0, _, L, k => (L, k)
  | fuel + 1, itv, L, k =>
    if k < L.length then
      let cur := L.getD k (0, 0)
      if IsAdjacent itv cur then (L.set k (unionIv itv cur), k)
      else if itv.2 < cur.1 then (L.insertIdx k itv, k + 1)
      else insertBoundaryGo fuel itv L (k + 1)
    else (L ++ [itv], 0)

/-- Merging the boundary pieces of one distance into the accumulated
rectilinear boundaries (the iterator persists across the pieces of one
distance). -/
def mergeBoundaries (L : List Interval) (news : List Interval) :
    List Interval :=
  (news.foldl
    (fun p itv => insertBoundaryGo (p.1.length + 1 - p.2) itv p.1 p.2)
    (L, 0)).1

/-- The distance loop of `RouteInBoundaries_`: `dist` counts down to
`1`; the track at index `dist - 1` is routed against the boundary
pieces of distance `≥ dist` merged so far.  Returns the tracks in
index order together with the final flags and counter. -/
def routeInBoundariesGo (vcg : Nat → List NetId)
    (boundaries : List (List Interval)) (hcg : List (Interval × NetId)) :
    Nat → List Interval → (Nat → Bool) → Nat →
    List (List (Interval × NetId)) × (Nat → Bool) × Nat
  | 0, _, routed, count => ([], routed, count)
  | dist + 1, rect, routed, count =>
    let rect2 := mergeBoundaries rect (boundaries.getD (dist + 1) [])
    let st := sweepBoundaryTrack vcg rect2 hcg routed count
    let rest :=
      routeInBoundariesGo vcg boundaries hcg dist rect2 st.routed st.count
    (rest.1 ++ [st.track], rest.2.1, rest.2.2)

/-- `RouteInBoundaries_` (the vertical-constraint graph to use — plain
for the top, inverted for the bottom — is a parameter). -/
def routeInBoundaries (vcg : Nat → List NetId)
    (boundaries : List (List Interval)) (hcg : List (Interval × NetId))
    (routed : Nat → Bool) (count : Nat) :
    List (List (Interval × NetId)) × (Nat → Bool) × Nat :=
  routeInBoundariesGo vcg boundaries hcg (boundaries.length - 1) []
    routed count

structure RouteResult where
  top_tracks : List (List (Interval × NetId))
  tracks : List (List (Interval × NetId))
  bottom_tracks : List (List (Interval × NetId))

/-- `Router::Route` (fuelled in the channel phase; `none` means the
channel phase never terminates). -/
def route (inst : Instance) (fuel : Nat) : Option RouteResult :=
  let hcg := horizontalConstraintGraph inst
  let g := verticalConstraintGraphs inst
  let top := routeInBoundaries g.1 inst.top_boundaries hcg (fun _ => false) 0
  let bot := routeInBoundaries g.2 inst.bottom_boundaries hcg top.2.1 top.2.2
  (routeInTracks g.1 hcg (numberOfNets inst) fuel bot.2.1 bot.2.2 []).map
    (fun r => ⟨top.1, r.1, bot.1⟩)

/-- Index of the first track containing net `id`. -/
def findTrackIdx (id : NetId) : List (List (Interval × NetId)) → Option Nat
  | [] => none
  | tr :: rest =>
    if tr.any (fun e => decide (e.2 = id)) then some 0
    else (findTrackIdx id rest).map (· + 1)

/-- Physical height of the track holding net `id` (larger = higher up):
bottom-boundary tracks from the outside in, then the channel tracks
from the last opened up to the first, then the top-boundary tracks from
the inside out. -/
def trackRankOf (res : RouteResult) (id : NetId) : Option Nat :=
  let B := res.bottom_tracks.length
  let C := res.tracks.length
  match findTrackIdx id res.bottom_tracks with
  | some j => some (B - 1 - j)
  | none =>
    match findTrackIdx id res.tracks with
    | some i => some (B + (C - 1 - i))
    | none => (findTrackIdx id res.top_tracks).map (fun j => B + C + j)


/-- A two-net instance whose vertical constraint graph is the cycle
`1 → 2 → 1`: column 0 puts net 1 over net 2, column 1 puts net 2 over
net 1.  There are no boundary tracks. -/
def cycInst : Instance := ⟨[[]], [[]], [1, 2], [2, 1]⟩

/-- **C7.** On the cyclic instance no amount of fuel makes
`RouteInTracks_` (and hence `Route()`) return: every freshly opened
in-channel track makes zero progress, and the code has no
zero-progress detection and surfaces no cycle error — the `while` loop
of `RouteInTracks_` runs forever. -/
theorem route_vcg_cycle_loops_forever : ∀ fuel : Nat,
    route cycInst fuel = none := by
  have key : ∀ (fuel : Nat) (tracks : List (List (Interval × NetId))),
      routeInTracks (verticalConstraintGraphs cycInst).1
        (horizontalConstraintGraph cycInst) (numberOfNets cycInst) fuel
        (fun _ => false) 0 tracks = none := by
    intro fuel
    induction fuel with
    | zero => intro tracks; rfl
    | succ fuel ih => intro tracks; exact ih (tracks ++ [[]])
  intro fuel
  exact Option.map_eq_none'.mpr (key fuel [])


/-! ### Behaviour of one net attempt -/

theorem attempt_cases (vcg : Nat → List NetId) (st : SweepSt)
    (e : Interval × NetId) :
    attempt vcg st e = st ∨
      (wmOk st.wm e.1.1 = true ∧ (vcg e.2).all st.routed = true ∧
        attempt vcg st e = place st e) := by
  rw [attempt]
  by_cases h1 : wmOk st.wm e.1.1 = true
  · rw [if_pos h1]
    by_cases h2 : (vcg e.2).all st.routed = true
    · rw [if_pos h2]
      exact Or.inr ⟨h1, h2, rfl⟩
    · rw [if_neg h2]
      exact Or.inl rfl
  · rw [if_neg h1]
    exact Or.inl rfl

theorem attempt_place_self (vcg : Nat → List NetId) (st : SweepSt)
    (e : Interval × NetId) (wf : e.1.1 ≤ e.1.2) :
    attempt vcg (place st e) e = place st e := by
  rw [attempt]
  have : wmOk (place st e).wm e.1.1 = false := by
    show wmOk (some e.1.2) e.1.1 = false
    simp [wmOk]
    omega
  rw [this]
  simp

theorem boundaryFold_place (vcg : Nat → List NetId) (st : SweepSt)
    (e : Interval × NetId) (wf : e.1.1 ≤ e.1.2) :
    ∀ bs : List Interval,
      bs.foldl
        (fun st2 boundary =>
          if IsContainedBy e.1 boundary then attempt vcg st2 e else st2)
        (place st e) = place st e := by
  intro bs
  induction bs with
  | nil => rfl
  | cons b bs ih =>
    rw [List.foldl_cons]
    by_cases hc : IsContainedBy e.1 b = true
    · rw [if_pos hc, attempt_place_self vcg st e wf]
      exact ih
    · rw [if_neg hc]
      exact ih

/-- The shape of the two per-net step functions: either nothing
happens, or — when the net is unrouted, clears the watermark and has
all its parents routed — the net is placed. -/
def StepCases (vcg : Nat → List NetId)
    (step : SweepSt → Interval × NetId → SweepSt) (st : SweepSt)
    (e : Interval × NetId) : Prop :=
  step st e = st ∨
    (st.routed e.2 = false ∧ wmOk st.wm e.1.1 = true ∧
      (vcg e.2).all st.routed = true ∧ step st e = place st e)

theorem channelStep_cases (vcg : Nat → List NetId) (st : SweepSt)
    (e : Interval × NetId) : StepCases vcg (channelStep vcg) st e := by
  rw [StepCases, channelStep]
  by_cases hr : st.routed e.2 = true
  · rw [if_pos hr]
    exact Or.inl rfl
  · rw [if_neg hr]
    rcases attempt_cases vcg st e with h | ⟨h1, h2, h3⟩
    · exact Or.inl h
    · exact Or.inr ⟨Bool.not_eq_true _ ▸ hr, h1, h2, h3⟩

theorem boundaryNetStep_cases (vcg : Nat → List NetId) (bs : List Interval)
    (st : SweepSt) (e : Interval × NetId) (wf : e.1.1 ≤ e.1.2) :
    StepCases vcg (boundaryNetStep vcg bs) st e := by
  rw [StepCases, boundaryNetStep]
  by_cases hr : st.routed e.2 = true
  · rw [if_pos hr]
    exact Or.inl rfl
  · rw [if_neg hr]
    have hr' : st.routed e.2 = false := Bool.not_eq_true _ ▸ hr
    induction bs with
    | nil => exact Or.inl rfl
    | cons b bs ih =>
      rw [List.foldl_cons]
      by_cases hc : IsContainedBy e.1 b = true
      · rw [if_pos hc]
        rcases attempt_cases vcg st e with h | ⟨h1, h2, h3⟩
        · rw [h]
          exact ih
        · rw [h3, boundaryFold_place vcg st e wf bs]
          exact Or.inr ⟨hr', h1, h2, rfl⟩
      · rw [if_neg hc]
        exact ih


/-! ### The single-sweep invariant -/

/-- Relation between the state of a sweep and the flags/counter `r0`,
`c0` the sweep started from. -/
structure SweepInv (vcg : Nat → List NetId)
    (hcg : List (Interval × NetId)) (r0 : Nat → Bool) (c0 : Nat)
    (st : SweepSt) : Prop where
  mono : ∀ id, r0 id = true → st.routed id = true
  flip : ∀ id, st.routed id = true → r0 id = true ∨ ∃ e ∈ st.track, e.2 = id
  once : ∀ e ∈ st.track, r0 e.2 = false ∧ st.routed e.2 = true
  uniq : (st.track.map (fun e => e.2)).Nodup
  cnt : st.count = c0 + st.track.length
  wmt : ∀ w, st.wm = some w → ∀ e ∈ st.track, e.1.2 ≤ w
  wmn : st.wm = none → st.track = []
  pw : st.track.Pairwise (fun a b => a.1.2 < b.1.1)
  mem : ∀ e ∈ st.track, e ∈ hcg
  par : ∀ e ∈ st.track, ∀ q ∈ vcg e.2,
    r0 q = true ∨ ∃ e2 ∈ st.track, e2.2 = q

theorem sweepInv_init (vcg : Nat → List NetId)
    (hcg : List (Interval × NetId)) (r0 : Nat → Bool) (c0 : Nat) :
    SweepInv vcg hcg r0 c0 ⟨r0, c0, none, []⟩ := by
  refine ⟨fun id h => h, fun id h => Or.inl h, ?_, ?_, rfl, ?_, ?_, ?_, ?_, ?_⟩
  · intro e he
    exact absurd he (List.not_mem_nil e)
  · exact List.nodup_nil
  · intro w hw
    exact absurd hw (by simp)
  · intro _
    rfl
  · exact List.Pairwise.nil
  · intro e he
    exact absurd he (List.not_mem_nil e)
  · intro e he
    exact absurd he (List.not_mem_nil e)

theorem sweepInv_step (vcg : Nat → List NetId)
    (hcg : List (Interval × NetId)) (r0 : Nat → Bool) (c0 : Nat)
    (st : SweepSt) (e : Interval × NetId)
    (step : SweepSt → Interval × NetId → SweepSt)
    (hcases : StepCases vcg step st e)
    (he : e ∈ hcg) (wf : e.1.1 ≤ e.1.2)
    (inv : SweepInv vcg hcg r0 c0 st) :
    SweepInv vcg hcg r0 c0 (step st e) := by
  rcases hcases with heq | ⟨hur, hwm, hpar, heq⟩
  · rw [heq]
    exact inv
  rw [heq]
  have hr0e : r0 e.2 = false := by
    cases hre : r0 e.2 with
    | false => rfl
    | true => exact absurd (inv.mono e.2 hre) (by rw [hur]; simp)
  have htrr : ∀ e2 ∈ st.track, e2.2 ≠ e.2 := by
    intro e2 he2 hne
    have := (inv.once e2 he2).2
    rw [hne, hur] at this
    exact absurd this (by simp)
  have hwlt : ∀ e2 ∈ st.track, e2.1.2 < e.1.1 := by
    intro e2 he2
    cases hwmv : st.wm with
    | none => exact absurd he2 (by rw [inv.wmn hwmv]; exact List.not_mem_nil e2)
    | some w =>
      have h1 := inv.wmt w hwmv e2 he2
      have h2 : w < e.1.1 := by
        rw [hwmv] at hwm
        simpa [wmOk] using hwm
      omega
  refine ⟨?_, ?_, ?_, ?_, ?_, ?_, ?_, ?_, ?_, ?_⟩
  · intro id h
    show Function.update st.routed e.2 true id = true
    rw [Function.update_apply]
    by_cases hide : id = e.2
    · rw [if_pos hide]
    · rw [if_neg hide]
      exact inv.mono id h
  · intro id h
    by_cases hide : id = e.2
    · exact Or.inr ⟨e, by simp [place], hide.symm⟩
    · rw [show (place st e).routed = Function.update st.routed e.2 true from rfl,
        Function.update_apply, if_neg hide] at h
      rcases inv.flip id h with h1 | ⟨e2, he2, he2id⟩
      · exact Or.inl h1
      · exact Or.inr ⟨e2, by simp [place, he2], he2id⟩
  · intro e2 he2
    rw [show (place st e).track = st.track ++ [e] from rfl,
      List.mem_append] at he2
    show r0 e2.2 = false ∧ Function.update st.routed e.2 true e2.2 = true
    rcases he2 with h | h
    · refine ⟨(inv.once e2 h).1, ?_⟩
      rw [Function.update_apply]
      by_cases hide : e2.2 = e.2
      · rw [if_pos hide]
      · rw [if_neg hide]
        exact (inv.once e2 h).2
    · rw [List.mem_singleton] at h
      subst h
      exact ⟨hr0e, by rw [Function.update_apply, if_pos rfl]⟩
  · show ((st.track ++ [e]).map (fun e => e.2)).Nodup
    rw [List.map_append]
    refine List.Nodup.append inv.uniq (by simp) ?_
    intro x hx1 hx2
    simp only [List.mem_map] at hx1
    obtain ⟨e2, he2, he2x⟩ := hx1
    simp only [List.map_cons, List.map_nil, List.mem_singleton] at hx2
    exact htrr e2 he2 (he2x.trans hx2)
  · show st.count + 1 = c0 + (st.track ++ [e]).length
    rw [List.length_append]
    have := inv.cnt
    simp
    omega
  · intro w hw e2 he2
    have hwe : w = e.1.2 := by
      rw [show (place st e).wm = some e.1.2 from rfl] at hw
      injection hw with hw
      exact hw.symm
    subst hwe
    rw [show (place st e).track = st.track ++ [e] from rfl,
      List.mem_append] at he2
    rcases he2 with h | h
    · have := hwlt e2 h
      omega
    · rw [List.mem_singleton] at h
      subst h
      exact Nat.le_refl _
  · intro h
    exact absurd h (by simp [place])
  · show (st.track ++ [e]).Pairwise (fun a b => a.1.2 < b.1.1)
    rw [List.pairwise_append]
    refine ⟨inv.pw, List.pairwise_singleton _ _, ?_⟩
    intro a ha b hb
    rw [List.mem_singleton] at hb
    subst hb
    exact hwlt a ha
  · intro e2 he2
    rw [show (place st e).track = st.track ++ [e] from rfl,
      List.mem_append] at he2
    rcases he2 with h | h
    · exact inv.mem e2 h
    · rw [List.mem_singleton] at h
      subst h
      exact he
  · intro e2 he2 q hq
    rw [show (place st e).track = st.track ++ [e] from rfl,
      List.mem_append] at he2
    rcases he2 with h | h
    · rcases inv.par e2 h q hq with h1 | ⟨e3, he3, he3q⟩
      · exact Or.inl h1
      · exact Or.inr ⟨e3, by simp [place, he3], he3q⟩
    · rw [List.mem_singleton] at h
      subst h
      have hq' : st.routed q = true := by
        rw [List.all_eq_true] at hpar
        exact hpar q hq
      rcases inv.flip q hq' with h1 | ⟨e3, he3, he3q⟩
      · exact Or.inl h1
      · exact Or.inr ⟨e3, by simp [place, he3], he3q⟩

theorem sweepInv_foldl (vcg : Nat → List NetId)
    (hcg : List (Interval × NetId)) (r0 : Nat → Bool) (c0 : Nat)
    (step : SweepSt → Interval × NetId → SweepSt)
    (hstep : ∀ st e, e ∈ hcg → StepCases vcg step st e)
    (hwf : ∀ e ∈ hcg, e.1.1 ≤ e.1.2) :
    ∀ (l : List (Interval × NetId)) (st : SweepSt), (∀ e ∈ l, e ∈ hcg) →
      SweepInv vcg hcg r0 c0 st →
      SweepInv vcg hcg r0 c0 (l.foldl step st) := by
  intro l
  induction l with
  | nil =>
    intro st _ inv
    exact inv
  | cons e l ih =>
    intro st hl inv
    rw [List.foldl_cons]
    have hehcg : e ∈ hcg := hl e (by simp)
    exact ih (step st e) (fun e2 h => hl e2 (by simp [h]))
      (sweepInv_step vcg hcg r0 c0 st e step (hstep st e hehcg) hehcg
        (hwf e hehcg) inv)

theorem sweepChannelTrack_inv (vcg : Nat → List NetId)
    (hcg : List (Interval × NetId)) (r0 : Nat → Bool) (c0 : Nat)
    (hwf : ∀ e ∈ hcg, e.1.1 ≤ e.1.2) :
    SweepInv vcg hcg r0 c0 (sweepChannelTrack vcg hcg r0 c0) :=
  sweepInv_foldl vcg hcg r0 c0 (channelStep vcg)
    (fun st e _ => channelStep_cases vcg st e) hwf hcg ⟨r0, c0, none, []⟩
    (fun _ h => h) (sweepInv_init vcg hcg r0 c0)

theorem sweepBoundaryTrack_inv (vcg : Nat → List NetId) (bs : List Interval)
    (hcg : List (Interval × NetId)) (r0 : Nat → Bool) (c0 : Nat)
    (hwf : ∀ e ∈ hcg, e.1.1 ≤ e.1.2) :
    SweepInv vcg hcg r0 c0 (sweepBoundaryTrack vcg bs hcg r0 c0) := by
  exact sweepInv_foldl vcg hcg r0 c0 (boundaryNetStep vcg bs)
    (fun st e he => boundaryNetStep_cases vcg bs st e (hwf e he)) hwf hcg
    ⟨r0, c0, none, []⟩ (fun _ h => h) (sweepInv_init vcg hcg r0 c0)


/-! ### The boundary-phase output -/

/-- Relation between the output of a boundary phase (tracks in index
order, final flags, final counter) and the flags/counter it started
from.  Track index `j` is routed chronologically after every track of
index `> j`. -/
structure PhaseOut (vcg : Nat → List NetId)
    (hcg : List (Interval × NetId)) (r0 : Nat → Bool) (c0 : Nat)
    (out : List (List (Interval × NetId)) × (Nat → Bool) × Nat) :
    Prop where
  mono : ∀ id, r0 id = true → out.2.1 id = true
  flip : ∀ id, out.2.1 id = true ↔
    (r0 id = true ∨ ∃ tr ∈ out.1, ∃ e ∈ tr, e.2 = id)
  once : ∀ tr ∈ out.1, ∀ e ∈ tr, r0 e.2 = false
  uniq : ((out.1.flatten).map (fun e => e.2)).Nodup
  cnt : out.2.2 = c0 + (out.1.flatten).length
  pw : ∀ tr ∈ out.1, tr.Pairwise (fun a b => a.1.2 < b.1.1)
  mem : ∀ tr ∈ out.1, ∀ e ∈ tr, e ∈ hcg
  par : ∀ j, ∀ e ∈ out.1.getD j [], ∀ q ∈ vcg e.2,
    r0 q = true ∨ ∃ j2, j ≤ j2 ∧ j2 < out.1.length ∧
      ∃ e2 ∈ out.1.getD j2 [], e2.2 = q

theorem routeInBoundariesGo_out (vcg : Nat → List NetId)
    (hcg : List (Interval × NetId)) (bnds : List (List Interval))
    (hwf : ∀ e ∈ hcg, e.1.1 ≤ e.1.2) :
    ∀ (d : Nat) (rect : List Interval) (r0 : Nat → Bool) (c0 : Nat),
      PhaseOut vcg hcg r0 c0
        (routeInBoundariesGo vcg bnds hcg d rect r0 c0) := by
  intro d
  induction d with
  | zero =>
    intro rect r0 c0
    refine ⟨fun id h => h, ?_, ?_, List.nodup_nil, rfl, ?_, ?_, ?_⟩
    · intro id
      constructor
      · exact fun h => Or.inl h
      · intro h
        rcases h with h | ⟨tr, htr, _⟩
        · exact h
        · exact absurd htr (List.not_mem_nil tr)
    · intro tr htr
      exact absurd htr (List.not_mem_nil tr)
    · intro tr htr
      exact absurd htr (List.not_mem_nil tr)
    · intro tr htr
      exact absurd htr (List.not_mem_nil tr)
    · intro j e he
      rw [List.getD_eq_default _ _ (Nat.zero_le j)] at he
      exact absurd he (List.not_mem_nil e)
  | succ d ih =>
    intro rect r0 c0
    have inv := sweepBoundaryTrack_inv vcg
      (mergeBoundaries rect (bnds.getD (d + 1) [])) hcg r0 c0 hwf
    have iho := ih (mergeBoundaries rect (bnds.getD (d + 1) []))
      (sweepBoundaryTrack vcg (mergeBoundaries rect (bnds.getD (d + 1) []))
        hcg r0 c0).routed
      (sweepBoundaryTrack vcg (mergeBoundaries rect (bnds.getD (d + 1) []))
        hcg r0 c0).count
    set st := sweepBoundaryTrack vcg
      (mergeBoundaries rect (bnds.getD (d + 1) [])) hcg r0 c0 with hst
    set rest := routeInBoundariesGo vcg bnds hcg d
      (mergeBoundaries rect (bnds.getD (d + 1) [])) st.routed st.count
      with hrest
    show PhaseOut vcg hcg r0 c0 (rest.1 ++ [st.track], rest.2.1, rest.2.2)
    have hstF : ∀ e ∈ st.track, st.routed e.2 = true :=
      fun e he => (inv.once e he).2
    have hr0F : ∀ e ∈ st.track, r0 e.2 = false :=
      fun e he => (inv.once e he).1
    refine ⟨?_, ?_, ?_, ?_, ?_, ?_, ?_, ?_⟩
    · intro id h
      exact iho.mono id (inv.mono id h)
    · intro id
      constructor
      · intro h
        rcases (iho.flip id).mp h with h1 | ⟨tr, htr, e, he, heid⟩
        · rcases inv.flip id h1 with h2 | ⟨e, he, heid⟩
          · exact Or.inl h2
          · exact Or.inr ⟨st.track, by simp, e, he, heid⟩
        · exact Or.inr ⟨tr, by simp [htr], e, he, heid⟩
      · intro h
        rcases h with h | ⟨tr, htr, e, he, heid⟩
        · exact iho.mono id (inv.mono id h)
        · rw [List.mem_append] at htr
          rcases htr with h1 | h1
          · exact (iho.flip id).mpr (Or.inr ⟨tr, h1, e, he, heid⟩)
          · rw [List.mem_singleton] at h1
            subst h1
            exact iho.mono id (heid ▸ hstF e he)
    · intro tr htr e he
      rw [List.mem_append] at htr
      rcases htr with h1 | h1
      · have h2 := iho.once tr h1 e he
        cases hr : r0 e.2 with
        | false => rfl
        | true => exact absurd (inv.mono e.2 hr) (by rw [h2]; simp)
      · rw [List.mem_singleton] at h1
        subst h1
        exact hr0F e he
    · rw [List.flatten_append, List.map_append]
      have hsing : ([st.track] : List (List (Interval × NetId))).flatten
          = st.track := by simp
      rw [hsing]
      refine List.Nodup.append iho.uniq inv.uniq ?_
      intro x hx1 hx2
      simp only [List.mem_map] at hx1 hx2
      obtain ⟨e1, he1, he1x⟩ := hx1
      obtain ⟨e2, he2, he2x⟩ := hx2
      rw [List.mem_flatten] at he1
      obtain ⟨tr, htr, he1tr⟩ := he1
      have hf : st.routed e1.2 = false := iho.once tr htr e1 he1tr
      have ht : st.routed e2.2 = true := hstF e2 he2
      rw [he1x, ← he2x] at hf
      rw [hf] at ht
      exact Bool.false_ne_true ht
    · show rest.2.2 = c0 + ((rest.1 ++ [st.track]).flatten).length
      rw [List.flatten_append, List.length_append]
      have hsing : ([st.track] : List (List (Interval × NetId))).flatten
          = st.track := by simp
      rw [hsing]
      have h1 := iho.cnt
      have h2 := inv.cnt
      omega
    · intro tr htr
      rw [List.mem_append] at htr
      rcases htr with h1 | h1
      · exact iho.pw tr h1
      · rw [List.mem_singleton] at h1
        subst h1
        exact inv.pw
    · intro tr htr e he
      rw [List.mem_append] at htr
      rcases htr with h1 | h1
      · exact iho.mem tr h1 e he
      · rw [List.mem_singleton] at h1
        subst h1
        exact inv.mem e he
    · intro j e he q hq
      replace he : e ∈ (rest.1 ++ [st.track]).getD j [] := he
      show r0 q = true ∨ ∃ j2, j ≤ j2 ∧ j2 < (rest.1 ++ [st.track]).length ∧
        ∃ e2 ∈ (rest.1 ++ [st.track]).getD j2 [], e2.2 = q
      have hlen1 : (rest.1 ++ [st.track]).length = rest.1.length + 1 := by
        rw [List.length_append]
        rfl
      have hgetLast : (rest.1 ++ [st.track]).getD rest.1.length [] = st.track := by
        rw [List.getD_append_right rest.1 [st.track] [] rest.1.length
          (Nat.le_refl _), Nat.sub_self]
        rfl
      rcases Nat.lt_trichotomy j rest.1.length with hj | hj | hj
      · rw [List.getD_append rest.1 [st.track] [] j hj] at he
        rcases iho.par j e he q hq with h1 | ⟨j2, hj2a, hj2b, e2, he2, he2q⟩
        · rcases inv.flip q h1 with h2 | ⟨e2, he2, he2q⟩
          · exact Or.inl h2
          · exact Or.inr ⟨rest.1.length, Nat.le_of_lt hj,
              by omega, e2, by rw [hgetLast]; exact he2, he2q⟩
        · exact Or.inr ⟨j2, hj2a, by omega, e2,
            by rw [List.getD_append rest.1 [st.track] [] j2 hj2b]; exact he2,
            he2q⟩
      · subst hj
        rw [hgetLast] at he
        rcases inv.par e he q hq with h1 | ⟨e2, he2, he2q⟩
        · exact Or.inl h1
        · exact Or.inr ⟨rest.1.length, Nat.le_refl _, by omega, e2,
            by rw [hgetLast]; exact he2, he2q⟩
      · rw [List.getD_eq_default _ _ (by rw [hlen1]; omega)] at he
        exact absurd he (List.not_mem_nil e)


/-! ### The channel-phase output -/

/-- Like `PhaseOut`, for the channel phase: track index `j` is routed
chronologically before every track of index `> j`. -/
structure ChanOut (vcg : Nat → List NetId)
    (hcg : List (Interval × NetId)) (r0 : Nat → Bool) (c0 : Nat)
    (out : List (List (Interval × NetId)) × (Nat → Bool) × Nat) :
    Prop where
  mono : ∀ id, r0 id = true → out.2.1 id = true
  flip : ∀ id, out.2.1 id = true ↔
    (r0 id = true ∨ ∃ tr ∈ out.1, ∃ e ∈ tr, e.2 = id)
  once : ∀ tr ∈ out.1, ∀ e ∈ tr, r0 e.2 = false
  uniq : ((out.1.flatten).map (fun e => e.2)).Nodup
  cnt : out.2.2 = c0 + (out.1.flatten).length
  pw : ∀ tr ∈ out.1, tr.Pairwise (fun a b => a.1.2 < b.1.1)
  mem : ∀ tr ∈ out.1, ∀ e ∈ tr, e ∈ hcg
  par : ∀ j, ∀ e ∈ out.1.getD j [], ∀ q ∈ vcg e.2,
    r0 q = true ∨ ∃ j2, j2 ≤ j ∧ j2 < out.1.length ∧
      ∃ e2 ∈ out.1.getD j2 [], e2.2 = q

theorem chanOut_nil (vcg : Nat → List NetId)
    (hcg : List (Interval × NetId)) (r0 : Nat → Bool) (c0 : Nat) :
    ChanOut vcg hcg r0 c0 ([], r0, c0) := by
  refine ⟨fun id h => h, ?_, ?_, List.nodup_nil, rfl, ?_, ?_, ?_⟩
  · intro id
    constructor
    · exact fun h => Or.inl h
    · intro h
      rcases h with h | ⟨tr, htr, _⟩
      · exact h
      · exact absurd htr (List.not_mem_nil tr)
  · intro tr htr
    exact absurd htr (List.not_mem_nil tr)
  · intro tr htr
    exact absurd htr (List.not_mem_nil tr)
  · intro tr htr
    exact absurd htr (List.not_mem_nil tr)
  · intro j e he
    rw [List.getD_eq_default _ _ (Nat.zero_le j)] at he
    exact absurd he (List.not_mem_nil e)

theorem routeInTracks_out (vcg : Nat → List NetId)
    (hcg : List (Interval × NetId)) (N : Nat)
    (hwf : ∀ e ∈ hcg, e.1.1 ≤ e.1.2) :
    ∀ (fuel : Nat) (r0 : Nat → Bool) (c0 : Nat)
      (tracks : List (List (Interval × NetId)))
      (out : List (List (Interval × NetId)) × (Nat → Bool) × Nat),
      routeInTracks vcg hcg N fuel r0 c0 tracks = some out →
      ∃ nt, out.1 = tracks ++ nt ∧
        ChanOut vcg hcg r0 c0 (nt, out.2.1, out.2.2) ∧ ¬ out.2.2 < N := by
  intro fuel
  induction fuel with
  | zero =>
    intro r0 c0 tracks out hres
    rw [routeInTracks] at hres
    by_cases h : c0 < N
    · rw [if_pos h] at hres
      exact absurd hres (by simp)
    · rw [if_neg h] at hres
      injection hres with hres
      subst hres
      exact ⟨[], by simp, chanOut_nil vcg hcg r0 c0, h⟩
  | succ fuel ih =>
    intro r0 c0 tracks out hres
    rw [routeInTracks] at hres
    by_cases h : c0 < N
    · rw [if_pos h] at hres
      have inv := sweepChannelTrack_inv vcg hcg r0 c0 hwf
      set st := sweepChannelTrack vcg hcg r0 c0 with hst
      obtain ⟨nt, hnt, iho, hdone⟩ :=
        ih st.routed st.count (tracks ++ [st.track]) out hres
      have hstF : ∀ e ∈ st.track, st.routed e.2 = true :=
        fun e he => (inv.once e he).2
      refine ⟨st.track :: nt, by rw [hnt, List.append_assoc]; rfl, ?_, hdone⟩
      refine ⟨?_, ?_, ?_, ?_, ?_, ?_, ?_, ?_⟩
      · intro id hid
        exact iho.mono id (inv.mono id hid)
      · intro id
        constructor
        · intro hid
          rcases (iho.flip id).mp hid with h1 | ⟨tr, htr, e, he, heid⟩
          · rcases inv.flip id h1 with h2 | ⟨e, he, heid⟩
            · exact Or.inl h2
            · exact Or.inr ⟨st.track, by simp, e, he, heid⟩
          · exact Or.inr ⟨tr, by simp [htr], e, he, heid⟩
        · intro hid
          rcases hid with h1 | ⟨tr, htr, e, he, heid⟩
          · exact iho.mono id (inv.mono id h1)
          · rw [List.mem_cons] at htr
            rcases htr with h1 | h1
            · subst h1
              exact iho.mono id (heid ▸ hstF e he)
            · exact (iho.flip id).mpr (Or.inr ⟨tr, h1, e, he, heid⟩)
      · intro tr htr e he
        rw [List.mem_cons] at htr
        rcases htr with h1 | h1
        · subst h1
          exact (inv.once e he).1
        · have h2 := iho.once tr h1 e he
          cases hr : r0 e.2 with
          | false => rfl
          | true => exact absurd (inv.mono e.2 hr) (by rw [h2]; simp)
      · show (((st.track :: nt).flatten).map (fun e => e.2)).Nodup
        rw [List.flatten_cons, List.map_append]
        refine List.Nodup.append inv.uniq iho.uniq ?_
        intro x hx1 hx2
        simp only [List.mem_map] at hx1 hx2
        obtain ⟨e1, he1, he1x⟩ := hx1
        obtain ⟨e2, he2, he2x⟩ := hx2
        rw [List.mem_flatten] at he2
        obtain ⟨tr, htr, he2tr⟩ := he2
        have hf : st.routed e2.2 = false := iho.once tr htr e2 he2tr
        have ht : st.routed e1.2 = true := hstF e1 he1
        rw [he1x, ← he2x] at ht
        rw [ht] at hf
        exact Bool.noConfusion hf
      · show out.2.2 = c0 + (((st.track :: nt).flatten)).length
        rw [List.flatten_cons, List.length_append]
        have h1 : out.2.2 = st.count + (nt.flatten).length := iho.cnt
        have h2 := inv.cnt
        omega
      · intro tr htr
        rw [List.mem_cons] at htr
        rcases htr with h1 | h1
        · subst h1
          exact inv.pw
        · exact iho.pw tr h1
      · intro tr htr e he
        rw [List.mem_cons] at htr
        rcases htr with h1 | h1
        · subst h1
          exact inv.mem e he
        · exact iho.mem tr h1 e he
      · intro j e he q hq
        replace he : e ∈ (st.track :: nt).getD j [] := he
        show r0 q = true ∨ ∃ j2, j2 ≤ j ∧ j2 < (st.track :: nt).length ∧
          ∃ e2 ∈ (st.track :: nt).getD j2 [], e2.2 = q
        cases j with
        | zero =>
          rw [List.getD_cons_zero] at he
          rcases inv.par e he q hq with h1 | ⟨e2, he2, he2q⟩
          · exact Or.inl h1
          · exact Or.inr ⟨0, Nat.le_refl _, by simp, e2,
              by rw [List.getD_cons_zero]; exact he2, he2q⟩
        | succ j =>
          rw [List.getD_cons_succ] at he
          rcases iho.par j e he q hq with h1 | ⟨j2, hj2a, hj2b, e2, he2, he2q⟩
          · rcases inv.flip q h1 with h2 | ⟨e2, he2, he2q⟩
            · exact Or.inl h2
            · exact Or.inr ⟨0, Nat.zero_le _, by simp, e2,
                by rw [List.getD_cons_zero]; exact he2, he2q⟩
          · replace hj2b : j2 < nt.length := hj2b
            exact Or.inr ⟨j2 + 1, by omega, by simp; omega, e2,
              by rw [List.getD_cons_succ]; exact he2, he2q⟩
    · rw [if_neg h] at hres
      injection hres with hres
      subst hres
      exact ⟨[], by simp, chanOut_nil vcg hcg r0 c0, h⟩


/-! ### Facts about the constructed graphs -/

theorem foldl_pres {α : Type} (f : α → Nat → α) (P : α → Prop)
    (hpres : ∀ a j, P a → P (f a j)) :
    ∀ (l : List Nat) (a : α), P a → P (l.foldl f a) := by
  intro l
  induction l with
  | nil => exact fun a h => h
  | cons x xs ih =>
    intro a h
    rw [List.foldl_cons]
    exact ih _ (hpres a x h)

/-- A property established while processing column `i` and preserved by
every later column holds of the whole fold over `range n`. -/
theorem foldl_establish {α : Type} (f : α → Nat → α) (P : α → Prop)
    (i n : Nat) (hi : i < n)
    (hpres : ∀ a j, P a → P (f a j))
    (hest : ∀ a, P (f a i)) (a0 : α) :
    P ((List.range n).foldl f a0) := by
  have hsplit : n = (i + 1) + (n - (i + 1)) := by omega
  rw [hsplit, List.range_add, List.foldl_append, List.range_succ,
    List.foldl_append, List.foldl_cons, List.foldl_nil]
  exact foldl_pres f P hpres _ _ (hest _)

theorem update_covers (v : Nat → Interval) (t : Nat) (j : Nat) (id i : Nat)
    (h1 : (v id).1 ≤ i) (h2 : i ≤ (v id).2) :
    ((Function.update v t (min (v t).1 j, max (v t).2 j)) id).1 ≤ i ∧
      i ≤ ((Function.update v t (min (v t).1 j, max (v t).2 j)) id).2 := by
  rw [Function.update_apply]
  by_cases hit : id = t
  · subst hit
    rw [if_pos rfl]
    exact ⟨Nat.le_trans (Nat.min_le_left _ _) h1,
      Nat.le_trans h2 (Nat.le_max_left _ _)⟩
  · rw [if_neg hit]
    exact ⟨h1, h2⟩

theorem hcgStep_covers (inst : Instance) (v : Nat → Interval) (j : Nat)
    (id i : Nat) (h1 : (v id).1 ≤ i) (h2 : i ≤ (v id).2) :
    ((hcgStep inst v j) id).1 ≤ i ∧ i ≤ ((hcgStep inst v j) id).2 := by
  have hmid := update_covers v (inst.top_net_ids.getD j 0) j id i h1 h2
  exact update_covers
    (Function.update v (inst.top_net_ids.getD j 0)
      (min (v (inst.top_net_ids.getD j 0)).1 j,
        max (v (inst.top_net_ids.getD j 0)).2 j))
    (inst.bottom_net_ids.getD j 0) j id i hmid.1 hmid.2

theorem hcgStep_establish (inst : Instance) (v : Nat → Interval)
    (i : Nat) (id : Nat)
    (hid : inst.top_net_ids.getD i 0 = id ∨
      inst.bottom_net_ids.getD i 0 = id) :
    ((hcgStep inst v i) id).1 ≤ i ∧ i ≤ ((hcgStep inst v i) id).2 := by
  simp only [hcgStep]
  rcases hid with hid | hid
  · rw [hid]
    refine update_covers _ (inst.bottom_net_ids.getD i 0) i id i ?_ ?_
    · rw [Function.update_same]
      exact Nat.min_le_right _ _
    · rw [Function.update_same]
      exact Nat.le_max_right _ _
  · rw [hid, Function.update_same]
    exact ⟨Nat.min_le_right _ _, Nat.le_max_right _ _⟩

/-- Every column where a net appears lies inside that net's horizontal
constraint interval. -/
theorem intervalOfNets_covers (inst : Instance) (i : Nat)
    (hi : i < numberOfPins inst) (id : Nat)
    (hid : inst.top_net_ids.getD i 0 = id ∨
      inst.bottom_net_ids.getD i 0 = id) :
    (intervalOfNets inst id).1 ≤ i ∧ i ≤ (intervalOfNets inst id).2 :=
  foldl_establish (hcgStep inst)
    (fun v => (v id).1 ≤ i ∧ i ≤ (v id).2) i (numberOfPins inst) hi
    (fun a j h => hcgStep_covers inst a j id i h.1 h.2)
    (fun a => hcgStep_establish inst a i id hid) _

theorem addIfAbsent_self (l : List NetId) (x : NetId) :
    x ∈ addIfAbsent l x := by
  rw [addIfAbsent]
  by_cases h : x ∈ l
  · rw [if_pos h]
    exact h
  · rw [if_neg h]
    simp

theorem addIfAbsent_mono (l : List NetId) (x y : NetId) (h : y ∈ l) :
    y ∈ addIfAbsent l x := by
  rw [addIfAbsent]
  by_cases h2 : x ∈ l
  · rw [if_pos h2]
    exact h
  · rw [if_neg h2]
    simp [h]

theorem vcgStep_pres (inst : Instance)
    (g : (Nat → List NetId) × (Nat → List NetId)) (j : Nat)
    (x k y k2 : Nat) (h1 : x ∈ g.1 k) (h2 : y ∈ g.2 k2) :
    x ∈ (vcgStep inst g j).1 k ∧ y ∈ (vcgStep inst g j).2 k2 := by
  simp only [vcgStep]
  by_cases hz : inst.top_net_ids.getD j 0 = 0 ∨ inst.bottom_net_ids.getD j 0 = 0
  · simp only [if_pos hz]
    exact ⟨h1, h2⟩
  · simp only [if_neg hz]
    by_cases hne : inst.top_net_ids.getD j 0 ≠ inst.bottom_net_ids.getD j 0
    · simp only [if_pos hne]
      constructor
      · show x ∈ (Function.update g.1 (inst.bottom_net_ids.getD j 0)
          (addIfAbsent (g.1 (inst.bottom_net_ids.getD j 0))
            (inst.top_net_ids.getD j 0))) k
        rw [Function.update_apply]
        by_cases hkb : k = inst.bottom_net_ids.getD j 0
        · rw [if_pos hkb]
          exact addIfAbsent_mono _ _ _ (hkb ▸ h1)
        · rw [if_neg hkb]
          exact h1
      · show y ∈ (Function.update g.2 (inst.top_net_ids.getD j 0)
          (addIfAbsent (g.2 (inst.top_net_ids.getD j 0))
            (inst.bottom_net_ids.getD j 0))) k2
        rw [Function.update_apply]
        by_cases hkt : k2 = inst.top_net_ids.getD j 0
        · rw [if_pos hkt]
          exact addIfAbsent_mono _ _ _ (hkt ▸ h2)
        · rw [if_neg hkt]
          exact h2
    · simp only [if_neg hne]
      exact ⟨h1, h2⟩

theorem vcgStep_establish (inst : Instance)
    (g : (Nat → List NetId) × (Nat → List NetId)) (i : Nat) (m n : Nat)
    (hm : inst.top_net_ids.getD i 0 = m)
    (hn : inst.bottom_net_ids.getD i 0 = n)
    (hm0 : m ≠ 0) (hn0 : n ≠ 0) (hmn : m ≠ n) :
    m ∈ (vcgStep inst g i).1 n ∧ n ∈ (vcgStep inst g i).2 m := by
  simp only [vcgStep, hm, hn]
  rw [if_neg (by tauto), if_pos hmn]
  constructor
  · show m ∈ (Function.update g.1 n (addIfAbsent (g.1 n) m)) n
    rw [Function.update_apply, if_pos rfl]
    exact addIfAbsent_self _ _
  · show n ∈ (Function.update g.2 m (addIfAbsent (g.2 m) n)) m
    rw [Function.update_apply, if_pos rfl]
    exact addIfAbsent_self _ _

/-- Every column with distinct nonempty top and bottom nets produces the
vertical-constraint edge and its inverse. -/
theorem vcg_edge (inst : Instance) (i : Nat) (hi : i < numberOfPins inst)
    (m n : Nat) (hm : inst.top_net_ids.getD i 0 = m)
    (hn : inst.bottom_net_ids.getD i 0 = n)
    (hm0 : m ≠ 0) (hn0 : n ≠ 0) (hmn : m ≠ n) :
    m ∈ (verticalConstraintGraphs inst).1 n ∧
      n ∈ (verticalConstraintGraphs inst).2 m :=
  foldl_establish (vcgStep inst)
    (fun g => m ∈ g.1 n ∧ n ∈ g.2 m) i (numberOfPins inst) hi
    (fun a j h => vcgStep_pres inst a j m n n m h.1 h.2)
    (fun a => vcgStep_establish inst a i m n hm hn hm0 hn0 hmn) _

theorem foldl_max_init : ∀ (l : List Nat) (a : Nat), a ≤ l.foldl max a := by
  intro l
  induction l with
  | nil => exact fun a => Nat.le_refl a
  | cons x xs ih =>
    intro a
    rw [List.foldl_cons]
    exact Nat.le_trans (Nat.le_max_left a x) (ih (max a x))

theorem foldl_max_mem : ∀ (l : List Nat) (a x : Nat), x ∈ l →
    x ≤ l.foldl max a := by
  intro l
  induction l with
  | nil =>
    intro a x hx
    exact absurd hx (List.not_mem_nil x)
  | cons y ys ih =>
    intro a x hx
    rw [List.foldl_cons]
    rcases List.mem_cons.mp hx with h | h
    · subst h
      exact Nat.le_trans (Nat.le_max_right a x) (foldl_max_init ys (max a x))
    · exact ih (max a y) x h

/-- A nonzero net id read off either row is at most `number_of_nets_`. -/
theorem net_le_numberOfNets (inst : Instance) (i : Nat) (id : Nat)
    (hid0 : id ≠ 0)
    (hid : inst.top_net_ids.getD i 0 = id ∨
      inst.bottom_net_ids.getD i 0 = id) :
    id ≤ numberOfNets inst := by
  rcases hid with h | h
  · by_cases hlen : i < inst.top_net_ids.length
    · have hmem : id ∈ inst.top_net_ids := by
        rw [← h, List.getD_eq_getElem _ _ hlen]
        exact List.getElem_mem hlen
      exact Nat.le_trans (foldl_max_mem _ 0 id hmem) (Nat.le_max_left _ _)
    · rw [List.getD_eq_default _ _ (by omega)] at h
      exact absurd h.symm hid0
  · by_cases hlen : i < inst.bottom_net_ids.length
    · have hmem : id ∈ inst.bottom_net_ids := by
        rw [← h, List.getD_eq_getElem _ _ hlen]
        exact List.getElem_mem hlen
      exact Nat.le_trans (foldl_max_mem _ 0 id hmem) (Nat.le_max_right _ _)
    · rw [List.getD_eq_default _ _ (by omega)] at h
      exact absurd h.symm hid0

/-! ### Facts about the horizontal constraint graph list -/

theorem insertByStart_perm (e : Interval × NetId)
    (l : List (Interval × NetId)) : (insertByStart e l).Perm (e :: l) := by
  induction l with
  | nil => exact List.Perm.refl _
  | cons x xs ih =>
    rw [insertByStart]
    by_cases h : e.1.1 < x.1.1
    · rw [if_pos h]
    · rw [if_neg h]
      exact List.Perm.trans (ih.cons x) (List.Perm.swap e x xs)

theorem foldr_insertByStart_perm : ∀ l : List (Interval × NetId),
    (l.foldr insertByStart []).Perm l := by
  intro l
  induction l with
  | nil => exact List.Perm.refl _
  | cons x xs ih =>
    rw [List.foldr_cons]
    exact List.Perm.trans (insertByStart_perm x (xs.foldr insertByStart []))
      (ih.cons x)

theorem hcg_perm (inst : Instance) :
    (horizontalConstraintGraph inst).Perm
      ((List.range (numberOfNets inst)).map
        (fun k => (intervalOfNets inst (k + 1), k + 1))) :=
  foldr_insertByStart_perm _

theorem hcg_mem_elim (inst : Instance) (e : Interval × NetId)
    (he : e ∈ horizontalConstraintGraph inst) :
    1 ≤ e.2 ∧ e.2 ≤ numberOfNets inst ∧ e.1 = intervalOfNets inst e.2 := by
  have h := (hcg_perm inst).mem_iff.mp he
  rw [List.mem_map] at h
  obtain ⟨k, hk, hke⟩ := h
  rw [List.mem_range] at hk
  subst hke
  exact ⟨by show 1 ≤ k + 1; omega, by show k + 1 ≤ numberOfNets inst; omega, rfl⟩

theorem hcg_mem_intro (inst : Instance) (id : Nat) (h1 : 1 ≤ id)
    (h2 : id ≤ numberOfNets inst) :
    (intervalOfNets inst id, id) ∈ horizontalConstraintGraph inst := by
  rw [(hcg_perm inst).mem_iff, List.mem_map]
  exact ⟨id - 1, by rw [List.mem_range]; omega, by
    have : id - 1 + 1 = id := by omega
    rw [this]⟩

theorem hcg_ids_nodup (inst : Instance) :
    ((horizontalConstraintGraph inst).map (fun e => e.2)).Nodup := by
  have hperm := (hcg_perm inst).map (fun e => e.2)
  refine hperm.nodup_iff.mpr ?_
  rw [List.map_map]
  have : ((fun e => e.2) ∘ fun k => (intervalOfNets inst (k + 1), k + 1))
      = (fun k => k + 1) := rfl
  rw [this]
  exact List.Nodup.map (fun a b h => by simpa using h) (List.nodup_range _)

/-- All intervals in the horizontal constraint graph are well formed
when every net id `1..N` appears in some column. -/
theorem hcg_wf (inst : Instance)
    (happ : ∀ id, id ≤ numberOfNets inst → 1 ≤ id →
      ∃ i, i < numberOfPins inst ∧
        (inst.top_net_ids.getD i 0 = id ∨
          inst.bottom_net_ids.getD i 0 = id)) :
    ∀ e ∈ horizontalConstraintGraph inst, e.1.1 ≤ e.1.2 := by
  intro e he
  obtain ⟨h1, h2, h3⟩ := hcg_mem_elim inst e he
  obtain ⟨i, hi, hid⟩ := happ e.2 h2 h1
  have hcov := intervalOfNets_covers inst i hi e.2 hid
  rw [h3]
  omega


/-! ### Locating a net in the emitted tracks -/

theorem getD_mem_flatten {α : Type} (L : List (List α)) (j : Nat) (e : α)
    (he : e ∈ L.getD j []) : e ∈ L.flatten := by
  by_cases hj : j < L.length
  · rw [List.getD_eq_getElem _ _ hj] at he
    rw [List.mem_flatten]
    exact ⟨L[j], List.getElem_mem hj, he⟩
  · rw [List.getD_eq_default _ _ (by omega)] at he
    exact absurd he (List.not_mem_nil e)

/-- In a family of tracks whose flattened net ids have no duplicates, a
net id determines its track index. -/
theorem flatten_nodup_unique :
    ∀ (L : List (List (Interval × NetId)))
      (_ : ((L.flatten).map (fun e => e.2)).Nodup)
      (j1 j2 : Nat) (e1 e2 : Interval × NetId),
      e1 ∈ L.getD j1 [] → e2 ∈ L.getD j2 [] → e1.2 = e2.2 → j1 = j2 := by
  intro L
  induction L with
  | nil =>
    intro _ j1 j2 e1 e2 h1
    rw [List.getD_eq_default _ _ (Nat.zero_le j1)] at h1
    exact absurd h1 (List.not_mem_nil e1)
  | cons tr rest ih =>
    intro hnd j1 j2 e1 e2 h1 h2 h12
    rw [List.flatten_cons, List.map_append] at hnd
    have hdisj := List.disjoint_of_nodup_append hnd
    cases j1 with
    | zero =>
      cases j2 with
      | zero => rfl
      | succ j2 =>
        rw [List.getD_cons_zero] at h1
        rw [List.getD_cons_succ] at h2
        exact absurd (List.mem_map.mpr ⟨e2, getD_mem_flatten rest j2 e2 h2, rfl⟩)
          (hdisj (List.mem_map.mpr ⟨e1, h1, h12⟩))
    | succ j1 =>
      cases j2 with
      | zero =>
        rw [List.getD_cons_succ] at h1
        rw [List.getD_cons_zero] at h2
        exact absurd (List.mem_map.mpr ⟨e1, getD_mem_flatten rest j1 e1 h1, h12⟩)
          (hdisj (List.mem_map.mpr ⟨e2, h2, rfl⟩))
      | succ j2 =>
        rw [List.getD_cons_succ] at h1 h2
        exact congrArg (· + 1)
          (ih (List.Nodup.of_append_right hnd) j1 j2 e1 e2 h1 h2 h12)

theorem findTrackIdx_eq_none (id : NetId) :
    ∀ L : List (List (Interval × NetId)),
      (∀ tr ∈ L, ∀ e ∈ tr, e.2 ≠ id) → findTrackIdx id L = none := by
  intro L
  induction L with
  | nil => intro _; rfl
  | cons tr rest ih =>
    intro h
    rw [findTrackIdx]
    have hany : tr.any (fun e => decide (e.2 = id)) = false := by
      rw [List.any_eq_false]
      intro e he
      simpa using h tr (by simp) e he
    rw [if_neg (by rw [hany]; simp), ih (fun tr2 h2 => h tr2 (by simp [h2]))]
    rfl

theorem findTrackIdx_eq_some (id : NetId) :
    ∀ (L : List (List (Interval × NetId))) (j : Nat), j < L.length →
      (∃ e ∈ L.getD j [], e.2 = id) →
      (∀ j2, j2 < j → ∀ e ∈ L.getD j2 [], e.2 ≠ id) →
      findTrackIdx id L = some j := by
  intro L
  induction L with
  | nil =>
    intro j hj
    exact absurd hj (by simp)
  | cons tr rest ih =>
    intro j hj hmem hmin
    cases j with
    | zero =>
      rw [List.getD_cons_zero] at hmem
      obtain ⟨e, he, heid⟩ := hmem
      rw [findTrackIdx, if_pos (List.any_eq_true.mpr ⟨e, he, by simp [heid]⟩)]
    | succ j =>
      rw [List.getD_cons_succ] at hmem
      have hany : tr.any (fun e => decide (e.2 = id)) = false := by
        rw [List.any_eq_false]
        intro e he
        simpa using hmin 0 (Nat.succ_pos j) e (by rw [List.getD_cons_zero]; exact he)
      rw [findTrackIdx, if_neg (by rw [hany]; simp),
        ih j (by simpa using hj) hmem
          (fun j2 hj2 e he => hmin (j2 + 1) (by omega) e
            (by rw [List.getD_cons_succ]; exact he))]
      rfl

/-- Two nets of one track cannot both cover column `i`. -/
theorem not_same_track (tr : List (Interval × NetId))
    (hpw : tr.Pairwise (fun a b => a.1.2 < b.1.1))
    (em en : Interval × NetId) (hm : em ∈ tr) (hn : en ∈ tr)
    (hne : em.2 ≠ en.2) (i : Nat)
    (hmi : em.1.1 ≤ i ∧ i ≤ em.1.2) (hni : en.1.1 ≤ i ∧ i ≤ en.1.2) :
    False := by
  have hpw2 : tr.Pairwise
      (fun a b => a.1.2 < b.1.1 ∨ b.1.2 < a.1.1) :=
    hpw.imp (fun h => Or.inl h)
  have hsym : Symmetric
      (fun (a b : Interval × NetId) => a.1.2 < b.1.1 ∨ b.1.2 < a.1.1) := by
    intro a b h
    rcases h with h | h
    · exact Or.inr h
    · exact Or.inl h
  have hemn : em ≠ en := fun h => hne (by rw [h])
  rcases hpw2.forall hsym hm hn hemn with h | h
  · omega
  · omega


/-- **C2**: on every instance whose nets are consecutively numbered and
on which `Route()` terminates, (i) every net `1..N` sits in exactly one
emitted track, (ii) within every emitted track the intervals are
pairwise disjoint in columns, and (iii) for every vertical-constraint
edge (top net `m` over bottom net `n` at some column, `m ≠ n`, neither
empty) the track of `m` is strictly higher than the track of `n`. -/
theorem router_route_invariants (inst : Instance) (fuel : Nat)
    (res : RouteResult)
    (happ : ∀ id, id ≤ numberOfNets inst → 1 ≤ id →
      ∃ i, i < numberOfPins inst ∧
        (inst.top_net_ids.getD i 0 = id ∨
          inst.bottom_net_ids.getD i 0 = id))
    (hres : route inst fuel = some res) :
    (((res.top_tracks ++ res.tracks ++ res.bottom_tracks).flatten.map
        (fun e => e.2)).Nodup ∧
      (∀ id, id ∈ (res.top_tracks ++ res.tracks ++
          res.bottom_tracks).flatten.map (fun e => e.2) ↔
        (1 ≤ id ∧ id ≤ numberOfNets inst)))
    ∧ (∀ tr ∈ res.top_tracks ++ res.tracks ++ res.bottom_tracks,
        tr.Pairwise (fun a b => a.1.2 < b.1.1))
    ∧ (∀ i, i < numberOfPins inst → ∀ m n,
        inst.top_net_ids.getD i 0 = m → inst.bottom_net_ids.getD i 0 = n →
        m ≠ 0 → n ≠ 0 → m ≠ n →
        ∃ rm rn, trackRankOf res m = some rm ∧
          trackRankOf res n = some rn ∧ rn < rm) := by
  have hwf := hcg_wf inst happ
  simp only [route] at hres
  set N := numberOfNets inst with hN
  set hcg := horizontalConstraintGraph inst with hhcg
  set g := verticalConstraintGraphs inst with hg
  set topO := routeInBoundaries g.1 inst.top_boundaries hcg
    (fun _ => false) 0 with htopO
  set botO := routeInBoundaries g.2 inst.bottom_boundaries hcg
    topO.2.1 topO.2.2 with hbotO
  obtain ⟨rt, hrt, hres2⟩ := Option.map_eq_some'.mp hres
  replace hres2 : RouteResult.mk topO.1 rt.1 botO.1 = res := hres2
  have PT : PhaseOut g.1 hcg (fun _ => false) 0 topO :=
    routeInBoundariesGo_out g.1 hcg inst.top_boundaries hwf _ _ _ _
  have PB : PhaseOut g.2 hcg topO.2.1 topO.2.2 botO :=
    routeInBoundariesGo_out g.2 hcg inst.bottom_boundaries hwf _ _ _ _
  obtain ⟨nt, hnt, CH, hdone⟩ :=
    routeInTracks_out g.1 hcg N hwf fuel botO.2.1 botO.2.2 [] rt hrt
  simp only [List.nil_append] at hnt
  have hTT : res.top_tracks = topO.1 := by rw [← hres2]
  have hCT : res.tracks = nt := by
    rw [← hres2]
    exact hnt
  have hBT : res.bottom_tracks = botO.1 := by rw [← hres2]
  -- routed-flag characterisations
  have hr1 : ∀ id, topO.2.1 id = true ↔
      ∃ tr ∈ topO.1, ∃ e ∈ tr, e.2 = id := by
    intro id
    rw [PT.flip id]
    simp
  have hr2 : ∀ id, botO.2.1 id = true ↔
      (topO.2.1 id = true ∨ ∃ tr ∈ botO.1, ∃ e ∈ tr, e.2 = id) :=
    fun id => PB.flip id
  have hrF : ∀ id, rt.2.1 id = true ↔
      (botO.2.1 id = true ∨ ∃ tr ∈ nt, ∃ e ∈ tr, e.2 = id) :=
    fun id => CH.flip id
  have hBonce : ∀ tr ∈ botO.1, ∀ e ∈ tr, topO.2.1 e.2 = false :=
    PB.once
  have hConce : ∀ tr ∈ nt, ∀ e ∈ tr, botO.2.1 e.2 = false := CH.once
  -- region nodups
  have ndT : ((topO.1.flatten).map (fun e => e.2)).Nodup := PT.uniq
  have ndC : ((nt.flatten).map (fun e => e.2)).Nodup := CH.uniq
  have ndB : ((botO.1.flatten).map (fun e => e.2)).Nodup := PB.uniq
  -- region memberships and hcg facts
  have memT : ∀ tr ∈ topO.1, ∀ e ∈ tr, e ∈ hcg := PT.mem
  have memC : ∀ tr ∈ nt, ∀ e ∈ tr, e ∈ hcg := CH.mem
  have memB : ∀ tr ∈ botO.1, ∀ e ∈ tr, e ∈ hcg := PB.mem
  -- cross-region exclusivity, phrased on ids
  have hTid : ∀ id, (∃ tr ∈ topO.1, ∃ e ∈ tr, e.2 = id) →
      topO.2.1 id = true := fun id h => (hr1 id).mpr h
  have hBid : ∀ id, (∃ tr ∈ botO.1, ∃ e ∈ tr, e.2 = id) →
      topO.2.1 id = false := by
    intro id h
    obtain ⟨tr, htr, e, he, heid⟩ := h
    rw [← heid]
    exact hBonce tr htr e he
  have hCid : ∀ id, (∃ tr ∈ nt, ∃ e ∈ tr, e.2 = id) →
      botO.2.1 id = false := by
    intro id h
    obtain ⟨tr, htr, e, he, heid⟩ := h
    rw [← heid]
    exact hConce tr htr e he
  have hTB : ∀ id, (∃ tr ∈ topO.1, ∃ e ∈ tr, e.2 = id) →
      (∃ tr ∈ botO.1, ∃ e ∈ tr, e.2 = id) → False := by
    intro id h1 h2
    have := hTid id h1
    rw [hBid id h2] at this
    exact Bool.noConfusion this
  have hTC : ∀ id, (∃ tr ∈ topO.1, ∃ e ∈ tr, e.2 = id) →
      (∃ tr ∈ nt, ∃ e ∈ tr, e.2 = id) → False := by
    intro id h1 h2
    have hb : botO.2.1 id = true := PB.mono id (hTid id h1)
    rw [hCid id h2] at hb
    exact Bool.noConfusion hb
  have hBC : ∀ id, (∃ tr ∈ botO.1, ∃ e ∈ tr, e.2 = id) →
      (∃ tr ∈ nt, ∃ e ∈ tr, e.2 = id) → False := by
    intro id h1 h2
    have hb : botO.2.1 id = true := (hr2 id).mpr (Or.inr h1)
    rw [hCid id h2] at hb
    exact Bool.noConfusion hb
  -- mem of flatten ↔ region predicate
  have hflat : ∀ (L : List (List (Interval × NetId))) (id : NetId),
      (id ∈ (L.flatten).map (fun e => e.2)) ↔
        ∃ tr ∈ L, ∃ e ∈ tr, e.2 = id := by
    intro L id
    rw [List.mem_map]
    constructor
    · intro ⟨e, he, heid⟩
      rw [List.mem_flatten] at he
      obtain ⟨tr, htr, hetr⟩ := he
      exact ⟨tr, htr, e, hetr, heid⟩
    · intro ⟨tr, htr, e, hetr, heid⟩
      exact ⟨e, List.mem_flatten.mpr ⟨tr, htr, hetr⟩, heid⟩
  -- (i) nodup
  have hflat3 : (res.top_tracks ++ res.tracks ++
      res.bottom_tracks).flatten.map (fun e => e.2) =
      ((topO.1.flatten).map (fun e => e.2) ++
        ((nt.flatten).map (fun e => e.2) ++
          (botO.1.flatten).map (fun e => e.2))) := by
    rw [hTT, hCT, hBT, List.append_assoc, List.flatten_append,
      List.flatten_append, List.map_append, List.map_append]
  have hnodup : ((res.top_tracks ++ res.tracks ++
      res.bottom_tracks).flatten.map (fun e => e.2)).Nodup := by
    rw [hflat3]
    refine List.Nodup.append ndT (List.Nodup.append ndC ndB ?_) ?_
    · intro x hx1 hx2
      exact hBC x ((hflat botO.1 x).mp hx2) ((hflat nt x).mp hx1)
    · intro x hx1 hx2
      rw [List.mem_append] at hx2
      rcases hx2 with h | h
      · exact hTC x ((hflat topO.1 x).mp hx1) ((hflat nt x).mp h)
      · exact hTB x ((hflat topO.1 x).mp hx1) ((hflat botO.1 x).mp h)
  -- all placed ids are in 1..N
  have hrange : ∀ id, id ∈ (res.top_tracks ++ res.tracks ++
      res.bottom_tracks).flatten.map (fun e => e.2) →
      1 ≤ id ∧ id ≤ N := by
    intro id hid
    rw [hflat3, List.mem_append, List.mem_append] at hid
    have hone : ∃ e ∈ hcg, e.2 = id := by
      rcases hid with h | h | h
      · obtain ⟨tr, htr, e, he, heid⟩ := (hflat topO.1 id).mp h
        exact ⟨e, memT tr htr e he, heid⟩
      · obtain ⟨tr, htr, e, he, heid⟩ := (hflat nt id).mp h
        exact ⟨e, memC tr htr e he, heid⟩
      · obtain ⟨tr, htr, e, he, heid⟩ := (hflat botO.1 id).mp h
        exact ⟨e, memB tr htr e he, heid⟩
    obtain ⟨e, he, heid⟩ := hone
    have := hcg_mem_elim inst e he
    rw [heid] at this
    exact ⟨this.1, this.2.1⟩
  -- counting: everything in 1..N is placed
  have hlen : N ≤ ((res.top_tracks ++ res.tracks ++
      res.bottom_tracks).flatten.map (fun e => e.2)).length := by
    rw [hflat3]
    simp only [List.length_append, List.length_map]
    have h1 : topO.2.2 = 0 + (topO.1.flatten).length := PT.cnt
    have h2 : botO.2.2 = topO.2.2 + (botO.1.flatten).length := PB.cnt
    have h3 : rt.2.2 = botO.2.2 + (nt.flatten).length := CH.cnt
    omega
  have hmem_iff : ∀ id, id ∈ (res.top_tracks ++ res.tracks ++
      res.bottom_tracks).flatten.map (fun e => e.2) ↔
      (1 ≤ id ∧ id ≤ N) := by
    intro id
    constructor
    · exact hrange id
    · intro hid
      set l := (res.top_tracks ++ res.tracks ++
        res.bottom_tracks).flatten.map (fun e => e.2) with hl
      have hsub : l.toFinset ⊆ Finset.Icc 1 N := by
        intro x hx
        rw [List.mem_toFinset] at hx
        rw [Finset.mem_Icc]
        exact hrange x hx
      have hcard : (Finset.Icc 1 N).card ≤ l.toFinset.card := by
        rw [List.toFinset_card_of_nodup hnodup, Nat.card_Icc]
        omega
      have := Finset.eq_of_subset_of_card_le hsub hcard
      rw [← List.mem_toFinset, this, Finset.mem_Icc]
      exact hid
  refine ⟨⟨hnodup, hmem_iff⟩, ?_, ?_⟩
  · -- (ii)
    intro tr htr
    rw [List.append_assoc, List.mem_append, List.mem_append] at htr
    rcases htr with h | h | h
    · exact PT.pw tr (by rw [← hTT]; exact h)
    · exact CH.pw tr (by rw [← hCT]; exact h)
    · exact PB.pw tr (by rw [← hBT]; exact h)
  · -- (iii)
    intro i hi m n hm hn hm0 hn0 hmn
    have hmN : m ≤ N := net_le_numberOfNets inst i m hm0 (Or.inl hm)
    have hnN : n ≤ N := net_le_numberOfNets inst i n hn0 (Or.inr hn)
    have hedge : m ∈ g.1 n ∧ n ∈ g.2 m := by
      rw [hg]
      exact vcg_edge inst i hi m n hm hn hm0 hn0 hmn
    -- coverage of column i by the two intervals
    have hcovm := intervalOfNets_covers inst i hi m (Or.inl hm)
    have hcovn := intervalOfNets_covers inst i hi n (Or.inr hn)
    -- locate a net: a region and a track index
    have locate : ∀ id, 1 ≤ id → id ≤ N →
        (∃ j, j < topO.1.length ∧ ∃ e ∈ topO.1.getD j [], e.2 = id) ∨
        (∃ j, j < nt.length ∧ ∃ e ∈ nt.getD j [], e.2 = id) ∨
        (∃ j, j < botO.1.length ∧ ∃ e ∈ botO.1.getD j [], e.2 = id) := by
      intro id h1 h2
      have hid := (hmem_iff id).mpr ⟨h1, h2⟩
      rw [hflat3, List.mem_append, List.mem_append] at hid
      rcases hid with h | h | h
      · obtain ⟨tr, htr, e, he, heid⟩ := (hflat topO.1 id).mp h
        obtain ⟨j, hj, hjtr⟩ := List.mem_iff_getElem.mp htr
        exact Or.inl ⟨j, hj, e,
          by rw [List.getD_eq_getElem _ _ hj, hjtr]; exact he, heid⟩
      · obtain ⟨tr, htr, e, he, heid⟩ := (hflat nt id).mp h
        obtain ⟨j, hj, hjtr⟩ := List.mem_iff_getElem.mp htr
        exact Or.inr (Or.inl ⟨j, hj, e,
          by rw [List.getD_eq_getElem _ _ hj, hjtr]; exact he, heid⟩)
      · obtain ⟨tr, htr, e, he, heid⟩ := (hflat botO.1 id).mp h
        obtain ⟨j, hj, hjtr⟩ := List.mem_iff_getElem.mp htr
        exact Or.inr (Or.inr ⟨j, hj, e,
          by rw [List.getD_eq_getElem _ _ hj, hjtr]; exact he, heid⟩)
    -- getD membership gives the region predicate
    have regQ : ∀ (L : List (List (Interval × NetId))) (j : Nat) (id : NetId),
        (∃ e ∈ L.getD j [], e.2 = id) → ∃ tr ∈ L, ∃ e ∈ tr, e.2 = id := by
      intro L j id ⟨e, he, heid⟩
      have := getD_mem_flatten L j e he
      rw [List.mem_flatten] at this
      obtain ⟨tr, htr, hetr⟩ := this
      exact ⟨tr, htr, e, hetr, heid⟩
    -- the interval carried by an entry of any region is the net interval
    have entIv : ∀ (e : Interval × NetId), e ∈ hcg →
        e.1 = intervalOfNets inst e.2 :=
      fun e he => (hcg_mem_elim inst e he).2.2
    -- rank computations
    have rank_top : ∀ id j, j < topO.1.length →
        (∃ e ∈ topO.1.getD j [], e.2 = id) →
        trackRankOf res id = some (botO.1.length + nt.length + j) := by
      intro id j hj hmem
      have habs_bot : findTrackIdx id res.bottom_tracks = none := by
        rw [hBT]
        refine findTrackIdx_eq_none id botO.1 ?_
        intro tr htr e he heid
        exact hTB id (regQ topO.1 j id hmem) ⟨tr, htr, e, he, heid⟩
      have habs_chan : findTrackIdx id res.tracks = none := by
        rw [hCT]
        refine findTrackIdx_eq_none id nt ?_
        intro tr htr e he heid
        exact hTC id (regQ topO.1 j id hmem) ⟨tr, htr, e, he, heid⟩
      have hpres : findTrackIdx id res.top_tracks = some j := by
        rw [hTT]
        refine findTrackIdx_eq_some id topO.1 j hj hmem ?_
        intro j2 hj2 e he heid
        obtain ⟨e1, he1, he1id⟩ := hmem
        have := flatten_nodup_unique topO.1 ndT j2 j e e1 he he1
          (by rw [heid, he1id])
        omega
      simp only [trackRankOf, habs_bot, habs_chan, hpres, Option.map_some']
      rw [hBT, hCT]
    have rank_chan : ∀ id j, j < nt.length →
        (∃ e ∈ nt.getD j [], e.2 = id) →
        trackRankOf res id = some (botO.1.length + (nt.length - 1 - j)) := by
      intro id j hj hmem
      have habs_bot : findTrackIdx id res.bottom_tracks = none := by
        rw [hBT]
        refine findTrackIdx_eq_none id botO.1 ?_
        intro tr htr e he heid
        exact hBC id ⟨tr, htr, e, he, heid⟩ (regQ nt j id hmem)
      have hpres : findTrackIdx id res.tracks = some j := by
        rw [hCT]
        refine findTrackIdx_eq_some id nt j hj hmem ?_
        intro j2 hj2 e he heid
        obtain ⟨e1, he1, he1id⟩ := hmem
        have := flatten_nodup_unique nt ndC j2 j e e1 he he1
          (by rw [heid, he1id])
        omega
      simp only [trackRankOf, habs_bot, hpres]
      rw [hBT, hCT]
    have rank_bot : ∀ id j, j < botO.1.length →
        (∃ e ∈ botO.1.getD j [], e.2 = id) →
        trackRankOf res id = some (botO.1.length - 1 - j) := by
      intro id j hj hmem
      have hpres : findTrackIdx id res.bottom_tracks = some j := by
        rw [hBT]
        refine findTrackIdx_eq_some id botO.1 j hj hmem ?_
        intro j2 hj2 e he heid
        obtain ⟨e1, he1, he1id⟩ := hmem
        have := flatten_nodup_unique botO.1 ndB j2 j e e1 he he1
          (by rw [heid, he1id])
        omega
      simp only [trackRankOf, hpres]
      rw [hBT]
    -- same-track exclusion for m and n in a common track
    have hexcl : ∀ (L : List (List (Interval × NetId)))
        (hpwL : ∀ tr ∈ L, tr.Pairwise (fun a b => a.1.2 < b.1.1))
        (hmemL : ∀ tr ∈ L, ∀ e ∈ tr, e ∈ hcg) (j : Nat),
        (∃ e ∈ L.getD j [], e.2 = m) → (∃ e ∈ L.getD j [], e.2 = n) →
        False := by
      intro L hpwL hmemL j ⟨em, hem, hemid⟩ ⟨en, hen, henid⟩
      by_cases hj : j < L.length
      · have htrL : L.getD j [] ∈ L := by
          rw [List.getD_eq_getElem _ _ hj]
          exact List.getElem_mem hj
        have hemhcg : em ∈ hcg := hmemL _ htrL em hem
        have henhcg : en ∈ hcg := hmemL _ htrL en hen
        refine not_same_track (L.getD j []) (hpwL _ htrL) em en hem hen
          (by rw [hemid, henid]; exact hmn) i ?_ ?_
        · rw [entIv em hemhcg, hemid]
          exact hcovm
        · rw [entIv en henhcg, henid]
          exact hcovn
      · rw [List.getD_eq_default _ _ (by omega)] at hem
        exact absurd hem (List.not_mem_nil em)
    rcases locate m (Nat.one_le_iff_ne_zero.mpr hm0) hmN with
        ⟨jm, hjm, hmemm⟩ | ⟨jm, hjm, hmemm⟩ | ⟨jm, hjm, hmemm⟩ <;>
      rcases locate n (Nat.one_le_iff_ne_zero.mpr hn0) hnN with
        ⟨jn, hjn, hmemn⟩ | ⟨jn, hjn, hmemn⟩ | ⟨jn, hjn, hmemn⟩
    · -- top, top
      obtain ⟨en, hen, henid⟩ := hmemn
      rcases PT.par jn en hen m (by rw [henid]; exact hedge.1) with h | h
      · exact absurd h (by simp)
      · obtain ⟨j2, hj2a, hj2b, e2, he2, he2id⟩ := h
        obtain ⟨em, hem, hemid⟩ := hmemm
        have hj2m : jm = j2 := flatten_nodup_unique topO.1 ndT jm j2 em e2
          hem he2 (by rw [hemid, he2id])
        have hne : jm ≠ jn := by
          intro hjeq
          exact hexcl topO.1 PT.pw memT jn
            (by rw [← hjeq]; exact ⟨em, hem, hemid⟩) ⟨en, hen, henid⟩
        refine ⟨botO.1.length + nt.length + jm, botO.1.length + nt.length + jn,
          rank_top m jm hjm ⟨em, hem, hemid⟩,
          rank_top n jn hjn ⟨en, hen, henid⟩, by omega⟩
    · -- top, chan
      refine ⟨botO.1.length + nt.length + jm,
        botO.1.length + (nt.length - 1 - jn),
        rank_top m jm hjm hmemm, rank_chan n jn hjn hmemn, by omega⟩
    · -- top, bottom
      refine ⟨botO.1.length + nt.length + jm, botO.1.length - 1 - jn,
        rank_top m jm hjm hmemm, rank_bot n jn hjn hmemn, by omega⟩
    · -- chan, top
      obtain ⟨en, hen, henid⟩ := hmemn
      rcases PT.par jn en hen m (by rw [henid]; exact hedge.1) with h | h
      · exact absurd h (by simp)
      · obtain ⟨j2, _, _, e2, he2, he2id⟩ := h
        exact absurd (hTC m (regQ topO.1 j2 m ⟨e2, he2, he2id⟩)
          (regQ nt jm m hmemm)) (fun h => h)
    · -- chan, chan
      obtain ⟨en, hen, henid⟩ := hmemn
      rcases CH.par jn en hen m (by rw [henid]; exact hedge.1) with h | h
      · exact absurd (hCid m (regQ nt jm m hmemm)) (by rw [h]; simp)
      · obtain ⟨j2, hj2a, hj2b, e2, he2, he2id⟩ := h
        obtain ⟨em, hem, hemid⟩ := hmemm
        have hj2m : jm = j2 := flatten_nodup_unique nt ndC jm j2 em e2
          hem he2 (by rw [hemid, he2id])
        have hne : jm ≠ jn := by
          intro hjeq
          exact hexcl nt CH.pw memC jn
            (by rw [← hjeq]; exact ⟨em, hem, hemid⟩) ⟨en, hen, henid⟩
        refine ⟨botO.1.length + (nt.length - 1 - jm),
          botO.1.length + (nt.length - 1 - jn),
          rank_chan m jm hjm ⟨em, hem, hemid⟩,
          rank_chan n jn hjn ⟨en, hen, henid⟩, by omega⟩
    · -- chan, bottom
      refine ⟨botO.1.length + (nt.length - 1 - jm), botO.1.length - 1 - jn,
        rank_chan m jm hjm hmemm, rank_bot n jn hjn hmemn, by omega⟩
    · -- bottom, top
      obtain ⟨en, hen, henid⟩ := hmemn
      rcases PT.par jn en hen m (by rw [henid]; exact hedge.1) with h | h
      · exact absurd h (by simp)
      · obtain ⟨j2, _, _, e2, he2, he2id⟩ := h
        exact absurd (hTB m (regQ topO.1 j2 m ⟨e2, he2, he2id⟩)
          (regQ botO.1 jm m hmemm)) (fun h => h)
    · -- bottom, chan
      obtain ⟨em, hem, hemid⟩ := hmemm
      rcases PB.par jm em hem n (by rw [hemid]; exact hedge.2) with h | h
      · have hntop : ∃ tr ∈ topO.1, ∃ e ∈ tr, e.2 = n := (hr1 n).mp h
        exact absurd (hTC n hntop (regQ nt jn n hmemn)) (fun h => h)
      · obtain ⟨j2, _, _, e2, he2, he2id⟩ := h
        exact absurd (hBC n (regQ botO.1 j2 n ⟨e2, he2, he2id⟩)
          (regQ nt jn n hmemn)) (fun h => h)
    · -- bottom, bottom
      obtain ⟨em, hem, hemid⟩ := hmemm
      rcases PB.par jm em hem n (by rw [hemid]; exact hedge.2) with h | h
      · have hntop : ∃ tr ∈ topO.1, ∃ e ∈ tr, e.2 = n := (hr1 n).mp h
        exact absurd (hTB n hntop (regQ botO.1 jn n hmemn)) (fun h => h)
      · obtain ⟨j2, hj2a, hj2b, e2, he2, he2id⟩ := h
        obtain ⟨en, hen, henid⟩ := hmemn
        have hj2n : jn = j2 := flatten_nodup_unique botO.1 ndB jn j2 en e2
          hen he2 (by rw [henid, he2id])
        have hne : jm ≠ jn := by
          intro hjeq
          exact hexcl botO.1 PB.pw memB jn
            (by rw [← hjeq]; exact ⟨em, hem, hemid⟩) ⟨en, hen, henid⟩
        refine ⟨botO.1.length - 1 - jm, botO.1.length - 1 - jn,
          rank_bot m jm hjm ⟨em, hem, hemid⟩,
          rank_bot n jn hjn ⟨en, hen, henid⟩, by omega⟩


/-- A concrete two-net instance with the vertical constraint `1 → 2`
(column 0 has net 1 over net 2). -/
def wInst : Instance := ⟨[[]], [[]], [1, 2], [2, 2]⟩

def wRes : RouteResult := (route wInst 5).getD ⟨[], [], []⟩

theorem router_route_invariants_witness :
    (((wRes.top_tracks ++ wRes.tracks ++ wRes.bottom_tracks).flatten.map
        (fun e => e.2)).Nodup) ∧
    (2 ∈ (wRes.top_tracks ++ wRes.tracks ++ wRes.bottom_tracks).flatten.map
        (fun e => e.2) ↔ (1 ≤ 2 ∧ 2 ≤ numberOfNets wInst)) ∧
    ([((0, 0), 1)].Pairwise
      (fun (a b : Interval × NetId) => a.1.2 < b.1.1)) ∧
    (∃ rm rn, trackRankOf wRes 1 = some rm ∧ trackRankOf wRes 2 = some rn ∧
      rn < rm) := by
  have h := router_route_invariants wInst 5 wRes (by decide) rfl
  refine ⟨h.1.1, h.1.2 2, ?_, ?_⟩
  · exact h.2.1 [((0, 0), 1)] (by decide)
  · exact h.2.2 0 (by decide) 1 2 rfl rfl (by decide) (by decide) (by decide)

end Routing
